import Mathlib

/-!
Verification of the matching core of the Magnets.moe processor.

This file is a shallow embedding, in Lean 4, of the pure parts of the
processor's matching core:

* `src/processor/src/title_analyzer.rs` — separator detection, title
  normalization, block segmentation, name-range detection, episode
  detection, metadata extraction, and `find_show` / `search`;
* `src/processor/src/show_db.rs` — the season/year/format extractors and
  the `build_db` routine that derives search keys and the exact map;
* `src/processor/src/heap.rs` — the packed `[a-z0-9]` trie (`AsciiHeap`);
* `src/processor/src/nyaa.rs` — the page-collection loop of the torrent
  ingest driver.

Strings are modelled as `List Char`; the sources operate on ASCII bytes, and
all reasoning here stays inside the ASCII range.  Machine integers (`u32`,
`i64`) are modelled as `Nat`/`Int` with explicit bounds where overflow or
saturation matters.  Rust panics (`unwrap` of a fallible integer parse,
assertion failure) are modelled with `Except Unit` / `Option`.

The regular expressions of the source are embedded as hand-written matchers
that implement the `regex` crate's leftmost-first (earliest starting
position, first alternative preferred) semantics for exactly the patterns
appearing in the source.
-/

namespace Magnets

/-- Decidable equality for `Except`, used to evaluate the embedded fallible
functions on concrete inputs. -/
instance {ε α : Type} [DecidableEq ε] [DecidableEq α] : DecidableEq (Except ε α) := fun x y =>
  match x, y with
  | .ok a, .ok b =>
    if h : a = b then isTrue (by rw [h]) else isFalse (by intro hc; cases hc; exact h rfl)
  | .error a, .error b =>
    if h : a = b then isTrue (by rw [h]) else isFalse (by intro hc; cases hc; exact h rfl)
  | .ok _, .error _ => isFalse (by intro hc; cases hc)
  | .error _, .ok _ => isFalse (by intro hc; cases hc)

/-! ## Basic character utilities (ASCII) -/

/-- `matches!(b, b'a'..=b'z' | b'0'..=b'9')`: the restricted alphabet used by
the search keys and the heap (byte values 97-122 and 48-57). -/
def isAlnumLower (c : Char) : Bool :=
  (97 ≤ c.toNat && c.toNat ≤ 122) || (48 ≤ c.toNat && c.toNat ≤ 57)

/-- Rust `u8::to_ascii_lowercase` / `char::to_ascii_lowercase`: maps `A`-`Z`
(65-90) to `a`-`z` by adding 32 and leaves everything else unchanged. -/
def toAsciiLower (c : Char) : Char :=
  if 65 ≤ c.toNat && c.toNat ≤ 90 then Char.ofNat (c.toNat + 32) else c

/-- ASCII digit test, as used by the `\d` character class of the embedded
regular expressions (the source regexes are compiled with default settings
where `\d` is Unicode, but every string reaching them here is ASCII). -/
def isDigitCh (c : Char) : Bool :=
  48 ≤ c.toNat && c.toNat ≤ 57

/-- Word character for `\b` boundaries of the `regex` crate:
`[0-9A-Za-z_]` (ASCII fragment of `\w`). -/
def isWordCh (c : Char) : Bool :=
  (97 ≤ c.toNat && c.toNat ≤ 122) || (65 ≤ c.toNat && c.toNat ≤ 90) ||
    (48 ≤ c.toNat && c.toNat ≤ 57) || c = '_'

/-- Whitespace for the `\s` class (ASCII fragment). -/
def isSpaceCh (c : Char) : Bool :=
  c = ' ' || c = '\t' || c = '\n' || c = '\x0b' || c = '\x0c' || c = '\r'

/-- Numeric value of a digit character. -/
def digitVal (c : Char) : Nat := c.toNat - '0'.toNat

/-- Value of a digit string (most significant first); the model of
`str::parse::<u32>` before its range check. -/
def digitsVal (l : List Char) : Nat :=
  l.foldl (fun acc c => acc * 10 + digitVal c) 0

/-- `u32::MAX`. -/
def u32Max : Nat := 4294967295

/-- `str::parse::<u32>` on a non-empty digit string: fails (and the source's
`unwrap` panics) exactly when the value exceeds `u32::MAX`. -/
def parseU32 (l : List Char) : Option Nat :=
  if digitsVal l ≤ u32Max then some (digitsVal l) else none

/-! ## `title_analyzer.rs`: `find_separator` and `normalize_title` -/

/-- The scanning loop of `find_separator` (title_analyzer.rs:223):
returns `' '` at the first space; otherwise counts `_` and `.` and picks
`'_'` when `num_underscore >= num_dot` (both non-zero), `'.'` when dots
dominate, `' '` when neither occurs. -/
def findSeparatorGo : List Char → Nat → Nat → Char
  | [], nu, nd =>
    if nu = 0 && nd = 0 then ' '
    else if nu ≥ nd then '_' else '.'
  | c :: rest, nu, nd =>
    if c = ' ' then ' '
    else if c = '_' then findSeparatorGo rest (nu + 1) nd
    else if c = '.' then findSeparatorGo rest nu (nd + 1)
    else findSeparatorGo rest nu nd

/-- `find_separator` (title_analyzer.rs:223). -/
def findSeparator (title : List Char) : Char :=
  findSeparatorGo title 0 0

/-- One iteration of the character loop of `normalize_title`
(title_analyzer.rs:240): state is `(res, last_was_space)`. -/
def normalizeStep (sep : Char) (st : List Char × Bool) (c : Char) : List Char × Bool :=
  if c = sep then
    if st.2 then st else (st.1 ++ [' '], true)
  else
    (st.1 ++ [toAsciiLower c], false)

/-- `normalize_title` (title_analyzer.rs:240): lowercase, replace runs of the
separator by a single space, drop a trailing space. -/
def normalizeTitle (title : List Char) (sep : Char) : List Char :=
  let st := title.foldl (normalizeStep sep) ([], true)
  if st.2 then st.1.dropLast else st.1

/-- Normalization as used by `find_show` (title_analyzer.rs:11):
`normalize_title(title, find_separator(title))`. -/
def norm (title : List Char) : List Char :=
  normalizeTitle title (findSeparator title)

/-! ### Elementary facts about `toAsciiLower` -/

theorem charOfNat_toNat {n : Nat} (h1 : 97 ≤ n) (h2 : n ≤ 122) :
    (Char.ofNat n).toNat = n := by
  interval_cases n <;> decide

theorem toAsciiLower_idem (c : Char) : toAsciiLower (toAsciiLower c) = toAsciiLower c := by
  simp only [toAsciiLower, Bool.and_eq_true, decide_eq_true_eq]
  split_ifs with h1 h2
  · exfalso
    rw [charOfNat_toNat (by omega) (by omega)] at h2
    omega
  · rfl
  · rfl

theorem toAsciiLower_eq_space_iff (c : Char) : toAsciiLower c = ' ' ↔ c = ' ' := by
  simp only [toAsciiLower, Bool.and_eq_true, decide_eq_true_eq]
  split_ifs with h1
  · constructor
    · intro h
      exfalso
      have := congrArg Char.toNat h
      rw [charOfNat_toNat (by omega) (by omega)] at this
      have hsp : (' ' : Char).toNat = 32 := by decide
      omega
    · intro h
      exfalso
      subst h
      revert h1
      decide
  · exact Iff.rfl

/-! ### The shape of `normalize_title` output, and idempotence (claim C8) -/

/-- `normAccepts lws l` holds when feeding `l` to the `normalize_title`
character loop with separator `' '` and `last_was_space = lws` copies `l`
verbatim: each space must follow a non-space, and every other character must
already be ASCII-lowercase. -/
def normAccepts (lws : Bool) : List Char → Bool
  | [] => true
  | c :: cs =>
    (if c = ' ' then !lws else toAsciiLower c == c) && normAccepts (c == ' ') cs

/-- The `last_was_space` flag after feeding `l` starting from flag `lws`
(for input that is copied verbatim). -/
def endSpace (lws : Bool) : List Char → Bool
  | [] => lws
  | c :: cs => endSpace (c == ' ') cs

theorem normAccepts_append (l1 l2 : List Char) (b : Bool) :
    normAccepts b (l1 ++ l2) = (normAccepts b l1 && normAccepts (endSpace b l1) l2) := by
  induction l1 generalizing b with
  | nil => simp [normAccepts, endSpace]
  | cons c cs ih => simp [normAccepts, endSpace, ih, Bool.and_assoc]

theorem endSpace_append (l1 l2 : List Char) (b : Bool) :
    endSpace b (l1 ++ l2) = endSpace (endSpace b l1) l2 := by
  induction l1 generalizing b with
  | nil => simp [endSpace]
  | cons c cs ih => simp [endSpace, ih]

theorem findSeparatorGo_of_mem_space (l : List Char) :
    ∀ nu nd, ' ' ∈ l → findSeparatorGo l nu nd = ' ' := by
  induction l with
  | nil =>
    intro _ _ h
    cases h
  | cons c cs ih =>
    intro nu nd h
    unfold findSeparatorGo
    by_cases hc : c = ' '
    · simp [hc]
    · have hm : ' ' ∈ cs := by
        rcases List.mem_cons.mp h with h1 | h1
        · exact absurd h1.symm hc
        · exact h1
      split_ifs <;> first | rfl | exact ih _ _ hm

theorem findSeparator_of_mem_space (t : List Char) (h : ' ' ∈ t) :
    findSeparator t = ' ' :=
  findSeparatorGo_of_mem_space t 0 0 h

/-- Feeding an already-normal string through the `normalize_title` loop with
separator `' '` copies it verbatim. -/
theorem foldl_normalizeStep_eq (l : List Char) :
    ∀ (res : List Char) (lws : Bool), normAccepts lws l = true →
      l.foldl (normalizeStep ' ') (res, lws) = (res ++ l, endSpace lws l) := by
  induction l with
  | nil =>
    intro res lws _
    simp [endSpace]
  | cons c cs ih =>
    intro res lws h
    simp only [normAccepts, Bool.and_eq_true] at h
    obtain ⟨h1, h2⟩ := h
    by_cases hc : c = ' '
    · subst hc
      rw [if_pos rfl] at h1
      have hlws : lws = false := by
        revert h1
        cases lws <;> simp
      subst hlws
      have hstep : normalizeStep ' ' (res, false) ' ' = (res ++ [' '], true) := by
        simp [normalizeStep]
      simp only [List.foldl_cons, hstep]
      rw [ih (res ++ [' ']) true (by simpa using h2)]
      simp [endSpace]
    · rw [if_neg hc] at h1
      have hlow : toAsciiLower c = c := by simpa using h1
      have hne : (c == ' ') = false := by simpa using hc
      have hstep : normalizeStep ' ' (res, lws) c = (res ++ [c], false) := by
        simp [normalizeStep, hc, hlow]
      simp only [List.foldl_cons, hstep]
      rw [ih (res ++ [c]) false (by rw [← hne]; exact h2)]
      simp [endSpace, hne]

/-- Invariant of the `normalize_title` loop: provided the separator is a
space or the input contains no literal space, the accumulated output is
space-normal and the `last_was_space` flag tracks its last character. -/
theorem normalize_fold_wf (t : List Char) (sep : Char) :
    ∀ (res : List Char) (lws : Bool),
      (sep ≠ ' ' → ' ' ∉ t) →
      normAccepts true res = true → endSpace true res = lws →
      normAccepts true (t.foldl (normalizeStep sep) (res, lws)).1 = true ∧
      endSpace true (t.foldl (normalizeStep sep) (res, lws)).1 =
        (t.foldl (normalizeStep sep) (res, lws)).2 := by
  induction t with
  | nil =>
    intro res lws _ h1 h2
    exact ⟨h1, h2⟩
  | cons c cs ih =>
    intro res lws hsp h1 h2
    have hsp2 : sep ≠ ' ' → ' ' ∉ cs := fun h hm => hsp h (List.mem_cons_of_mem _ hm)
    by_cases hc : c = sep
    · by_cases hl : lws = true
      · have hstep : normalizeStep sep (res, lws) c = (res, lws) := by
          simp [normalizeStep, hc, hl]
        simp only [List.foldl_cons, hstep]
        exact ih res lws hsp2 h1 h2
      · have hlf : lws = false := by
          revert hl
          cases lws <;> simp
        subst hlf
        have hstep : normalizeStep sep (res, false) c = (res ++ [' '], true) := by
          simp [normalizeStep, hc]
        simp only [List.foldl_cons, hstep]
        apply ih _ _ hsp2
        · rw [normAccepts_append, h1]
          simp [normAccepts, h2]
        · rw [endSpace_append, h2]
          simp [endSpace]
    · have hcsp : c ≠ ' ' := by
        intro hceq
        subst hceq
        exact hsp (fun hs => hc hs.symm) (List.mem_cons_self _ _)
      have hdl : toAsciiLower c ≠ ' ' := fun h => hcsp ((toAsciiLower_eq_space_iff c).mp h)
      have hstep : normalizeStep sep (res, lws) c = (res ++ [toAsciiLower c], false) := by
        simp [normalizeStep, hc]
      simp only [List.foldl_cons, hstep]
      apply ih _ _ hsp2
      · rw [normAccepts_append, h1]
        simp [normAccepts, hdl, toAsciiLower_idem]
      · rw [endSpace_append, h2]
        simp [endSpace, hdl]

/-- The output of `norm` is space-normal and does not end in a space. -/
theorem norm_wf (t : List Char) :
    normAccepts true (norm t) = true ∧
      (norm t = [] ∨ endSpace true (norm t) = false) := by
  have hsp : findSeparator t ≠ ' ' → ' ' ∉ t := fun h hm =>
    h (findSeparator_of_mem_space t hm)
  have hinv := normalize_fold_wf t (findSeparator t) [] true hsp (by rfl) (by rfl)
  obtain ⟨hA, hE⟩ := hinv
  unfold norm normalizeTitle
  set st := t.foldl (normalizeStep (findSeparator t)) ([], true) with hst
  by_cases h2 : st.2 = true
  · rw [if_pos h2]
    rcases List.eq_nil_or_concat st.1 with hnil | ⟨l2, d, hcat⟩
    · rw [hnil]
      exact ⟨rfl, Or.inl rfl⟩
    · rw [List.concat_eq_append] at hcat
      rw [hcat]
      rw [hcat] at hA hE
      rw [endSpace_append] at hE
      rw [h2] at hE
      have hd : d = ' ' := by simpa [endSpace] using hE
      subst hd
      rw [normAccepts_append] at hA
      obtain ⟨hA1, hA2⟩ := Bool.and_eq_true_iff.mp hA
      have hflag : endSpace true l2 = false := by
        revert hA2
        simp [normAccepts]
      rw [List.dropLast_concat]
      exact ⟨hA1, Or.inr hflag⟩
  · have h2f : st.2 = false := by
      revert h2
      cases st.2 <;> simp
    rw [if_neg (by rw [h2f]; exact Bool.false_ne_true)]
    rw [h2f] at hE
    exact ⟨hA, Or.inr hE⟩

/-- Normalizing a space-normal string with separator `' '` is the identity. -/
theorem normalizeTitle_space_id (l : List Char)
    (h1 : normAccepts true l = true) (h2 : l = [] ∨ endSpace true l = false) :
    normalizeTitle l ' ' = l := by
  unfold normalizeTitle
  rw [foldl_normalizeStep_eq l [] true h1]
  rcases h2 with h | h
  · subst h
    rfl
  · simp [h]

/-- C8 (counterexample): with `norm t = normalize_title(t, find_separator(t))`,
idempotence fails on `"_a.b"`.  The first pass picks separator `'_'`
(one underscore, one dot, underscores ≥ dots) and produces `"a.b"`; the
second pass re-detects the separator as `'.'` and produces `"a b"`. -/
theorem c8_counterexample : norm (norm "_a.b".data) ≠ norm "_a.b".data := by
  decide

/-- `find_separator` returns the space separator on any string containing
neither a dot nor an underscore. -/
theorem findSeparator_of_no_seps (t : List Char) (hd : ('.' : Char) ∉ t)
    (hu : ('_' : Char) ∉ t) : findSeparator t = ' ' := by
  unfold findSeparator
  induction t with
  | nil => rfl
  | cons c cs ih =>
    unfold findSeparatorGo
    by_cases hc : c = ' '
    · rw [if_pos hc]
    · rw [if_neg hc,
        if_neg (fun he => hu (by rw [← he]; exact List.mem_cons_self _ _)),
        if_neg (fun he => hd (by rw [← he]; exact List.mem_cons_self _ _))]
      exact ih (fun hm => hd (List.mem_cons_of_mem _ hm))
        (fun hm => hu (List.mem_cons_of_mem _ hm))

/-- C8 (amended): normalization is idempotent for every title on which the
re-detected separator of the normalized title is a space — by
`findSeparator_of_mem_space` and `findSeparator_of_no_seps` that covers in
particular every title whose *normal form* contains a space, or contains
neither `'.'` nor `'_'`.  (A space in the original title is not enough:
`norm " a.b" = "a.b"` re-detects `'.'`.  The unamended claim fails exactly
when normalization deletes all occurrences of the detected separator while
leaving the other separator character in place, as in the counterexample.) -/
theorem c8_normalize_idempotent (t : List Char)
    (h : findSeparator (norm t) = ' ') :
    norm (norm t) = norm t := by
  have hw := norm_wf t
  show normalizeTitle (norm t) (findSeparator (norm t)) = norm t
  rw [h]
  exact normalizeTitle_space_id _ hw.1 hw.2

/-- Witness for `c8_normalize_idempotent` at the concrete title
`"Fate.Stay.Night S02E03"`. -/
theorem c8_normalize_idempotent_witness :
    findSeparator (norm "Fate.Stay.Night S02E03".data) = ' ' ∧
      norm (norm "Fate.Stay.Night S02E03".data) = norm "Fate.Stay.Night S02E03".data :=
  ⟨by decide, c8_normalize_idempotent _ (by decide)⟩

/-! ## `common/src/format.rs`: the `Format` enumeration -/

/-- `Format` (format.rs). -/
inductive Format where
  | tv
  | tvShort
  | movie
  | special
  | ova
  | ona
  deriving DecidableEq, Repr

/-! ## Embedded regular expressions

The `regex` crate searches for the match with the earliest starting
position; at a given position, alternatives are tried in the order written
(leftmost-first semantics).  The matchers below implement exactly the
patterns used by the source, position by position. -/

/-- `l` starts with `pat`. -/
def startsW : List Char → List Char → Bool
  | _, [] => true
  | [], _ :: _ => false
  | c :: cs, p :: ps => c = p && startsW cs ps

/-- Is the character at absolute position `p` a word character
(out-of-range counts as non-word)? -/
def wordAt (s : List Char) (p : Nat) : Bool :=
  match s[p]? with
  | some c => isWordCh c
  | none => false

/-- `\b` at absolute position `p` of `s`. -/
def boundaryAt (s : List Char) (p : Nat) : Bool :=
  if p = 0 then wordAt s 0 else wordAt s (p - 1) != wordAt s p

/-! ### The season pattern (show_db.rs:200)

```
(^|\b)
(
        (?P<season1>\d+)(st|nd|rd|th)\sseason        # 2nd season
    |   season\s(?P<season2>\d{1,5})                 # season 2
    |   s(?P<season3>\d+)                            # s2
    |   (?P<season4>(first|second|third))\sseason    # first season
)
(\b|$)
```
-/

/-- Which capture group of the season pattern participated in a match:
`digits` covers `season1`/`season2`/`season3` (carrying the matched digit
characters, whose `u32` parse may overflow), `word` covers `season4`
(already mapped `first`/`second`/`third` to 1/2/3 as in show_db.rs:230). -/
inductive SeasonCap where
  | digits (ds : List Char)
  | word (n : Nat)
  deriving DecidableEq, Repr

/-- Branch `(?P<season1>\d+)(st|nd|rd|th)\sseason` applied at the start of
`u`; returns the consumed length and the digit capture.  `\d+` is greedy and
no shorter digit run can satisfy the ordinal suffix, so the maximal run is
the only candidate. -/
def seasonBody1 (u : List Char) : Option (Nat × SeasonCap) :=
  let ds := u.takeWhile isDigitCh
  if ds.isEmpty then none
  else
    match u.drop ds.length with
    | a :: b :: rest =>
      if (a = 's' && b = 't') || (a = 'n' && b = 'd') || (a = 'r' && b = 'd') ||
          (a = 't' && b = 'h') then
        match rest with
        | c :: rest2 =>
          if isSpaceCh c && startsW rest2 "season".data then
            some (ds.length + 2 + 1 + 6, SeasonCap.digits ds)
          else none
        | [] => none
      else none
    | _ => none

/-- Branch `season\s(?P<season2>\d{1,5})`: if more than five digits follow,
every shorter take leaves a digit (a word character) adjacent, so the
trailing `(\b|$)` can never hold and the branch fails. -/
def seasonBody2 (u : List Char) : Option (Nat × SeasonCap) :=
  if startsW u "season".data then
    match u.drop 6 with
    | c :: rest =>
      if isSpaceCh c then
        let ds := rest.takeWhile isDigitCh
        if 1 ≤ ds.length && ds.length ≤ 5 then
          some (6 + 1 + ds.length, SeasonCap.digits ds)
        else none
      else none
    | [] => none
  else none

/-- Branch `s(?P<season3>\d+)`. -/
def seasonBody3 (u : List Char) : Option (Nat × SeasonCap) :=
  match u with
  | 's' :: rest =>
    let ds := rest.takeWhile isDigitCh
    if ds.isEmpty then none else some (1 + ds.length, SeasonCap.digits ds)
  | _ => none

/-- One word alternative of branch `(?P<season4>(first|second|third))\sseason`. -/
def seasonWord (u : List Char) (w : List Char) (n : Nat) : Option (Nat × SeasonCap) :=
  if startsW u w then
    match u.drop w.length with
    | c :: rest =>
      if isSpaceCh c && startsW rest "season".data then
        some (w.length + 1 + 6, SeasonCap.word n)
      else none
    | [] => none
  else none

/-- Branch `(?P<season4>(first|second|third))\sseason`. -/
def seasonBody4 (u : List Char) : Option (Nat × SeasonCap) :=
  (seasonWord u "first".data 1).orElse fun _ =>
    (seasonWord u "second".data 2).orElse fun _ => seasonWord u "third".data 3

/-- A match of the season pattern anchored at absolute position `p` of `s`:
the leading `(^|\b)` and the trailing `(\b|$)` are zero-width, so the
returned length is the body length and `get(0).start()` is `p`. -/
def seasonMatchAt (s : List Char) (p : Nat) : Option (Nat × SeasonCap) :=
  if p = 0 || boundaryAt s p then
    let u := s.drop p
    let check : Option (Nat × SeasonCap) → Option (Nat × SeasonCap) := fun r =>
      match r with
      | some (len, cap) =>
        if p + len = s.length || boundaryAt s (p + len) then some (len, cap) else none
      | none => none
    (check (seasonBody1 u)).orElse fun _ =>
      (check (seasonBody2 u)).orElse fun _ =>
        (check (seasonBody3 u)).orElse fun _ => check (seasonBody4 u)
  else none

/-- Leftmost search: try positions `p, p+1, ...` (fuel-bounded). -/
def seasonSearchGo (s : List Char) : Nat → Nat → Option (Nat × Nat × SeasonCap)
  | _, 0 => none
  | p, fuel + 1 =>
    match seasonMatchAt s p with
    | some (len, cap) => some (p, len, cap)
    | none => seasonSearchGo s (p + 1) fuel

/-- `SEASON.captures(s)`: the leftmost match `(start, len, capture)`. -/
def seasonCaptures (s : List Char) : Option (Nat × Nat × SeasonCap) :=
  seasonSearchGo s 0 (s.length + 1)

/-- The re-search loop of `find_season` (show_db.rs:212): repeatedly search
`s[start+1..]` until no further match is found; returns the final
`(absolute start, match length, capture)`.  Each iteration advances `start`
by at least one, so fuel `s.length + 1` is never exhausted. -/
def findSeasonLoop (s : List Char) : Nat → Nat → Nat × Nat × SeasonCap →
    Nat × Nat × SeasonCap
  | 0, start, ca => (start + ca.1, ca.2.1, ca.2.2)
  | fuel + 1, start, ca =>
    let start := start + ca.1
    match seasonCaptures (s.drop (start + 1)) with
    | some ca2 => findSeasonLoop s fuel (start + 1) ca2
    | none => (start, ca.2.1, ca.2.2)

/-- `find_season` (show_db.rs:198): `Except.error ()` models the panic of
`.parse::<u32>().unwrap()` when the captured digit run exceeds `u32::MAX`;
otherwise returns the byte range of the final match and the season number. -/
def findSeason (s : List Char) : Except Unit (Option ((Nat × Nat) × Nat)) :=
  match seasonCaptures s with
  | none => Except.ok none
  | some ca =>
    match findSeasonLoop s (s.length + 1) 0 ca with
    | (start, len, SeasonCap.digits ds) =>
      match parseU32 ds with
      | some n => Except.ok (some ((start, start + len), n))
      | none => Except.error ()
    | (start, len, SeasonCap.word n) => Except.ok (some ((start, start + len), n))

/-! ### The year pattern `\((\d{4})\)` (show_db.rs:174) -/

/-- Match of `\((\d{4})\)` anchored at position `p`; the year value is at
most 9999, so the source's `.parse().unwrap()` cannot fail. -/
def yearMatchAt (s : List Char) (p : Nat) : Option Nat :=
  match s.drop p with
  | '(' :: d1 :: d2 :: d3 :: d4 :: ')' :: _ =>
    if isDigitCh d1 && isDigitCh d2 && isDigitCh d3 && isDigitCh d4 then
      some (digitsVal [d1, d2, d3, d4])
    else none
  | _ => none

def yearSearchGo (s : List Char) : Nat → Nat → Option ((Nat × Nat) × Nat)
  | _, 0 => none
  | p, fuel + 1 =>
    match yearMatchAt s p with
    | some y => some ((p, p + 6), y)
    | none => yearSearchGo s (p + 1) fuel

/-- `find_year` (show_db.rs:172): leftmost match of `\((\d{4})\)`, returning
the byte range of the whole match and the year. -/
def findYear (s : List Char) : Option ((Nat × Nat) × Nat) :=
  yearSearchGo s 0 (s.length + 1)

/-! ### The format pattern `\((tv|movie|ova|ona|oad)\)` (show_db.rs:184) -/

/-- One alternative `(w)` at the start of `u`. -/
def formatWord (u : List Char) (w : List Char) (f : Format) : Option (Nat × Format) :=
  if startsW u ('(' :: w ++ [')']) then some (w.length + 2, f) else none

/-- Match of the format pattern anchored at position `p`, with the `oad →
OVA` mapping of show_db.rs:191. -/
def formatMatchAt (s : List Char) (p : Nat) : Option (Nat × Format) :=
  let u := s.drop p
  (formatWord u "tv".data Format.tv).orElse fun _ =>
    (formatWord u "movie".data Format.movie).orElse fun _ =>
      (formatWord u "ova".data Format.ova).orElse fun _ =>
        (formatWord u "ona".data Format.ona).orElse fun _ =>
          formatWord u "oad".data Format.ova

def formatSearchGo (s : List Char) : Nat → Nat → Option ((Nat × Nat) × Format)
  | _, 0 => none
  | p, fuel + 1 =>
    match formatMatchAt s p with
    | some (len, f) => some ((p, p + len), f)
    | none => formatSearchGo s (p + 1) fuel

/-- `find_format` (show_db.rs:182). -/
def findFormat (s : List Char) : Option ((Nat × Nat) × Format) :=
  formatSearchGo s 0 (s.length + 1)

seal findSeason
seal findYear
seal findFormat
seal seasonCaptures

unseal findSeason seasonCaptures in
/-- C4 (code bug): on `"s3 12th season"` the season pattern has exactly two
non-overlapping matches, at positions 0 (`s3`, ordinal 3) and 3
(`12th season`, ordinal 12), so by the claim `find_season` must return the
last match: span 3..14 with ordinal 12.  The re-search loop instead slices
the string one past the start of the last match; in the slice `"2th season"`
the `^` anchor of `(^|\b)` matches where no word boundary exists in the
original string, so the loop ends on the spurious match `"2th season"` and
returns span 4..14 with ordinal 2. -/
theorem c4_find_season_rightmost_bug :
    findSeason "s3 12th season".data = Except.ok (some ((4, 14), 2)) ∧
      (List.range ("s3 12th season".data.length + 1)).filter
        (fun p => (seasonMatchAt "s3 12th season".data p).isSome) = [0, 3] ∧
      seasonMatchAt "s3 12th season".data 3 = some (11, SeasonCap.digits ['1', '2']) := by
  decide

/-! ## `heap.rs`: the packed prefix trie `AsciiHeap`

Payloads are `usize` show indices in the repository, modelled as `Nat`.
`Vec` is modelled as `List` with push = append-at-end; the mutable stack of
step 3 keeps the top of the Rust `Vec` at the head of the list. -/

/-- In-place update of one list element (`datas[idx].field += 1` etc.);
no-op when the index is out of range, which never happens on the source's
inputs. -/
def listModify {α : Type} : List α → Nat → (α → α) → List α
  | [], _, _ => []
  | x :: xs, 0, f => f x :: xs
  | x :: xs, n + 1, f => x :: listModify xs n f

/-- `datas.last_mut().unwrap()` update. -/
def listModifyLast {α : Type} (l : List α) (f : α → α) : List α :=
  listModify l (l.length - 1) f

/-- `Node` (heap.rs:30): letter, child count, child base position, payload
range. -/
structure HeapNode where
  letter : Char
  numChildren : Nat
  posChildren : Nat
  payloadStart : Nat
  payloadEnd : Nat
  deriving DecidableEq, Repr

/-- `AsciiHeap` (heap.rs:25). -/
structure AsciiHeap where
  payloads : List Nat
  nodes : List HeapNode
  deriving DecidableEq, Repr

def defaultNode : HeapNode :=
  { letter := Char.ofNat 0, numChildren := 0, posChildren := 0,
    payloadStart := 0, payloadEnd := 0 }

/-- `nodes[i].children()` (heap.rs:39) as the list of child indices. -/
def HeapNode.childIdxs (n : HeapNode) : List Nat :=
  (List.range n.numChildren).map fun k => n.posChildren + k

/-- The ascii reduction of `AsciiHeap::new` (heap.rs:79-88): per byte,
ASCII-lowercase then keep only `[a-z0-9]`. -/
def asciiReduce (s : List Char) : List Char :=
  (s.map toAsciiLower).filter isAlnumLower

/-- `PreData` (heap.rs:66): a prefix of a reduced key, with the payload
attached to the full-key prefix. -/
structure PreData where
  key : List Char
  payload : Option Nat
  deriving DecidableEq, Repr

/-- Step 1 of `AsciiHeap::new` for one item: one `PreData` per non-empty
prefix of the reduced key; items whose reduced key is empty contribute
nothing. -/
def preDatasOf (k : List Char) (payload : Nat) : List PreData :=
  let r := asciiReduce k
  (List.range r.length).map fun i =>
    { key := r.take (i + 1), payload := if i + 1 = r.length then some payload else none }

def preDatas (items : List (List Char × Nat)) : List PreData :=
  items.flatMap fun it => preDatasOf it.1 it.2

/-- Bytewise lexicographic order on keys, as used by
`pre_datas.sort_by_key(|data| &lc[data.substring_range.clone()])`
(a `&[u8]` compares lexicographically, a strict prefix being smaller). -/
def lexLe : List Char → List Char → Bool
  | [], _ => true
  | _ :: _, [] => false
  | c :: cs, d :: ds => if c = d then lexLe cs ds else decide (c.toNat < d.toNat)

/-- `Data` (heap.rs:112) without its three `Cell` fields, which belong to
step 4 and are carried in `Step4State`. -/
structure BuildData where
  letter : Char
  payloadStart : Nat
  payloadEnd : Nat
  numChildren : Nat
  parent : Option Nat
  deriving DecidableEq, Repr

def defaultBuildData : BuildData :=
  { letter := Char.ofNat 0, payloadStart := 0, payloadEnd := 0,
    numChildren := 0, parent := none }

structure Step3State where
  datas : List BuildData
  payloads : List Nat
  numSingleLetter : Nat
  stack : List Nat
  prevLetter : Char
  prevLen : Nat
  deriving Repr

def initStep3 : Step3State :=
  { datas := [], payloads := [], numSingleLetter := 0, stack := [],
    prevLetter := Char.ofNat 0, prevLen := 0 }

/-- Step 3 of `AsciiHeap::new` (heap.rs:130-195) for one sorted `PreData`:
duplicate detection by `(letter, len)`, payload accumulation, stack-based
parent reconstruction. -/
def step3 (st : Step3State) (pd : PreData) : Step3State :=
  let letter := pd.key.getLastD (Char.ofNat 0)
  let len := pd.key.length
  let isDup : Bool := letter = st.prevLetter && len = st.prevLen
  let plStart := st.payloads.length
  let plEnd := plStart + (if pd.payload.isSome && !isDup then 1 else 0)
  let payloads := st.payloads ++ pd.payload.toList
  let datas :=
    if pd.payload.isSome && isDup then
      listModifyLast st.datas fun d => { d with payloadEnd := d.payloadEnd + 1 }
    else st.datas
  if isDup then
    { st with payloads := payloads, datas := datas }
  else
    let stack1 := if len ≤ st.prevLen then st.stack.drop (st.prevLen - len + 1) else st.stack
    match stack1.head? with
    | some pidx =>
      let datas2 := listModify datas pidx fun d => { d with numChildren := d.numChildren + 1 }
      { datas := datas2 ++ [{ letter := letter, payloadStart := plStart, payloadEnd := plEnd,
                              numChildren := 0, parent := some pidx }],
        payloads := payloads,
        numSingleLetter := st.numSingleLetter,
        stack := datas2.length :: stack1,
        prevLetter := letter, prevLen := len }
    | none =>
      { datas := datas ++ [{ letter := letter, payloadStart := plStart, payloadEnd := plEnd,
                             numChildren := 0, parent := none }],
        payloads := payloads,
        numSingleLetter := st.numSingleLetter + 1,
        stack := datas.length :: stack1,
        prevLetter := letter, prevLen := len }

/-- The three `Cell` arrays of step 4 (heap.rs:197-224) plus the two
counters. -/
structure Step4State where
  heapPos : List Nat
  childrenPos : List Nat
  nextChildPos : List Nat
  nextFree : Nat
  nextOne : Nat
  deriving Repr

def initStep4 (n numSingle : Nat) : Step4State :=
  { heapPos := List.replicate n 0, childrenPos := List.replicate n 0,
    nextChildPos := List.replicate n 0,
    nextFree := numSingle + 1, nextOne := 1 }

/-- Step 4 of `AsciiHeap::new` for the data at index `i`: position from the
parent's child reservation (or the single-letter area), then reserve a span
for the children at the end. -/
def step4 (datas : List BuildData) (st : Step4State) (i : Nat) : Step4State :=
  let d := datas.getD i defaultBuildData
  let st1 :=
    match d.parent with
    | some pidx =>
      let ncp := st.nextChildPos.getD pidx 0
      { st with heapPos := st.heapPos.set i ncp,
                nextChildPos := st.nextChildPos.set pidx (ncp + 1) }
    | none =>
      { st with heapPos := st.heapPos.set i st.nextOne, nextOne := st.nextOne + 1 }
  { st1 with childrenPos := st1.childrenPos.set i st1.nextFree,
             nextChildPos := st1.nextChildPos.set i st1.nextFree,
             nextFree := st1.nextFree + d.numChildren }

/-- Step 5 of `AsciiHeap::new` (heap.rs:227-247): sort by heap position and
emit the node array behind the synthetic root. -/
def buildNodes (datas : List BuildData) (s4 : Step4State) (numSingle : Nat) :
    List HeapNode :=
  let triples := (List.range datas.length).map fun i =>
    (s4.heapPos.getD i 0, datas.getD i defaultBuildData, s4.childrenPos.getD i 0)
  let sorted := triples.insertionSort fun a b => a.1 ≤ b.1
  let root : HeapNode :=
    { letter := Char.ofNat 0, numChildren := numSingle, posChildren := 1,
      payloadStart := 0, payloadEnd := 0 }
  root :: sorted.map fun t =>
    { letter := t.2.1.letter, numChildren := t.2.1.numChildren, posChildren := t.2.2,
      payloadStart := t.2.1.payloadStart, payloadEnd := t.2.1.payloadEnd }

/-- `AsciiHeap::new` (heap.rs:61).  `none` models the
`assert!(pre_datas.len().to_u32().is_some())` failure (more than
`u32::MAX` candidate nodes), the spec's fatal precondition violation. -/
def AsciiHeap.new (items : List (List Char × Nat)) : Option AsciiHeap :=
  let pds := preDatas items
  if pds.length ≤ u32Max then
    let sorted := pds.insertionSort fun a b => lexLe a.key b.key = true
    let st3 := sorted.foldl step3 initStep3
    let s4 := (List.range st3.datas.length).foldl (step4 st3.datas)
      (initStep4 st3.datas.length st3.numSingleLetter)
    some { payloads := st3.payloads, nodes := buildNodes st3.datas s4 st3.numSingleLetter }
  else none

/-- The byte loop of `AsciiHeap::find` (heap.rs:259): bytes outside
`[a-z0-9]` are skipped (uppercase included — find does not lowercase);
on a miss among the current children the loop breaks. -/
def AsciiHeap.findGo (h : AsciiHeap) : List Char → Nat → List Nat → Nat
  | [], idx, _ => idx
  | c :: rest, idx, children =>
    if isAlnumLower c then
      match children.find? (fun j => (h.nodes.getD j defaultNode).letter == c) with
      | some child => h.findGo rest child (h.nodes.getD child defaultNode).childIdxs
      | none => idx
    else
      h.findGo rest idx children

/-- `AsciiHeap::find` (heap.rs:259). -/
def AsciiHeap.find (h : AsciiHeap) (s : List Char) : Nat :=
  h.findGo s 0 (h.nodes.getD 0 defaultNode).childIdxs

/-- The loop of `Iter::next` (heap.rs:300), flattened into the full list of
yielded payloads: process the current index range, pushing child ranges onto
the todo stack.  Each iteration either consumes a node or pops the todo
stack, and each processed node pushes at most one range, so fuel
`2 * nodes + 2` is never exhausted on a well-formed heap. -/
def AsciiHeap.iterGo (h : AsciiHeap) : Nat → Nat × Nat → List (Nat × Nat) → List Nat
  | 0, _, _ => []
  | fuel + 1, cur, todo =>
    if cur.1 < cur.2 then
      let node := h.nodes.getD cur.1 defaultNode
      let todo2 :=
        if 0 < node.numChildren then
          (node.posChildren, node.posChildren + node.numChildren) :: todo
        else todo
      (h.payloads.drop node.payloadStart).take (node.payloadEnd - node.payloadStart) ++
        h.iterGo fuel (cur.1 + 1, cur.2) todo2
    else
      match todo with
      | [] => []
      | r :: rs => h.iterGo fuel r rs

/-- `AsciiHeap::iter` (heap.rs:280): all payloads in the sub-tree rooted at
`idx`. -/
def AsciiHeap.iter (h : AsciiHeap) (idx : Nat) : List Nat :=
  h.iterGo (2 * h.nodes.length + 2) (idx, idx + 1) []

/-- An `Option AsciiHeap` with the trivial heap as fallback, for stating
concrete evaluations of `AsciiHeap.new`. -/
def heapOrEmpty (o : Option AsciiHeap) : AsciiHeap :=
  o.getD { payloads := [], nodes := [] }

/-- C5 (counterexample): `AsciiHeap::find` does not ASCII-lowercase its
query (its doc comment says `[A-Z]` bytes are ignored), so on the heap built
from the single pair `("a", 0)` the query `"A"` stays at the root (index 0)
while its lowercased form descends to the `a` node (index 1). -/
theorem c5_counterexample :
    ¬ ((AsciiHeap.new [("a".data, 0)]).map (fun h => h.find "A".data) =
        (AsciiHeap.new [("a".data, 0)]).map
          (fun h => h.find ("A".data.map toAsciiLower))) := by
  decide

theorem findGo_filter (h : AsciiHeap) (q : List Char) :
    ∀ (idx : Nat) (children : List Nat),
      h.findGo q idx children = h.findGo (q.filter isAlnumLower) idx children := by
  induction q with
  | nil =>
    intro idx children
    rfl
  | cons c rest ih =>
    intro idx children
    by_cases hc : isAlnumLower c = true
    · simp only [List.filter_cons, hc, if_pos, AsciiHeap.findGo]
      cases hfind : List.find? (fun j => (h.nodes.getD j defaultNode).letter == c) children with
      | some child => simp only [hfind, ih]
      | none => simp only [hfind]
    · have hc2 : isAlnumLower c = false := by
        revert hc
        cases isAlnumLower c <;> simp
      simp only [List.filter_cons, hc2, AsciiHeap.findGo, Bool.false_eq_true, if_false]
      exact ih idx children

/-- C5 (amended): during `find` the query is processed byte-by-byte by
filtering to `[a-z0-9]` only — unlike `build`, `find` does not lowercase, so
`find(q) = find(filter_a_z_0_9(q))` for every query and every heap, and
queries containing `A`-`Z` have those bytes ignored rather than lowercased. -/
theorem c5_find_filters_query (h : AsciiHeap) (q : List Char) :
    h.find q = h.find (q.filter isAlnumLower) :=
  findGo_filter h q 0 _

/-- C2 (counterexample): for the input sequence `[("Ab", 1), ("b", 2)]` the
pair `("Ab", 1)` has the non-empty processed key `"ab"`, but
`iter(find("Ab"))` does not contain payload 1: `find` does not lowercase, so
the query `"Ab"` skips `A` and descends to the `b` node, whose sub-tree
holds only payload 2. -/
theorem c2_counterexample :
    (AsciiHeap.new [("Ab".data, 1), ("b".data, 2)]).isSome = true ∧
      asciiReduce "Ab".data ≠ [] ∧
      1 ∉ (heapOrEmpty (AsciiHeap.new [("Ab".data, 1), ("b".data, 2)])).iter
          ((heapOrEmpty (AsciiHeap.new [("Ab".data, 1), ("b".data, 2)])).find "Ab".data) := by
  decide

/-! ### Payload provenance: every payload in a built heap comes from an item
with a non-empty reduced key (used for claim C6). -/

theorem step3_payloads_eq (st : Step3State) (pd : PreData) :
    (step3 st pd).payloads = st.payloads ++ pd.payload.toList := by
  simp only [step3]
  split
  · rfl
  · split <;> rfl

theorem foldl_step3_payloads (l : List PreData) :
    ∀ (st : Step3State) (q : Nat), q ∈ (l.foldl step3 st).payloads →
      q ∈ st.payloads ∨ ∃ pd ∈ l, pd.payload = some q := by
  induction l with
  | nil =>
    intro st q hq
    exact Or.inl hq
  | cons pd rest ih =>
    intro st q hq
    rcases ih (step3 st pd) q hq with hmem | ⟨pd2, hpd2, hp2⟩
    · rw [step3_payloads_eq] at hmem
      rcases List.mem_append.mp hmem with hmem | hmem
      · exact Or.inl hmem
      · refine Or.inr ⟨pd, List.mem_cons_self _ _, ?_⟩
        cases hp : pd.payload with
        | none => rw [hp] at hmem; cases hmem
        | some r =>
          rw [hp] at hmem
          simp only [Option.toList] at hmem
          rcases List.mem_singleton.mp hmem with rfl
          rfl
    · exact Or.inr ⟨pd2, List.mem_cons_of_mem _ hpd2, hp2⟩

theorem preDatas_payload_sourced (items : List (List Char × Nat)) (pd : PreData)
    (hmem : pd ∈ preDatas items) (q : Nat) (hq : pd.payload = some q) :
    ∃ k, (k, q) ∈ items ∧ asciiReduce k ≠ [] := by
  rcases List.mem_flatMap.mp hmem with ⟨it, hit, hpd⟩
  rcases List.mem_map.mp hpd with ⟨i, hi, heq⟩
  rw [← heq] at hq
  simp only at hq
  split_ifs at hq with hfull
  · refine ⟨it.1, ?_, ?_⟩
    · rcases Option.some.inj hq with rfl
      exact hit
    · intro hnil
      rw [List.mem_range] at hi
      rw [hnil] at hi
      simp at hi

/-- Every payload value of a heap built by `AsciiHeap::new` comes from some
input pair whose reduced key is non-empty. -/
theorem heap_payloads_sourced (items : List (List Char × Nat)) (h : AsciiHeap)
    (hnew : AsciiHeap.new items = some h) (p : Nat) (hp : p ∈ h.payloads) :
    ∃ k, (k, p) ∈ items ∧ asciiReduce k ≠ [] := by
  simp only [AsciiHeap.new] at hnew
  split_ifs at hnew with hlen
  · rcases Option.some.inj hnew with rfl
    simp only at hp
    rcases foldl_step3_payloads _ _ _ hp with hmem | ⟨pd, hpd, hppl⟩
    · cases hmem
    · refine preDatas_payload_sourced items pd ?_ p hppl
      exact (List.perm_insertionSort _ _).mem_iff.mp hpd

/-! ### Claim C2: correctness of the `AsciiHeap` trie

`AsciiHeap::new` sorts the non-empty prefixes of the reduced keys, rebuilds
the trie with a stack of current-key prefixes (step 3), assigns heap
positions from per-parent child reservations (step 4) and emits the node
array sorted by position (step 5).  The development below verifies the
pipeline end to end: on a query that the `find` filter processes like the
build reduction, `find` reaches the trie node of the reduced key, whose
payload slice `iter` yields first. -/

theorem char_toNat_inj {c d : Char} (h : c.toNat = d.toNat) : c = d := by
  have h2 := congrArg Char.ofNat h
  rwa [Char.ofNat_toNat, Char.ofNat_toNat] at h2

theorem lexLe_refl (a : List Char) : lexLe a a = true := by
  induction a with
  | nil => rfl
  | cons c cs ih => simp [lexLe, ih]

theorem lexLe_total (a : List Char) : ∀ b, lexLe a b = true ∨ lexLe b a = true := by
  induction a with
  | nil => intro b; exact Or.inl rfl
  | cons c cs ih =>
    intro b
    cases b with
    | nil => exact Or.inr rfl
    | cons d ds =>
      by_cases hcd : c = d
      · subst hcd
        rcases ih ds with h | h
        · exact Or.inl (by simp [lexLe, h])
        · exact Or.inr (by simp [lexLe, h])
      · have hnat : c.toNat ≠ d.toNat := fun e => hcd (char_toNat_inj e)
        have hdc : d ≠ c := fun e => hcd e.symm
        rcases Nat.lt_or_ge c.toNat d.toNat with h | h
        · exact Or.inl (by simp [lexLe, hcd, h])
        · have h2 : d.toNat < c.toNat := Nat.lt_of_le_of_ne h fun e => hnat e.symm
          exact Or.inr (by simp [lexLe, hdc, h2])

theorem lexLe_trans : ∀ a b c : List Char, lexLe a b = true → lexLe b c = true →
    lexLe a c = true := by
  intro a
  induction a with
  | nil => intro b c _ _; rfl
  | cons x xs ih =>
    intro b c hab hbc
    cases b with
    | nil => simp [lexLe] at hab
    | cons y ys =>
      cases c with
      | nil => simp [lexLe] at hbc
      | cons z zs =>
        simp only [lexLe] at hab hbc ⊢
        by_cases hxy : x = y
        · subst hxy
          rw [if_pos rfl] at hab
          by_cases hyz : x = z
          · subst hyz
            rw [if_pos rfl] at hbc ⊢
            exact ih ys zs hab hbc
          · rw [if_neg hyz] at hbc ⊢
            exact hbc
        · rw [if_neg hxy] at hab
          by_cases hyz : y = z
          · subst hyz
            rw [if_neg hxy]
            exact hab
          · rw [if_neg hyz] at hbc
            by_cases hxz : x = z
            · subst hxz
              simp only [decide_eq_true_eq] at hab hbc
              omega
            · rw [if_neg hxz]
              simp only [decide_eq_true_eq] at hab hbc ⊢
              omega

theorem lexLe_antisymm : ∀ a b : List Char, lexLe a b = true → lexLe b a = true →
    a = b := by
  intro a
  induction a with
  | nil =>
    intro b h1 _
    cases b with
    | nil => rfl
    | cons y ys => simp [lexLe] at *
  | cons x xs ih =>
    intro b h1 h2
    cases b with
    | nil => simp [lexLe] at h1
    | cons y ys =>
      simp only [lexLe] at h1 h2
      by_cases hxy : x = y
      · subst hxy
        rw [if_pos rfl] at h1 h2
        rw [ih ys h1 h2]
      · have hyx : ¬ y = x := fun e => hxy e.symm
        rw [if_neg hxy] at h1
        rw [if_neg hyx] at h2
        simp only [decide_eq_true_eq] at h1 h2
        omega

theorem lexLe_take (a : List Char) : ∀ n, lexLe (a.take n) a = true := by
  induction a with
  | nil => intro n; simp [lexLe]
  | cons c cs ih =>
    intro n
    cases n with
    | zero => rfl
    | succ n => simp [List.take_succ_cons, lexLe, ih n]

/-- The sandwich lemma: if `P ≤ D ≤ P ++ [c]` lexicographically, then `P` is
the length-`|P|` prefix of `D`. -/
theorem lex_sandwich : ∀ (P D : List Char) (c : Char),
    lexLe P D = true → lexLe D (P ++ [c]) = true → P = D.take P.length := by
  intro P
  induction P with
  | nil => intro D c _ _; rfl
  | cons a P2 ih =>
    intro D c h1 h2
    cases D with
    | nil => simp [lexLe] at h1
    | cons b D2 =>
      simp only [List.cons_append, lexLe] at h1 h2
      by_cases hab : a = b
      · subst hab
        rw [if_pos rfl] at h1 h2
        have h3 := ih D2 c h1 h2
        simp only [List.length_cons, List.take_succ_cons]
        rw [← h3]
      · have hba : ¬ b = a := fun e => hab e.symm
        rw [if_neg hab] at h1
        rw [if_neg hba] at h2
        simp only [decide_eq_true_eq] at h1 h2
        omega

/-- One step of consecutive deduplication (append `k` unless it repeats the
last element). -/
def snocDedup (acc : List (List Char)) (k : List Char) : List (List Char) :=
  if acc.getLast? = some k then acc else acc ++ [k]

/-- Consecutive deduplication of a list of keys. -/
def cdedup (ks : List (List Char)) : List (List Char) :=
  ks.foldl snocDedup []

theorem cdedup_append (ks : List (List Char)) (k : List Char) :
    cdedup (ks ++ [k]) = snocDedup (cdedup ks) k := by
  simp [cdedup, List.foldl_append]

theorem mem_of_getLastEq {α : Type} {l : List α} {a : α} (h : l.getLast? = some a) :
    a ∈ l := by
  cases l with
  | nil => cases h
  | cons x xs =>
    rw [List.getLast?_eq_getLast _ (by simp)] at h
    rcases Option.some.inj h with rfl
    exact List.getLast_mem (by simp)

theorem cdedup_getLastEq (ks : List (List Char)) :
    (cdedup ks).getLast? = ks.getLast? := by
  induction ks using List.reverseRecOn with
  | nil => rfl
  | append_singleton ks k ih =>
    rw [cdedup_append, snocDedup]
    split_ifs with h
    · rw [List.getLast?_concat]
      exact h
    · rw [List.getLast?_concat, List.getLast?_concat]

theorem mem_cdedup {x : List Char} : ∀ {ks : List (List Char)},
    x ∈ cdedup ks ↔ x ∈ ks := by
  intro ks
  induction ks using List.reverseRecOn with
  | nil => simp [cdedup]
  | append_singleton ks k ih =>
    rw [cdedup_append, snocDedup]
    split_ifs with h
    · rw [cdedup_getLastEq] at h
      constructor
      · intro hx
        exact List.mem_append_left _ (ih.mp hx)
      · intro hx
        rcases List.mem_append.mp hx with hx | hx
        · exact ih.mpr hx
        · rcases List.mem_singleton.mp hx with rfl
          exact ih.mpr (mem_of_getLastEq h)
    · simp only [List.mem_append, List.mem_singleton, ih]

theorem getD_last {α : Type} {l : List α} {a : α} (d : α) (h : l.getLast? = some a) :
    l.getD (l.length - 1) d = a := by
  cases l with
  | nil => cases h
  | cons x xs =>
    rw [List.getLast?_eq_getLast _ (by simp)] at h
    rcases Option.some.inj h with rfl
    rw [List.getD_eq_getElem _ _ (by simp)]
    exact Eq.symm (List.getLast_eq_getElem _ _)

theorem pairwise_last_le {l : List (List Char)} {D : List Char}
    (hp : List.Pairwise (fun a b => lexLe a b = true) l)
    (hl : l.getLast? = some D) : ∀ x ∈ l, lexLe x D = true := by
  induction l with
  | nil => intro x hx; cases hx
  | cons y ys ih =>
    intro x hx
    cases ys with
    | nil =>
      rcases List.mem_singleton.mp hx with rfl
      rcases Option.some.inj hl with rfl
      exact lexLe_refl x
    | cons z zs =>
      have hl2 : (z :: zs).getLast? = some D := by
        rwa [List.getLast?_cons_cons] at hl
      rcases List.mem_cons.mp hx with rfl | hx2
      · have hD : D ∈ z :: zs := mem_of_getLastEq hl2
        exact List.rel_of_pairwise_cons hp hD
      · exact ih (List.Pairwise.of_cons hp) hl2 x hx2

theorem length_listModify {α : Type} : ∀ (l : List α) (i : Nat) (f : α → α),
    (listModify l i f).length = l.length := by
  intro l
  induction l with
  | nil => intro i f; rfl
  | cons x xs ih =>
    intro i f
    cases i with
    | zero => rfl
    | succ i => simp [listModify, ih]

theorem getD_listModify_ne {α : Type} : ∀ (l : List α) (i j : Nat) (f : α → α) (d : α),
    i ≠ j → (listModify l i f).getD j d = l.getD j d := by
  intro l
  induction l with
  | nil => intro i j f d _; cases i <;> rfl
  | cons x xs ih =>
    intro i j f d hij
    cases i with
    | zero =>
      cases j with
      | zero => exact absurd rfl hij
      | succ j => rfl
    | succ i =>
      cases j with
      | zero => rfl
      | succ j =>
        simp only [listModify, List.getD_cons_succ]
        exact ih i j f d fun e => hij (by rw [e])

theorem getD_listModify_self {α : Type} : ∀ (l : List α) (i : Nat) (f : α → α) (d : α),
    i < l.length → (listModify l i f).getD i d = f (l.getD i d) := by
  intro l
  induction l with
  | nil => intro i f d h; cases h
  | cons x xs ih =>
    intro i f d h
    cases i with
    | zero => rfl
    | succ i =>
      simp only [listModify, List.getD_cons_succ]
      exact ih i f d (by simpa using h)

def keysOf (l : List PreData) : List (List Char) :=
  l.map fun pd => pd.key

/-- The payloads attached to the pre-datas of key `K`, in list order. -/
def runPayloads (l : List PreData) (K : List Char) : List Nat :=
  (l.filter fun pd => decide (pd.key = K)).flatMap fun pd => pd.payload.toList

/-- Cumulative payload-count boundary before the `t`-th distinct key. -/
def runSum (l : List PreData) (DK : List (List Char)) (t : Nat) : Nat :=
  ((DK.take t).map fun K => (runPayloads l K).length).sum

/-- The distinct keys of a sorted pre-data list, in order. -/
def dkOf (done : List PreData) : List (List Char) :=
  cdedup (keysOf done)

def lastKey (done : List PreData) : List Char :=
  (keysOf done).getLastD []

theorem runPayloads_append (done : List PreData) (pd : PreData) (X : List Char) :
    runPayloads (done ++ [pd]) X =
      runPayloads done X ++ (if pd.key = X then pd.payload.toList else []) := by
  simp only [runPayloads, List.filter_append]
  rw [List.flatMap_append]
  congr 1
  by_cases h : pd.key = X
  · simp [h]
  · simp [h]

theorem flatMap_append_last {β : Type} :
    ∀ (X : List (List Char)) (f g : List Char → List β) (D : List Char) (t : List β),
    X.getLast? = some D → X.Nodup →
    (∀ x ∈ X, x ≠ D → g x = f x) → g D = f D ++ t →
    X.flatMap g = X.flatMap f ++ t := by
  intro X
  induction X with
  | nil => intro f g D t hlast _ _ _; cases hlast
  | cons x xs ih =>
    intro f g D t hlast hnodup hf hfD
    cases xs with
    | nil =>
      have hxD : x = D := by simpa using hlast
      subst hxD
      simp [hfD]
    | cons y ys =>
      have hlast2 : (y :: ys).getLast? = some D := by
        rwa [List.getLast?_cons_cons] at hlast
      have hxD : x ≠ D := by
        intro e
        subst e
        exact (List.nodup_cons.mp hnodup).1 (mem_of_getLastEq hlast2)
      conv_lhs => rw [List.flatMap_cons]
      conv_rhs => rw [List.flatMap_cons]
      rw [ih f g D t hlast2 (List.nodup_cons.mp hnodup).2
            (fun z hz hzD => hf z (List.mem_cons_of_mem _ hz) hzD) hfD,
          hf x (List.mem_cons_self _ _) hxD, ← List.append_assoc]

theorem step3_dup_eq (st : Step3State) (pd : PreData)
    (h1 : pd.key.getLastD (Char.ofNat 0) = st.prevLetter)
    (h2 : pd.key.length = st.prevLen) :
    step3 st pd =
      { st with
        payloads := st.payloads ++ pd.payload.toList,
        datas := if pd.payload.isSome then
            listModifyLast st.datas fun d => { d with payloadEnd := d.payloadEnd + 1 }
          else st.datas } := by
  simp only [step3, h1, h2]
  simp

theorem step3_new_parent_eq (st : Step3State) (pd : PreData) (pidx : Nat)
    (hdup : ¬(pd.key.getLastD (Char.ofNat 0) = st.prevLetter ∧
      pd.key.length = st.prevLen))
    (hhead : (if pd.key.length ≤ st.prevLen then
        st.stack.drop (st.prevLen - pd.key.length + 1) else st.stack).head? =
        some pidx) :
    step3 st pd =
      { datas := listModify st.datas pidx
            (fun d => { d with numChildren := d.numChildren + 1 }) ++
          [{ letter := pd.key.getLastD (Char.ofNat 0),
             payloadStart := st.payloads.length,
             payloadEnd := st.payloads.length +
               (if pd.payload.isSome then 1 else 0),
             numChildren := 0, parent := some pidx }],
        payloads := st.payloads ++ pd.payload.toList,
        numSingleLetter := st.numSingleLetter,
        stack := st.datas.length ::
          (if pd.key.length ≤ st.prevLen then
            st.stack.drop (st.prevLen - pd.key.length + 1) else st.stack),
        prevLetter := pd.key.getLastD (Char.ofNat 0),
        prevLen := pd.key.length } := by
  have hb : (decide (pd.key.getLastD (Char.ofNat 0) = st.prevLetter) &&
      decide (pd.key.length = st.prevLen)) = false := by
    by_cases h1 : pd.key.getLastD (Char.ofNat 0) = st.prevLetter
    · have h2 : pd.key.length ≠ st.prevLen := fun h2 => hdup ⟨h1, h2⟩
      rw [decide_eq_false h2, Bool.and_false]
    · rw [decide_eq_false h1, Bool.false_and]
  simp only [step3, hb, hhead]
  simp [length_listModify]

theorem step3_new_root_eq (st : Step3State) (pd : PreData)
    (hdup : ¬(pd.key.getLastD (Char.ofNat 0) = st.prevLetter ∧
      pd.key.length = st.prevLen))
    (hhead : (if pd.key.length ≤ st.prevLen then
        st.stack.drop (st.prevLen - pd.key.length + 1) else st.stack).head? =
        none) :
    step3 st pd =
      { datas := st.datas ++
          [{ letter := pd.key.getLastD (Char.ofNat 0),
             payloadStart := st.payloads.length,
             payloadEnd := st.payloads.length +
               (if pd.payload.isSome then 1 else 0),
             numChildren := 0, parent := none }],
        payloads := st.payloads ++ pd.payload.toList,
        numSingleLetter := st.numSingleLetter + 1,
        stack := st.datas.length ::
          (if pd.key.length ≤ st.prevLen then
            st.stack.drop (st.prevLen - pd.key.length + 1) else st.stack),
        prevLetter := pd.key.getLastD (Char.ofNat 0),
        prevLen := pd.key.length } := by
  have hb : (decide (pd.key.getLastD (Char.ofNat 0) = st.prevLetter) &&
      decide (pd.key.length = st.prevLen)) = false := by
    by_cases h1 : pd.key.getLastD (Char.ofNat 0) = st.prevLetter
    · have h2 : pd.key.length ≠ st.prevLen := fun h2 => hdup ⟨h1, h2⟩
      rw [decide_eq_false h2, Bool.and_false]
    · rw [decide_eq_false h1, Bool.false_and]
  simp only [step3, hb, hhead]
  simp

/-- The step-3 fold invariant: after processing the sorted pre-datas `done`,
the state reflects the trie of the distinct keys of `done`. -/
structure S3Inv (done : List PreData) (st : Step3State) : Prop where
  hdone : done ≠ []
  hprevLetter : st.prevLetter = (lastKey done).getLastD (Char.ofNat 0)
  hprevLen : st.prevLen = (lastKey done).length
  hpayloads : st.payloads = (dkOf done).flatMap (runPayloads done)
  hdlen : st.datas.length = (dkOf done).length
  hletter : ∀ i, i < (dkOf done).length →
    (st.datas.getD i defaultBuildData).letter =
      ((dkOf done).getD i []).getLastD (Char.ofNat 0)
  hstart : ∀ i, i < (dkOf done).length →
    (st.datas.getD i defaultBuildData).payloadStart = runSum done (dkOf done) i
  hpend : ∀ i, i < (dkOf done).length →
    (st.datas.getD i defaultBuildData).payloadEnd = runSum done (dkOf done) (i + 1)
  hchild : ∀ i, i < (dkOf done).length →
    (st.datas.getD i defaultBuildData).numChildren =
      ((dkOf done).countP fun K2 => decide (K2.dropLast = (dkOf done).getD i []))
  hpar1 : ∀ i, i < (dkOf done).length → ((dkOf done).getD i []).length = 1 →
    (st.datas.getD i defaultBuildData).parent = none
  hpar2 : ∀ i, i < (dkOf done).length → 2 ≤ ((dkOf done).getD i []).length →
    ∃ j, j < i ∧ (dkOf done).getD j [] = ((dkOf done).getD i []).dropLast ∧
      (st.datas.getD i defaultBuildData).parent = some j
  hsingle : st.numSingleLetter =
    ((dkOf done).countP fun K => decide (K.length = 1))
  hstacklen : st.stack.length = (lastKey done).length
  hstack : ∀ t, t < st.stack.length →
    st.stack.getD t 0 < (dkOf done).length ∧
      (dkOf done).getD (st.stack.getD t 0) [] =
        (lastKey done).take ((lastKey done).length - t)
  hsorted : List.Pairwise (fun a b => lexLe a b = true ∧ a ≠ b) (dkOf done)
  hkeysne : ∀ K ∈ dkOf done, K ≠ []

theorem keysOf_append (done : List PreData) (pd : PreData) :
    keysOf (done ++ [pd]) = keysOf done ++ [pd.key] := by
  simp [keysOf]

theorem lastKey_spec {done : List PreData} (h : done ≠ []) :
    (keysOf done).getLast? = some (lastKey done) := by
  have hk : keysOf done ≠ [] := by simp [keysOf, h]
  cases hl : (keysOf done).getLast? with
  | none => exact absurd (List.getLast?_eq_none_iff.mp hl) hk
  | some a =>
    unfold lastKey
    rw [List.getLastD_eq_getLast?, hl]
    rfl

theorem dkOf_getLast {done : List PreData} (h : done ≠ []) :
    (dkOf done).getLast? = some (lastKey done) := by
  rw [dkOf, cdedup_getLastEq]
  exact lastKey_spec h

theorem dkOf_ne_nil {done : List PreData} (h : done ≠ []) : dkOf done ≠ [] := by
  intro he
  have := dkOf_getLast h
  rw [he] at this
  cases this

theorem lastKey_append (done : List PreData) (pd : PreData) :
    lastKey (done ++ [pd]) = pd.key := by
  unfold lastKey
  rw [keysOf_append, List.getLastD_eq_getLast?, List.getLast?_concat]
  rfl

theorem dkOf_append_dup {done : List PreData} {pd : PreData}
    (h : (keysOf done).getLast? = some pd.key) :
    dkOf (done ++ [pd]) = dkOf done := by
  unfold dkOf
  rw [keysOf_append, cdedup_append, snocDedup, if_pos]
  rw [cdedup_getLastEq]
  exact h

theorem dkOf_append_new {done : List PreData} {pd : PreData}
    (h : (keysOf done).getLast? ≠ some pd.key) :
    dkOf (done ++ [pd]) = dkOf done ++ [pd.key] := by
  unfold dkOf
  rw [keysOf_append, cdedup_append, snocDedup, if_neg]
  rw [cdedup_getLastEq]
  exact h

theorem nodup_getD_inj {α : Type} {l : List α} (h : l.Nodup) {i j : Nat} {d : α}
    (hi : i < l.length) (hj : j < l.length) (he : l.getD i d = l.getD j d) :
    i = j := by
  rw [List.getD_eq_getElem _ _ hi, List.getD_eq_getElem _ _ hj] at he
  exact h.getElem_inj_iff.mp he

theorem runSum_append_of_notmem (done : List PreData) (pd : PreData) :
    ∀ (X : List (List Char)), pd.key ∉ X →
    (X.map fun K => (runPayloads (done ++ [pd]) K).length).sum =
      (X.map fun K => (runPayloads done K).length).sum := by
  intro X
  induction X with
  | nil => intro _; rfl
  | cons x xs ih =>
    intro hmem
    simp only [List.map_cons, List.sum_cons]
    rw [ih fun h => hmem (List.mem_cons_of_mem _ h), runPayloads_append,
        if_neg fun h => hmem (by rw [← h]; exact List.mem_cons_self _ _),
        List.append_nil]

/-- The key of an element of the sorted list that comes before `pd` is at
most `pd`'s key; in particular the last processed key is. -/
theorem before_le_last (L : List PreData)
    (hsorted : List.Pairwise (fun a b : PreData => lexLe a.key b.key = true) L)
    (done : List PreData) (pd : PreData) (rest : List PreData)
    (hL : L = done ++ pd :: rest) (hdne : done ≠ []) :
    lexLe (lastKey done) pd.key = true := by
  have hD := lastKey_spec hdne
  have hDmem : lastKey done ∈ keysOf done := mem_of_getLastEq hD
  rcases List.mem_map.mp hDmem with ⟨pdD, hpdD, hkey⟩
  rw [hL] at hsorted
  have hcross := (List.pairwise_append.mp hsorted).2.2
  rw [← hkey]
  exact hcross pdD hpdD pd (List.mem_cons_self _ _)

/-- Any key of the whole sorted list that is strictly below `pd`'s key is
at most the last key processed before `pd`. -/
theorem key_between (L : List PreData)
    (hsorted : List.Pairwise (fun a b : PreData => lexLe a.key b.key = true) L)
    (done : List PreData) (pd : PreData) (rest : List PreData)
    (hL : L = done ++ pd :: rest) (hdne : done ≠ []) (P : List Char)
    (hPmem : ∃ pd2 ∈ L, pd2.key = P) (hPK : lexLe P pd.key = true)
    (hPne : P ≠ pd.key) : lexLe P (lastKey done) = true := by
  rcases hPmem with ⟨pdP, hpdP, hkey⟩
  rw [hL] at hsorted hpdP
  rcases List.mem_append.mp hpdP with hmem | hmem
  · have hpd : List.Pairwise (fun a b : PreData => lexLe a.key b.key = true) done :=
      (List.pairwise_append.mp hsorted).1
    have hpk : List.Pairwise (fun a b => lexLe a b = true) (keysOf done) := by
      rw [keysOf, List.pairwise_map]
      exact hpd
    rw [← hkey]
    exact pairwise_last_le hpk (lastKey_spec hdne) pdP.key
      (List.mem_map.mpr ⟨pdP, hmem, rfl⟩)
  · rcases List.mem_cons.mp hmem with rfl | hmem2
    · exact absurd hkey.symm hPne
    · have hrel := List.rel_of_pairwise_cons (List.pairwise_append.mp hsorted).2.1 hmem2
      rw [← hkey] at hPK hPne
      exact absurd (lexLe_antisymm _ _ hPK hrel) hPne

/-- For a non-first element `pd` of the sorted prefix-closed list, the
dropped-last-character prefix of `pd.key` is an initial segment of the
previously processed key. -/
theorem new_key_take (L : List PreData)
    (hsorted : List.Pairwise (fun a b : PreData => lexLe a.key b.key = true) L)
    (hclosed : ∀ pd ∈ L, ∀ j, 1 ≤ j → j ≤ pd.key.length →
      ∃ pd2 ∈ L, pd2.key = pd.key.take j)
    (hne : ∀ pd ∈ L, pd.key ≠ [])
    (done : List PreData) (pd : PreData) (rest : List PreData)
    (hL : L = done ++ pd :: rest) (hdne : done ≠ []) :
    pd.key.dropLast = (lastKey done).take (pd.key.length - 1) := by
  have hpdL : pd ∈ L := by
    rw [hL]
    exact List.mem_append_right _ (List.mem_cons_self _ _)
  have hKne : pd.key ≠ [] := hne pd hpdL
  have hKlen : 1 ≤ pd.key.length := by
    cases hk : pd.key with
    | nil => exact absurd hk hKne
    | cons c cs => simp
  rcases Nat.lt_or_ge pd.key.length 2 with h2 | h2
  · have h1 : pd.key.length = 1 := by omega
    have : pd.key.dropLast = [] := by
      rw [List.dropLast_eq_take, h1]
      rfl
    rw [this, h1]
    rfl
  · have hPmem : ∃ pd2 ∈ L, pd2.key = pd.key.take (pd.key.length - 1) :=
      hclosed pd hpdL (pd.key.length - 1) (by omega) (by omega)
    rw [← List.dropLast_eq_take] at hPmem
    have hPK : lexLe pd.key.dropLast pd.key = true := by
      rw [List.dropLast_eq_take]
      exact lexLe_take _ _
    have hPne : pd.key.dropLast ≠ pd.key := by
      intro he
      have := congrArg List.length he
      rw [List.length_dropLast] at this
      omega
    have hPD := key_between L hsorted done pd rest hL hdne _ hPmem hPK hPne
    have hDK := before_le_last L hsorted done pd rest hL hdne
    have hsand : pd.key.dropLast = (lastKey done).take pd.key.dropLast.length := by
      refine lex_sandwich _ _ (pd.key.getLast hKne) hPD ?_
      rw [List.dropLast_append_getLast]
      exact hDK
    rw [hsand, List.length_dropLast]

/-- `pd`'s key repeats the previously processed key exactly when it has the
same last letter and the same length. -/
theorem dup_key_eq (L : List PreData)
    (hsorted : List.Pairwise (fun a b : PreData => lexLe a.key b.key = true) L)
    (hclosed : ∀ pd ∈ L, ∀ j, 1 ≤ j → j ≤ pd.key.length →
      ∃ pd2 ∈ L, pd2.key = pd.key.take j)
    (hne : ∀ pd ∈ L, pd.key ≠ [])
    (done : List PreData) (pd : PreData) (rest : List PreData)
    (hL : L = done ++ pd :: rest) (hdne : done ≠ [])
    (hDne : lastKey done ≠ [])
    (hlet : pd.key.getLastD (Char.ofNat 0) = (lastKey done).getLastD (Char.ofNat 0))
    (hlen : pd.key.length = (lastKey done).length) :
    pd.key = lastKey done := by
  have hpdL : pd ∈ L := by
    rw [hL]
    exact List.mem_append_right _ (List.mem_cons_self _ _)
  have hKne : pd.key ≠ [] := hne pd hpdL
  have htake := new_key_take L hsorted hclosed hne done pd rest hL hdne
  have hKeq : pd.key.dropLast ++ [pd.key.getLast hKne] = pd.key :=
    List.dropLast_append_getLast hKne
  have hDeq : (lastKey done).dropLast ++ [(lastKey done).getLast hDne] = lastKey done :=
    List.dropLast_append_getLast hDne
  have hdl : (lastKey done).dropLast = pd.key.dropLast := by
    rw [htake, List.dropLast_eq_take, hlen]
  have hlast2 : pd.key.getLast hKne = (lastKey done).getLast hDne := by
    have e1 : pd.key.getLastD (Char.ofNat 0) = pd.key.getLast hKne := by
      rw [List.getLastD_eq_getLast?, List.getLast?_eq_getLast _ hKne]
      rfl
    have e2 : (lastKey done).getLastD (Char.ofNat 0) = (lastKey done).getLast hDne := by
      rw [List.getLastD_eq_getLast?, List.getLast?_eq_getLast _ hDne]
      rfl
    rw [← e1, ← e2, hlet]
  rw [← hKeq, ← hDeq, hdl, hlast2]

/-- The first element of the sorted prefix-closed list has a single-letter
key. -/
theorem first_key_len1 (L : List PreData)
    (hsorted : List.Pairwise (fun a b : PreData => lexLe a.key b.key = true) L)
    (hclosed : ∀ pd ∈ L, ∀ j, 1 ≤ j → j ≤ pd.key.length →
      ∃ pd2 ∈ L, pd2.key = pd.key.take j)
    (hne : ∀ pd ∈ L, pd.key ≠ [])
    (pd : PreData) (rest : List PreData) (hL : L = pd :: rest) :
    pd.key.length = 1 := by
  have hpdL : pd ∈ L := by rw [hL]; exact List.mem_cons_self _ _
  have hKne : pd.key ≠ [] := hne pd hpdL
  have hKlen : 1 ≤ pd.key.length := by
    cases hk : pd.key with
    | nil => exact absurd hk hKne
    | cons c cs => simp
  by_contra hlen
  have h2 : 2 ≤ pd.key.length := by omega
  rcases hclosed pd hpdL (pd.key.length - 1) (by omega) (by omega) with ⟨pdP, hpdP, hkey⟩
  have hPK : lexLe pdP.key pd.key = true := by
    rw [hkey]
    exact lexLe_take _ _
  have hPne : pdP.key ≠ pd.key := by
    intro he
    have := congrArg List.length hkey
    rw [he, List.length_take] at this
    omega
  rw [hL] at hpdP hsorted
  rcases List.mem_cons.mp hpdP with rfl | hmem
  · exact hPne rfl
  · have hrel := List.rel_of_pairwise_cons hsorted hmem
    exact hPne (lexLe_antisymm _ _ hPK hrel)

/-- Step-3 invariant preservation, duplicate case: `pd` repeats the previous
key. -/
theorem s3inv_dup (done : List PreData) (pd : PreData)
    (st : Step3State) (hinv : S3Inv done st)
    (hKD : pd.key = lastKey done) :
    S3Inv (done ++ [pd]) (step3 st pd) := by
  have hdne := hinv.hdone
  have hdk : dkOf (done ++ [pd]) = dkOf done :=
    dkOf_append_dup (by rw [hKD]; exact lastKey_spec hdne)
  have hlk : lastKey (done ++ [pd]) = lastKey done := by
    rw [lastKey_append, hKD]
  have hstep := step3_dup_eq st pd
    (by rw [hinv.hprevLetter, hKD]) (by rw [hinv.hprevLen, hKD])
  have hDdk := dkOf_getLast hdne
  have hnodup : (dkOf done).Nodup := List.Pairwise.imp (fun h => h.2) hinv.hsorted
  have hmpos : 1 ≤ (dkOf done).length := by
    cases h : dkOf done with
    | nil => exact absurd h (dkOf_ne_nil hdne)
    | cons x xs => simp
  have hDidx : (dkOf done).getD ((dkOf done).length - 1) [] = lastKey done :=
    getD_last [] hDdk
  have hDonly : ∀ j, j < (dkOf done).length → (dkOf done).getD j [] = lastKey done →
      j = (dkOf done).length - 1 := by
    intro j hj he
    exact nodup_getD_inj hnodup hj (by omega) (by rw [he, hDidx])
  have htakene : ∀ t, t ≤ (dkOf done).length - 1 → pd.key ∉ (dkOf done).take t := by
    intro t ht hmem
    rcases List.getElem_of_mem hmem with ⟨j, hjlen, hj⟩
    rw [List.getElem_take] at hj
    have hjt : j < t := by
      have h2 := hjlen
      rw [List.length_take] at h2
      omega
    have hjm : j < (dkOf done).length := by
      have h2 := hjlen
      rw [List.length_take] at h2
      omega
    have h3 : (dkOf done).getD j [] = lastKey done := by
      rw [List.getD_eq_getElem _ _ hjm, hj, hKD]
    have := hDonly j hjm h3
    omega
  have hsum1 : ∀ t, t ≤ (dkOf done).length - 1 →
      runSum (done ++ [pd]) (dkOf done) t = runSum done (dkOf done) t := by
    intro t ht
    unfold runSum
    exact runSum_append_of_notmem done pd _ (htakene t ht)
  have hDlast_eq : (dkOf done).dropLast ++ [lastKey done] = dkOf done := by
    have h1 := List.getLast?_eq_getLast (dkOf done) (dkOf_ne_nil hdne)
    rw [h1] at hDdk
    rcases Option.some.inj hDdk with h2
    rw [← h2]
    exact List.dropLast_append_getLast _
  have hsum_decomp : ∀ l : List PreData, runSum l (dkOf done) (dkOf done).length =
      ((dkOf done).dropLast.map fun K => (runPayloads l K).length).sum +
        (runPayloads l (lastKey done)).length := by
    intro l
    unfold runSum
    rw [List.take_length]
    conv_lhs => rw [← hDlast_eq]
    rw [List.map_append, List.sum_append]
    simp
  have hsum_m : runSum (done ++ [pd]) (dkOf done) (dkOf done).length =
      runSum done (dkOf done) (dkOf done).length + pd.payload.toList.length := by
    rw [hsum_decomp, hsum_decomp]
    have h1 : ((dkOf done).dropLast.map
          fun K => (runPayloads (done ++ [pd]) K).length).sum
        = ((dkOf done).dropLast.map fun K => (runPayloads done K).length).sum := by
      apply runSum_append_of_notmem
      rw [List.dropLast_eq_take]
      exact htakene _ (le_refl _)
    rw [h1, runPayloads_append, if_pos hKD, List.length_append]
    omega
  have hmlen : st.datas.length = (dkOf done).length := hinv.hdlen
  have hget_ne : ∀ i, i ≠ (dkOf done).length - 1 →
      (step3 st pd).datas.getD i defaultBuildData =
        st.datas.getD i defaultBuildData := by
    intro i hi
    rw [hstep]
    dsimp only
    split_ifs with hps
    · unfold listModifyLast
      rw [hmlen]
      exact getD_listModify_ne _ _ _ _ _ fun e => hi e.symm
    · rfl
  have hget_last : (step3 st pd).datas.getD ((dkOf done).length - 1) defaultBuildData =
      (if pd.payload.isSome then
        { st.datas.getD ((dkOf done).length - 1) defaultBuildData with
            payloadEnd :=
              (st.datas.getD ((dkOf done).length - 1) defaultBuildData).payloadEnd + 1 }
       else st.datas.getD ((dkOf done).length - 1) defaultBuildData) := by
    rw [hstep]
    dsimp only
    split_ifs with hps
    · unfold listModifyLast
      rw [hmlen]
      exact getD_listModify_self _ _ _ _ (by omega)
    · rfl
  refine ⟨by simp, ?_, ?_, ?_, ?_, ?_, ?_, ?_, ?_, ?_, ?_, ?_, ?_, ?_, ?_, ?_⟩
  · rw [hstep, hlk]
    exact hinv.hprevLetter
  · rw [hstep, hlk]
    exact hinv.hprevLen
  · rw [hstep, hdk]
    show st.payloads ++ pd.payload.toList = _
    rw [hinv.hpayloads]
    symm
    refine flatMap_append_last _ _ _ (lastKey done) _ hDdk hnodup ?_ ?_
    · intro x hx hxD
      rw [runPayloads_append,
        if_neg fun (e : pd.key = x) => hxD (by rw [← e]; exact hKD),
        List.append_nil]
    · rw [runPayloads_append, if_pos hKD]
  · rw [hstep, hdk]
    dsimp only
    split_ifs with hps
    · unfold listModifyLast
      rw [length_listModify]
      exact hmlen
    · exact hmlen
  · intro i hi
    rw [hdk] at hi ⊢
    by_cases him : i = (dkOf done).length - 1
    · subst him
      rw [hget_last]
      split_ifs with hps
      · dsimp only
        exact hinv.hletter _ hi
      · exact hinv.hletter _ hi
    · rw [hget_ne i him]
      exact hinv.hletter i hi
  · intro i hi
    rw [hdk] at hi ⊢
    rw [hsum1 i (by omega)]
    by_cases him : i = (dkOf done).length - 1
    · subst him
      rw [hget_last]
      split_ifs with hps
      · dsimp only
        exact hinv.hstart _ hi
      · exact hinv.hstart _ hi
    · rw [hget_ne i him]
      exact hinv.hstart i hi
  · intro i hi
    rw [hdk] at hi ⊢
    by_cases him : i = (dkOf done).length - 1
    · subst him
      have hip1 : (dkOf done).length - 1 + 1 = (dkOf done).length := by omega
      rw [hget_last, hip1, hsum_m]
      split_ifs with hps
      · dsimp only
        rcases Option.isSome_iff_exists.mp hps with ⟨p, hp⟩
        rw [hinv.hpend _ hi, hip1, hp]
        rfl
      · have hp : pd.payload = none := Option.not_isSome_iff_eq_none.mp hps
        rw [hinv.hpend _ hi, hip1, hp]
        rfl
    · have hi1 : i + 1 ≤ (dkOf done).length - 1 := by omega
      rw [hget_ne i him, hsum1 (i + 1) hi1]
      exact hinv.hpend i hi
  · intro i hi
    rw [hdk] at hi ⊢
    by_cases him : i = (dkOf done).length - 1
    · subst him
      rw [hget_last]
      split_ifs with hps
      · dsimp only
        exact hinv.hchild _ hi
      · exact hinv.hchild _ hi
    · rw [hget_ne i him]
      exact hinv.hchild i hi
  · intro i hi h1
    rw [hdk] at hi h1
    by_cases him : i = (dkOf done).length - 1
    · subst him
      rw [hget_last]
      split_ifs with hps
      · dsimp only
        exact hinv.hpar1 _ hi h1
      · exact hinv.hpar1 _ hi h1
    · rw [hget_ne i him]
      exact hinv.hpar1 i hi h1
  · intro i hi h2
    rw [hdk] at hi h2 ⊢
    rcases hinv.hpar2 i hi h2 with ⟨j, hj1, hj2, hj3⟩
    refine ⟨j, hj1, hj2, ?_⟩
    by_cases him : i = (dkOf done).length - 1
    · subst him
      rw [hget_last]
      split_ifs with hps
      · dsimp only
        exact hj3
      · exact hj3
    · rw [hget_ne i him]
      exact hj3
  · rw [hstep, hdk]
    exact hinv.hsingle
  · rw [hstep, hlk]
    exact hinv.hstacklen
  · intro t ht
    rw [hstep] at ht
    rw [hstep, hdk, hlk]
    exact hinv.hstack t ht
  · rw [hdk]
    exact hinv.hsorted
  · rw [hdk]
    exact hinv.hkeysne

theorem getD_drop {α : Type} (l : List α) (n t : Nat) (d : α) :
    (l.drop n).getD t d = l.getD (n + t) d := by
  simp [List.getD, List.getElem?_drop]

theorem head_eq_getD {α : Type} (l : List α) (d : α) (h : l ≠ []) :
    l.head? = some (l.getD 0 d) := by
  cases l with
  | nil => exact absurd rfl h
  | cons x xs => rfl

theorem flatMap_congr_on {α β : Type} : ∀ (l : List α) (f g : α → List β),
    (∀ x ∈ l, f x = g x) → l.flatMap f = l.flatMap g := by
  intro l
  induction l with
  | nil => intro f g _; rfl
  | cons x xs ih =>
    intro f g h
    rw [List.flatMap_cons, List.flatMap_cons, h x (List.mem_cons_self _ _),
        ih f g fun z hz => h z (List.mem_cons_of_mem _ hz)]

/-- Shared facts for the two non-duplicate sub-cases of step 3: `pd`'s key
is fresh, its run in `done` is empty, its proper initial segments agree with
the previous key's, and the payload-boundary sums extend as expected. -/
theorem s3new_facts (L : List PreData)
    (hsorted : List.Pairwise (fun a b : PreData => lexLe a.key b.key = true) L)
    (hclosed : ∀ pd ∈ L, ∀ j, 1 ≤ j → j ≤ pd.key.length →
      ∃ pd2 ∈ L, pd2.key = pd.key.take j)
    (hne : ∀ pd ∈ L, pd.key ≠ [])
    (done : List PreData) (pd : PreData) (rest : List PreData)
    (hL : L = done ++ pd :: rest)
    (st : Step3State) (hinv : S3Inv done st)
    (hKD : pd.key ≠ lastKey done) :
    pd.key ∉ dkOf done ∧
    runPayloads done pd.key = [] ∧
    (∀ s, s ≤ pd.key.length - 1 → pd.key.take s = (lastKey done).take s) ∧
    (∀ t, t ≤ (dkOf done).length →
      runSum (done ++ [pd]) (dkOf done ++ [pd.key]) t = runSum done (dkOf done) t) ∧
    st.payloads.length = runSum done (dkOf done) (dkOf done).length ∧
    runSum (done ++ [pd]) (dkOf done ++ [pd.key]) ((dkOf done).length + 1) =
      st.payloads.length + pd.payload.toList.length ∧
    ((dkOf done).countP fun K2 => decide (K2.dropLast = pd.key)) = 0 ∧
    List.Pairwise (fun a b => lexLe a b = true ∧ a ≠ b) (dkOf done ++ [pd.key]) ∧
    pd.key.length - 1 ≤ (lastKey done).length ∧
    st.payloads ++ pd.payload.toList =
      (dkOf done ++ [pd.key]).flatMap (runPayloads (done ++ [pd])) := by
  have hdne := hinv.hdone
  have hpdL : pd ∈ L := by
    rw [hL]
    exact List.mem_append_right _ (List.mem_cons_self _ _)
  have hKne : pd.key ≠ [] := hne pd hpdL
  have hDleK := before_le_last L hsorted done pd rest hL hdne
  have hKnotin : pd.key ∉ dkOf done := by
    intro hmem
    have h1 := pairwise_last_le (List.Pairwise.imp (fun h => h.1) hinv.hsorted)
      (dkOf_getLast hdne) pd.key hmem
    exact hKD (lexLe_antisymm _ _ h1 hDleK)
  have hKnotkeys : pd.key ∉ keysOf done := by
    intro hmem
    exact hKnotin (mem_cdedup.mpr hmem)
  have hrunK : runPayloads done pd.key = [] := by
    unfold runPayloads
    have h1 : done.filter (fun pd2 => decide (pd2.key = pd.key)) = [] := by
      rw [List.filter_eq_nil_iff]
      intro pd2 hpd2
      simp only [decide_eq_true_eq]
      intro he
      exact hKnotkeys (List.mem_map.mpr ⟨pd2, hpd2, he⟩)
    rw [h1]
    rfl
  have htake := new_key_take L hsorted hclosed hne done pd rest hL hdne
  have hlen_le : pd.key.length - 1 ≤ (lastKey done).length := by
    have h1 := congrArg List.length htake
    rw [List.length_dropLast, List.length_take] at h1
    omega
  have htake_s : ∀ s, s ≤ pd.key.length - 1 →
      pd.key.take s = (lastKey done).take s := by
    intro s hs
    have h1 : pd.key.take s = pd.key.dropLast.take s := by
      rw [List.dropLast_eq_take, List.take_take]
      congr 1
      omega
    rw [h1, htake, List.take_take]
    congr 1
    omega
  have hsum_t : ∀ t, t ≤ (dkOf done).length →
      runSum (done ++ [pd]) (dkOf done ++ [pd.key]) t =
        runSum done (dkOf done) t := by
    intro t ht
    unfold runSum
    rw [List.take_append_of_le_length ht]
    apply runSum_append_of_notmem
    intro hmem
    exact hKnotin (List.mem_of_mem_take hmem)
  have hsumDK : ((dkOf done).map fun K => (runPayloads (done ++ [pd]) K).length).sum =
      ((dkOf done).map fun K => (runPayloads done K).length).sum :=
    runSum_append_of_notmem done pd _ hKnotin
  have hplen2 : st.payloads.length =
      ((dkOf done).map fun K => (runPayloads done K).length).sum := by
    rw [hinv.hpayloads, List.length_flatMap]
    rfl
  have hplen : st.payloads.length = runSum done (dkOf done) (dkOf done).length := by
    unfold runSum
    rw [List.take_length]
    exact hplen2
  have hrun2K : runPayloads (done ++ [pd]) pd.key = pd.payload.toList := by
    rw [runPayloads_append, if_pos rfl, hrunK]
    rfl
  have hsum_top : runSum (done ++ [pd]) (dkOf done ++ [pd.key])
      ((dkOf done).length + 1) = st.payloads.length + pd.payload.toList.length := by
    unfold runSum
    rw [show (dkOf done).length + 1 = (dkOf done ++ [pd.key]).length by simp,
        List.take_length, List.map_append, List.sum_append, hsumDK, ← hplen2]
    simp [hrun2K]
  have hext0 : ((dkOf done).countP fun K2 => decide (K2.dropLast = pd.key)) = 0 := by
    rw [List.countP_eq_zero]
    intro x hx
    simp only [decide_eq_true_eq]
    intro he
    have hxne : x ≠ [] := hinv.hkeysne x hx
    have hxlen : 1 ≤ x.length := by
      cases hx2 : x with
      | nil => exact absurd hx2 hxne
      | cons c cs => simp
    have hKx : lexLe pd.key x = true := by
      rw [← he, List.dropLast_eq_take]
      exact lexLe_take _ _
    have hKxne : pd.key ≠ x := by
      intro e
      have h1 := congrArg List.length he
      rw [List.length_dropLast, e] at h1
      omega
    have hxD := pairwise_last_le (List.Pairwise.imp (fun h => h.1) hinv.hsorted)
      (dkOf_getLast hdne) x hx
    exact hKD (lexLe_antisymm _ _ (lexLe_trans _ _ _ hKx hxD) hDleK)
  have hsorted2 : List.Pairwise (fun a b => lexLe a b = true ∧ a ≠ b)
      (dkOf done ++ [pd.key]) := by
    rw [List.pairwise_append]
    refine ⟨hinv.hsorted, List.pairwise_singleton _ _, ?_⟩
    intro x hx y hy
    rcases List.mem_singleton.mp hy with rfl
    have hxD := pairwise_last_le (List.Pairwise.imp (fun h => h.1) hinv.hsorted)
      (dkOf_getLast hdne) x hx
    refine ⟨lexLe_trans _ _ _ hxD hDleK, ?_⟩
    intro e
    rw [e] at hx
    exact hKnotin hx
  have hpay : st.payloads ++ pd.payload.toList =
      (dkOf done ++ [pd.key]).flatMap (runPayloads (done ++ [pd])) := by
    rw [List.flatMap_append, hinv.hpayloads]
    have h1 : (dkOf done).flatMap (runPayloads (done ++ [pd])) =
        (dkOf done).flatMap (runPayloads done) := by
      apply flatMap_congr_on
      intro x hx
      rw [runPayloads_append, if_neg, List.append_nil]
      intro e
      rw [e] at hKnotin
      exact hKnotin hx
    rw [h1]
    congr 1
    rw [List.flatMap_cons, List.flatMap_nil, List.append_nil, hrun2K]
  exact ⟨hKnotin, hrunK, htake_s, hsum_t, hplen, hsum_top, hext0, hsorted2,
    hlen_le, hpay⟩

/-- Step-3 invariant preservation, new single-letter key: the stack empties
and the data is pushed with no parent. -/
theorem s3inv_new_root (L : List PreData)
    (hsorted : List.Pairwise (fun a b : PreData => lexLe a.key b.key = true) L)
    (hclosed : ∀ pd ∈ L, ∀ j, 1 ≤ j → j ≤ pd.key.length →
      ∃ pd2 ∈ L, pd2.key = pd.key.take j)
    (hne : ∀ pd ∈ L, pd.key ≠ [])
    (done : List PreData) (pd : PreData) (rest : List PreData)
    (hL : L = done ++ pd :: rest)
    (st : Step3State) (hinv : S3Inv done st)
    (hKD : pd.key ≠ lastKey done) (hlen1 : pd.key.length = 1) :
    S3Inv (done ++ [pd]) (step3 st pd) := by
  obtain ⟨hKnotin, hrunK, htake_s, hsum_t, hplen, hsum_top, hext0, hsorted2,
    hlen_le, hpay⟩ := s3new_facts L hsorted hclosed hne done pd rest hL st hinv hKD
  have hdne := hinv.hdone
  have hpdL : pd ∈ L := by
    rw [hL]
    exact List.mem_append_right _ (List.mem_cons_self _ _)
  have hKne : pd.key ≠ [] := hne pd hpdL
  have hDdk := dkOf_getLast hdne
  have hDne : lastKey done ≠ [] := hinv.hkeysne _ (mem_of_getLastEq hDdk)
  have hDlen : 1 ≤ (lastKey done).length := by
    cases h : lastKey done with
    | nil => exact absurd h hDne
    | cons c cs => simp
  have hdup_false : ¬(pd.key.getLastD (Char.ofNat 0) = st.prevLetter ∧
      pd.key.length = st.prevLen) := by
    intro h
    exact hKD (dup_key_eq L hsorted hclosed hne done pd rest hL hdne hDne
      (h.1.trans hinv.hprevLetter) (h.2.trans hinv.hprevLen))
  have hstack_nil : (if pd.key.length ≤ st.prevLen then
      st.stack.drop (st.prevLen - pd.key.length + 1) else st.stack) = [] := by
    rw [if_pos]
    · apply List.drop_eq_nil_of_le
      rw [hinv.hstacklen, hinv.hprevLen]
      omega
    · rw [hinv.hprevLen, hlen1]
      omega
  have hhead : (if pd.key.length ≤ st.prevLen then
      st.stack.drop (st.prevLen - pd.key.length + 1) else st.stack).head? = none := by
    rw [hstack_nil]
    rfl
  have hstep := step3_new_root_eq st pd hdup_false hhead
  have hdk : dkOf (done ++ [pd]) = dkOf done ++ [pd.key] := by
    apply dkOf_append_new
    rw [lastKey_spec hdne]
    intro h
    exact hKD (Option.some.inj h).symm
  have hlk : lastKey (done ++ [pd]) = pd.key := lastKey_append done pd
  have hm := hinv.hdlen
  have hget_lt : ∀ i, i < (dkOf done).length →
      (step3 st pd).datas.getD i defaultBuildData =
        st.datas.getD i defaultBuildData := by
    intro i hi
    rw [hstep]
    dsimp only
    exact List.getD_append _ _ _ _ (by rw [hm]; exact hi)
  have hget_m : (step3 st pd).datas.getD (dkOf done).length defaultBuildData =
      { letter := pd.key.getLastD (Char.ofNat 0),
        payloadStart := st.payloads.length,
        payloadEnd := st.payloads.length + (if pd.payload.isSome then 1 else 0),
        numChildren := 0, parent := none } := by
    rw [hstep]
    dsimp only
    rw [List.getD_append_right _ _ _ _ (le_of_eq hm), hm, Nat.sub_self]
    rfl
  have hdkget_lt : ∀ i, i < (dkOf done).length →
      (dkOf done ++ [pd.key]).getD i [] = (dkOf done).getD i [] := fun i hi =>
    List.getD_append _ _ _ _ hi
  have hdkget_m : (dkOf done ++ [pd.key]).getD (dkOf done).length [] = pd.key := by
    rw [List.getD_append_right _ _ _ _ (le_refl _), Nat.sub_self]
    rfl
  have hdl_nil : pd.key.dropLast = [] := by
    rw [List.dropLast_eq_take, hlen1]
    rfl
  refine ⟨by simp, ?_, ?_, ?_, ?_, ?_, ?_, ?_, ?_, ?_, ?_, ?_, ?_, ?_, ?_, ?_⟩
  · rw [hstep, hlk]
  · rw [hstep, hlk]
  · rw [hstep, hdk]
    exact hpay
  · rw [hstep, hdk]
    dsimp only
    simp [hm]
  · intro i hi
    rw [hdk] at hi ⊢
    rw [List.length_append] at hi
    simp only [List.length_singleton] at hi
    by_cases him : i < (dkOf done).length
    · rw [hget_lt i him, hdkget_lt i him]
      exact hinv.hletter i him
    · have hieq : i = (dkOf done).length := by omega
      subst hieq
      rw [hget_m, hdkget_m]
  · intro i hi
    rw [hdk] at hi ⊢
    rw [List.length_append] at hi
    simp only [List.length_singleton] at hi
    by_cases him : i < (dkOf done).length
    · rw [hget_lt i him, hsum_t i (by omega)]
      exact hinv.hstart i him
    · have hieq : i = (dkOf done).length := by omega
      subst hieq
      rw [hget_m, hsum_t _ (le_refl _)]
      exact hplen
  · intro i hi
    rw [hdk] at hi ⊢
    rw [List.length_append] at hi
    simp only [List.length_singleton] at hi
    by_cases him : i < (dkOf done).length
    · rw [hget_lt i him, hsum_t (i + 1) (by omega)]
      exact hinv.hpend i him
    · have hieq : i = (dkOf done).length := by omega
      subst hieq
      rw [hget_m, hsum_top]
      cases hp : pd.payload <;> simp [hp]
  · intro i hi
    rw [hdk] at hi ⊢
    rw [List.length_append] at hi
    simp only [List.length_singleton] at hi
    by_cases him : i < (dkOf done).length
    · have hmem : (dkOf done).getD i [] ∈ dkOf done := by
        rw [List.getD_eq_getElem _ _ him]
        exact List.getElem_mem _
      have hne2 : ¬ pd.key.dropLast = (dkOf done).getD i [] := by
        rw [hdl_nil]
        intro e
        exact hinv.hkeysne _ hmem e.symm
      rw [hget_lt i him, hdkget_lt i him, List.countP_append, List.countP_singleton,
          if_neg (by simpa using hne2), Nat.add_zero]
      exact hinv.hchild i him
    · have hieq : i = (dkOf done).length := by omega
      subst hieq
      have hne2 : ¬ pd.key.dropLast = pd.key := by
        rw [hdl_nil]
        exact fun e => hKne e.symm
      rw [hdkget_m, List.countP_append, List.countP_singleton,
          if_neg (by simpa using hne2), Nat.add_zero, hext0]
      rw [hget_m]
  · intro i hi h1
    rw [hdk] at hi h1
    rw [List.length_append] at hi
    simp only [List.length_singleton] at hi
    by_cases him : i < (dkOf done).length
    · rw [hdkget_lt i him] at h1
      rw [hget_lt i him]
      exact hinv.hpar1 i him h1
    · have hieq : i = (dkOf done).length := by omega
      subst hieq
      rw [hget_m]
  · intro i hi h2
    rw [hdk] at hi h2 ⊢
    rw [List.length_append] at hi
    simp only [List.length_singleton] at hi
    by_cases him : i < (dkOf done).length
    · rw [hdkget_lt i him] at h2
      rcases hinv.hpar2 i him h2 with ⟨j, hj1, hj2, hj3⟩
      refine ⟨j, hj1, ?_, ?_⟩
      · rw [hdkget_lt j (by omega), hdkget_lt i him]
        exact hj2
      · rw [hget_lt i him]
        exact hj3
    · have hieq : i = (dkOf done).length := by omega
      subst hieq
      rw [hdkget_m, hlen1] at h2
      omega
  · rw [hstep, hdk]
    show st.numSingleLetter + 1 = _
    rw [List.countP_append, List.countP_singleton, if_pos (by simp [hlen1]),
        ← hinv.hsingle]
  · rw [hstep, hstack_nil, hlk, hlen1]
    rfl
  · intro t ht
    rw [hstep, hstack_nil] at ht
    have ht0 : t = 0 := by
      simp only [List.length_cons, List.length_nil] at ht
      omega
    subst ht0
    rw [hstep, hstack_nil, hdk, hlk]
    constructor
    · show st.datas.length < (dkOf done ++ [pd.key]).length
      rw [hm]
      simp
    · show (dkOf done ++ [pd.key]).getD st.datas.length [] =
        pd.key.take (pd.key.length - 0)
      rw [hm, hdkget_m, Nat.sub_zero, List.take_length]
  · rw [hdk]
    exact hsorted2
  · rw [hdk]
    intro x hx
    rcases List.mem_append.mp hx with hx | hx
    · exact hinv.hkeysne x hx
    · rcases List.mem_singleton.mp hx with rfl
      exact hKne

/-- Step-3 invariant preservation, new longer key: the stack is popped to
the parent prefix and the data is pushed as its child. -/
theorem s3inv_new_parent (L : List PreData)
    (hsorted : List.Pairwise (fun a b : PreData => lexLe a.key b.key = true) L)
    (hclosed : ∀ pd ∈ L, ∀ j, 1 ≤ j → j ≤ pd.key.length →
      ∃ pd2 ∈ L, pd2.key = pd.key.take j)
    (hne : ∀ pd ∈ L, pd.key ≠ [])
    (done : List PreData) (pd : PreData) (rest : List PreData)
    (hL : L = done ++ pd :: rest)
    (st : Step3State) (hinv : S3Inv done st)
    (hKD : pd.key ≠ lastKey done) (hlen2 : 2 ≤ pd.key.length) :
    S3Inv (done ++ [pd]) (step3 st pd) := by
  obtain ⟨hKnotin, hrunK, htake_s, hsum_t, hplen, hsum_top, hext0, hsorted2,
    hlen_le, hpay⟩ := s3new_facts L hsorted hclosed hne done pd rest hL st hinv hKD
  have hdne := hinv.hdone
  have hpdL : pd ∈ L := by
    rw [hL]
    exact List.mem_append_right _ (List.mem_cons_self _ _)
  have hKne : pd.key ≠ [] := hne pd hpdL
  have hDdk := dkOf_getLast hdne
  have hDne : lastKey done ≠ [] := hinv.hkeysne _ (mem_of_getLastEq hDdk)
  have hDlen : 1 ≤ (lastKey done).length := by
    cases h : lastKey done with
    | nil => exact absurd h hDne
    | cons c cs => simp
  have hnodup : (dkOf done).Nodup := List.Pairwise.imp (fun h => h.2) hinv.hsorted
  have hdup_false : ¬(pd.key.getLastD (Char.ofNat 0) = st.prevLetter ∧
      pd.key.length = st.prevLen) := by
    intro h
    exact hKD (dup_key_eq L hsorted hclosed hne done pd rest hL hdne hDne
      (h.1.trans hinv.hprevLetter) (h.2.trans hinv.hprevLen))
  have hs1 : ∃ s1, (if pd.key.length ≤ st.prevLen then
      st.stack.drop (st.prevLen - pd.key.length + 1) else st.stack) = s1 ∧
      s1.length = pd.key.length - 1 ∧
      ∀ t, t < pd.key.length - 1 → s1.getD t 0 < (dkOf done).length ∧
        (dkOf done).getD (s1.getD t 0) [] = pd.key.take (pd.key.length - 1 - t) := by
    by_cases hc : pd.key.length ≤ st.prevLen
    · refine ⟨st.stack.drop (st.prevLen - pd.key.length + 1), if_pos hc, ?_, ?_⟩
      · rw [List.length_drop, hinv.hstacklen]
        rw [hinv.hprevLen] at hc ⊢
        omega
      · intro t ht
        rw [getD_drop]
        have harg : st.prevLen - pd.key.length + 1 + t < st.stack.length := by
          rw [hinv.hstacklen]
          rw [hinv.hprevLen] at hc ⊢
          omega
        rcases hinv.hstack _ harg with ⟨h1, h2⟩
        refine ⟨h1, ?_⟩
        rw [h2]
        have harith : (lastKey done).length - (st.prevLen - pd.key.length + 1 + t)
            = pd.key.length - 1 - t := by
          rw [hinv.hprevLen] at hc
          rw [hinv.hprevLen]
          omega
        rw [harith]
        symm
        exact htake_s _ (by omega)
    · have hlenp : pd.key.length = st.prevLen + 1 := by
        rw [hinv.hprevLen] at hc ⊢
        omega
      refine ⟨st.stack, if_neg hc, ?_, ?_⟩
      · rw [hinv.hstacklen]
        rw [hinv.hprevLen] at hlenp
        omega
      · intro t ht
        have harg : t < st.stack.length := by
          rw [hinv.hstacklen]
          rw [hinv.hprevLen] at hlenp
          omega
        rcases hinv.hstack t harg with ⟨h1, h2⟩
        refine ⟨h1, ?_⟩
        rw [h2]
        have harith : (lastKey done).length - t = pd.key.length - 1 - t := by
          rw [hinv.hprevLen] at hlenp
          omega
        rw [harith]
        symm
        exact htake_s _ (by omega)
  obtain ⟨s1, hs1eq, hs1len, hs1spec⟩ := hs1
  have hs1ne : s1 ≠ [] := by
    intro e
    rw [e] at hs1len
    simp at hs1len
    omega
  have hhead : (if pd.key.length ≤ st.prevLen then
      st.stack.drop (st.prevLen - pd.key.length + 1) else st.stack).head? =
      some (s1.getD 0 0) := by
    rw [hs1eq]
    exact head_eq_getD s1 0 hs1ne
  have hpidx := hs1spec 0 (by omega)
  have hpidx1 : s1.getD 0 0 < (dkOf done).length := hpidx.1
  have hpidxkey : (dkOf done).getD (s1.getD 0 0) [] = pd.key.dropLast := by
    rw [List.dropLast_eq_take, hpidx.2, Nat.sub_zero]
  have hstep := step3_new_parent_eq st pd (s1.getD 0 0) hdup_false hhead
  have hdk : dkOf (done ++ [pd]) = dkOf done ++ [pd.key] := by
    apply dkOf_append_new
    rw [lastKey_spec hdne]
    intro h
    exact hKD (Option.some.inj h).symm
  have hlk : lastKey (done ++ [pd]) = pd.key := lastKey_append done pd
  have hm := hinv.hdlen
  have hget_lt_ne : ∀ i, i < (dkOf done).length → i ≠ s1.getD 0 0 →
      (step3 st pd).datas.getD i defaultBuildData =
        st.datas.getD i defaultBuildData := by
    intro i hi hip
    rw [hstep]
    dsimp only
    rw [List.getD_append _ _ _ _ (by rw [length_listModify, hm]; exact hi)]
    exact getD_listModify_ne _ _ _ _ _ fun e => hip e.symm
  have hget_pidx : (step3 st pd).datas.getD (s1.getD 0 0) defaultBuildData =
      { st.datas.getD (s1.getD 0 0) defaultBuildData with
          numChildren :=
            (st.datas.getD (s1.getD 0 0) defaultBuildData).numChildren + 1 } := by
    rw [hstep]
    dsimp only
    rw [List.getD_append _ _ _ _ (by rw [length_listModify, hm]; exact hpidx1)]
    exact getD_listModify_self _ _ _ _ (by rw [hm]; exact hpidx1)
  have hget_m : (step3 st pd).datas.getD (dkOf done).length defaultBuildData =
      { letter := pd.key.getLastD (Char.ofNat 0),
        payloadStart := st.payloads.length,
        payloadEnd := st.payloads.length + (if pd.payload.isSome then 1 else 0),
        numChildren := 0, parent := some (s1.getD 0 0) } := by
    rw [hstep]
    dsimp only
    rw [List.getD_append_right _ _ _ _
          (by rw [length_listModify]; exact le_of_eq hm),
        length_listModify, hm, Nat.sub_self]
    rfl
  have hdkget_lt : ∀ i, i < (dkOf done).length →
      (dkOf done ++ [pd.key]).getD i [] = (dkOf done).getD i [] := fun i hi =>
    List.getD_append _ _ _ _ hi
  have hdkget_m : (dkOf done ++ [pd.key]).getD (dkOf done).length [] = pd.key := by
    rw [List.getD_append_right _ _ _ _ (le_refl _), Nat.sub_self]
    rfl
  have hdl_ne : ¬ pd.key.dropLast = pd.key := by
    intro e
    have h1 := congrArg List.length e
    rw [List.length_dropLast] at h1
    omega
  refine ⟨by simp, ?_, ?_, ?_, ?_, ?_, ?_, ?_, ?_, ?_, ?_, ?_, ?_, ?_, ?_, ?_⟩
  · rw [hstep, hlk]
  · rw [hstep, hlk]
  · rw [hstep, hdk]
    exact hpay
  · rw [hstep, hdk]
    dsimp only
    simp [length_listModify, hm]
  · intro i hi
    rw [hdk] at hi ⊢
    rw [List.length_append] at hi
    simp only [List.length_singleton] at hi
    by_cases him : i < (dkOf done).length
    · rw [hdkget_lt i him]
      by_cases hip : i = s1.getD 0 0
      · subst hip
        rw [hget_pidx]
        exact hinv.hletter _ him
      · rw [hget_lt_ne i him hip]
        exact hinv.hletter i him
    · have hieq : i = (dkOf done).length := by omega
      subst hieq
      rw [hget_m, hdkget_m]
  · intro i hi
    rw [hdk] at hi ⊢
    rw [List.length_append] at hi
    simp only [List.length_singleton] at hi
    by_cases him : i < (dkOf done).length
    · rw [hsum_t i (by omega)]
      by_cases hip : i = s1.getD 0 0
      · subst hip
        rw [hget_pidx]
        exact hinv.hstart _ him
      · rw [hget_lt_ne i him hip]
        exact hinv.hstart i him
    · have hieq : i = (dkOf done).length := by omega
      subst hieq
      rw [hget_m, hsum_t _ (le_refl _)]
      exact hplen
  · intro i hi
    rw [hdk] at hi ⊢
    rw [List.length_append] at hi
    simp only [List.length_singleton] at hi
    by_cases him : i < (dkOf done).length
    · rw [hsum_t (i + 1) (by omega)]
      by_cases hip : i = s1.getD 0 0
      · subst hip
        rw [hget_pidx]
        exact hinv.hpend _ him
      · rw [hget_lt_ne i him hip]
        exact hinv.hpend i him
    · have hieq : i = (dkOf done).length := by omega
      subst hieq
      rw [hget_m, hsum_top]
      cases hp : pd.payload <;> simp [hp]
  · intro i hi
    rw [hdk] at hi ⊢
    rw [List.length_append] at hi
    simp only [List.length_singleton] at hi
    by_cases him : i < (dkOf done).length
    · rw [hdkget_lt i him, List.countP_append, List.countP_singleton]
      by_cases hip : i = s1.getD 0 0
      · subst hip
        rw [if_pos (by simpa using hpidxkey.symm), hget_pidx]
        dsimp only
        rw [hinv.hchild _ him]
      · have hne2 : ¬ pd.key.dropLast = (dkOf done).getD i [] := by
          intro e
          apply hip
          exact nodup_getD_inj hnodup him hpidx1 (by rw [hpidxkey, ← e])
        rw [if_neg (by simpa using hne2), Nat.add_zero, hget_lt_ne i him hip]
        exact hinv.hchild i him
    · have hieq : i = (dkOf done).length := by omega
      subst hieq
      rw [hdkget_m, List.countP_append, List.countP_singleton,
          if_neg (by simpa using hdl_ne), Nat.add_zero, hext0]
      rw [hget_m]
  · intro i hi h1
    rw [hdk] at hi h1
    rw [List.length_append] at hi
    simp only [List.length_singleton] at hi
    by_cases him : i < (dkOf done).length
    · rw [hdkget_lt i him] at h1
      by_cases hip : i = s1.getD 0 0
      · subst hip
        rw [hget_pidx]
        exact hinv.hpar1 _ him h1
      · rw [hget_lt_ne i him hip]
        exact hinv.hpar1 i him h1
    · have hieq : i = (dkOf done).length := by omega
      subst hieq
      rw [hdkget_m] at h1
      omega
  · intro i hi h2
    rw [hdk] at hi h2 ⊢
    rw [List.length_append] at hi
    simp only [List.length_singleton] at hi
    by_cases him : i < (dkOf done).length
    · rw [hdkget_lt i him] at h2
      rcases hinv.hpar2 i him h2 with ⟨j, hj1, hj2, hj3⟩
      refine ⟨j, hj1, ?_, ?_⟩
      · rw [hdkget_lt j (by omega), hdkget_lt i him]
        exact hj2
      · by_cases hip : i = s1.getD 0 0
        · subst hip
          rw [hget_pidx]
          exact hj3
        · rw [hget_lt_ne i him hip]
          exact hj3
    · have hieq : i = (dkOf done).length := by omega
      subst hieq
      refine ⟨s1.getD 0 0, hpidx1, ?_, ?_⟩
      · rw [hdkget_lt _ hpidx1, hdkget_m, hpidxkey]
      · rw [hget_m]
  · rw [hstep, hdk]
    show st.numSingleLetter = _
    rw [List.countP_append, List.countP_singleton,
        if_neg (by simp; omega), Nat.add_zero]
    exact hinv.hsingle
  · rw [hstep, hs1eq, hlk]
    show s1.length + 1 = pd.key.length
    rw [hs1len]
    omega
  · intro t ht
    rw [hstep, hs1eq] at ht
    rw [hstep, hs1eq, hdk, hlk]
    simp only [List.length_cons] at ht
    cases t with
    | zero =>
      constructor
      · show st.datas.length < (dkOf done ++ [pd.key]).length
        rw [hm]
        simp
      · show (dkOf done ++ [pd.key]).getD st.datas.length [] =
          pd.key.take (pd.key.length - 0)
        rw [hm, hdkget_m, Nat.sub_zero, List.take_length]
    | succ t =>
      have ht2 : t < pd.key.length - 1 := by
        rw [hs1len] at ht
        omega
      rcases hs1spec t ht2 with ⟨h1, h2⟩
      constructor
      · show s1.getD t 0 < (dkOf done ++ [pd.key]).length
        rw [List.length_append]
        simp only [List.length_singleton]
        omega
      · show (dkOf done ++ [pd.key]).getD (s1.getD t 0) [] =
          pd.key.take (pd.key.length - (t + 1))
        rw [hdkget_lt _ h1, h2,
            show pd.key.length - 1 - t = pd.key.length - (t + 1) by omega]
  · rw [hdk]
    exact hsorted2
  · rw [hdk]
    intro x hx
    rcases List.mem_append.mp hx with hx | hx
    · exact hinv.hkeysne x hx
    · rcases List.mem_singleton.mp hx with rfl
      exact hKne

/-- Step-3 invariant establishment on the first element of the sorted
prefix-closed list. -/
theorem s3inv_first (L : List PreData)
    (hsorted : List.Pairwise (fun a b : PreData => lexLe a.key b.key = true) L)
    (hclosed : ∀ pd ∈ L, ∀ j, 1 ≤ j → j ≤ pd.key.length →
      ∃ pd2 ∈ L, pd2.key = pd.key.take j)
    (hne : ∀ pd ∈ L, pd.key ≠ [])
    (pd : PreData) (rest : List PreData) (hL : L = pd :: rest) :
    S3Inv [pd] (step3 initStep3 pd) := by
  have hlen1 := first_key_len1 L hsorted hclosed hne pd rest hL
  have hKne : pd.key ≠ [] := hne pd (by rw [hL]; exact List.mem_cons_self _ _)
  have hdup_false : ¬(pd.key.getLastD (Char.ofNat 0) = initStep3.prevLetter ∧
      pd.key.length = initStep3.prevLen) := by
    intro h
    have h2 := h.2
    rw [hlen1] at h2
    exact absurd h2 (by simp [initStep3])
  have hhead : (if pd.key.length ≤ initStep3.prevLen then
      initStep3.stack.drop (initStep3.prevLen - pd.key.length + 1)
      else initStep3.stack).head? = none := by
    rw [if_neg]
    · rfl
    · show ¬ pd.key.length ≤ initStep3.prevLen
      rw [hlen1]
      simp [initStep3]
  have hstep := step3_new_root_eq initStep3 pd hdup_false hhead
  have hdk : dkOf [pd] = [pd.key] := by
    simp [dkOf, keysOf, cdedup, snocDedup]
  have hlk : lastKey [pd] = pd.key := rfl
  have hrun : runPayloads [pd] pd.key = pd.payload.toList := by
    simp [runPayloads]
  have hdl_nil : pd.key.dropLast = [] := by
    rw [List.dropLast_eq_take, hlen1]
    rfl
  have hget0 : (step3 initStep3 pd).datas.getD 0 defaultBuildData =
      { letter := pd.key.getLastD (Char.ofNat 0), payloadStart := 0,
        payloadEnd := 0 + (if pd.payload.isSome then 1 else 0),
        numChildren := 0, parent := none } := by
    rw [hstep]
    rfl
  refine ⟨by simp, ?_, ?_, ?_, ?_, ?_, ?_, ?_, ?_, ?_, ?_, ?_, ?_, ?_, ?_, ?_⟩
  · rw [hstep, hlk]
  · rw [hstep, hlk]
  · rw [hstep, hdk]
    show initStep3.payloads ++ pd.payload.toList = _
    rw [List.flatMap_cons, List.flatMap_nil, hrun, List.append_nil]
    rfl
  · rw [hstep, hdk]
    rfl
  · intro i hi
    rw [hdk] at hi ⊢
    simp only [List.length_singleton] at hi
    have hi0 : i = 0 := by omega
    subst hi0
    rw [hget0]
    rfl
  · intro i hi
    rw [hdk] at hi ⊢
    simp only [List.length_singleton] at hi
    have hi0 : i = 0 := by omega
    subst hi0
    rw [hget0]
    rfl
  · intro i hi
    rw [hdk] at hi ⊢
    simp only [List.length_singleton] at hi
    have hi0 : i = 0 := by omega
    subst hi0
    rw [hget0]
    show 0 + (if pd.payload.isSome then 1 else 0) = runSum [pd] [pd.key] 1
    unfold runSum
    rw [show ([pd.key] : List (List Char)).take 1 = [pd.key] by rfl]
    rw [List.map_cons, List.map_nil, List.sum_cons, List.sum_nil, hrun]
    cases hp : pd.payload <;> simp [hp]
  · intro i hi
    rw [hdk] at hi ⊢
    simp only [List.length_singleton] at hi
    have hi0 : i = 0 := by omega
    subst hi0
    rw [hget0]
    show 0 = _
    rw [List.countP_singleton, if_neg]
    simp only [decide_eq_true_eq]
    rw [hdl_nil]
    show ¬ ([] : List Char) = [pd.key].getD 0 []
    intro e
    exact hKne e.symm
  · intro i hi h1
    rw [hdk] at hi
    simp only [List.length_singleton] at hi
    have hi0 : i = 0 := by omega
    subst hi0
    rw [hget0]
  · intro i hi h2
    rw [hdk] at hi h2
    simp only [List.length_singleton] at hi
    have hi0 : i = 0 := by omega
    subst hi0
    have : ([pd.key].getD 0 []).length = 1 := by
      show pd.key.length = 1
      exact hlen1
    omega
  · rw [hstep, hdk]
    show initStep3.numSingleLetter + 1 = _
    rw [List.countP_singleton, if_pos (by simp [hlen1])]
    rfl
  · rw [hstep, hlk, hlen1]
    rfl
  · intro t ht
    rw [hstep] at ht
    simp only [List.length_cons] at ht
    have hstack_nil : (if pd.key.length ≤ initStep3.prevLen then
        initStep3.stack.drop (initStep3.prevLen - pd.key.length + 1)
        else initStep3.stack) = [] := by
      rw [if_neg]
      · rfl
      · show ¬ pd.key.length ≤ initStep3.prevLen
        rw [hlen1]
        simp [initStep3]
    rw [hstack_nil] at ht
    simp only [List.length_nil] at ht
    have ht0 : t = 0 := by omega
    subst ht0
    rw [hstep, hstack_nil, hdk, hlk]
    constructor
    · show initStep3.datas.length < [pd.key].length
      simp [initStep3]
    · show [pd.key].getD initStep3.datas.length [] = pd.key.take (pd.key.length - 0)
      rw [Nat.sub_zero, List.take_length]
      rfl
  · rw [hdk]
    exact List.pairwise_singleton _ _
  · rw [hdk]
    intro x hx
    rcases List.mem_singleton.mp hx with rfl
    exact hKne

theorem s3inv_preserve (L : List PreData)
    (hsorted : List.Pairwise (fun a b : PreData => lexLe a.key b.key = true) L)
    (hclosed : ∀ pd ∈ L, ∀ j, 1 ≤ j → j ≤ pd.key.length →
      ∃ pd2 ∈ L, pd2.key = pd.key.take j)
    (hne : ∀ pd ∈ L, pd.key ≠ [])
    (done : List PreData) (pd : PreData) (rest : List PreData)
    (hL : L = done ++ pd :: rest)
    (st : Step3State) (hinv : S3Inv done st) :
    S3Inv (done ++ [pd]) (step3 st pd) := by
  by_cases hKD : pd.key = lastKey done
  · exact s3inv_dup done pd st hinv hKD
  · have hKne : pd.key ≠ [] := hne pd (by
      rw [hL]
      exact List.mem_append_right _ (List.mem_cons_self _ _))
    have hKlen : 1 ≤ pd.key.length := by
      cases hk : pd.key with
      | nil => exact absurd hk hKne
      | cons c cs => simp
    rcases Nat.lt_or_ge pd.key.length 2 with h | h
    · exact s3inv_new_root L hsorted hclosed hne done pd rest hL st hinv hKD
        (by omega)
    · exact s3inv_new_parent L hsorted hclosed hne done pd rest hL st hinv hKD h

theorem s3inv_fold (L : List PreData)
    (hsorted : List.Pairwise (fun a b : PreData => lexLe a.key b.key = true) L)
    (hclosed : ∀ pd ∈ L, ∀ j, 1 ≤ j → j ≤ pd.key.length →
      ∃ pd2 ∈ L, pd2.key = pd.key.take j)
    (hne : ∀ pd ∈ L, pd.key ≠ []) :
    ∀ (todo done : List PreData) (st : Step3State), L = done ++ todo →
    (done = [] ∧ st = initStep3 ∨ S3Inv done st) →
    (done ++ todo = [] ∧ todo.foldl step3 st = initStep3) ∨
      S3Inv (done ++ todo) (todo.foldl step3 st) := by
  intro todo
  induction todo with
  | nil =>
    intro done st hL h
    rw [List.append_nil]
    rcases h with ⟨h1, h2⟩ | h2
    · exact Or.inl ⟨h1, by rw [h2]; rfl⟩
    · exact Or.inr h2
  | cons pd rest ih =>
    intro done st hL h
    have hL2 : L = (done ++ [pd]) ++ rest := by rw [hL]; simp
    have hinv2 : S3Inv (done ++ [pd]) (step3 st pd) := by
      rcases h with ⟨h1, h2⟩ | h2
      · subst h1
        subst h2
        simpa using s3inv_first L hsorted hclosed hne pd rest (by simpa using hL)
      · exact s3inv_preserve L hsorted hclosed hne done pd rest hL st h2
    have hres := ih (done ++ [pd]) (step3 st pd) hL2 (Or.inr hinv2)
    rw [show done ++ pd :: rest = (done ++ [pd]) ++ rest by simp]
    exact hres

/-- The step-3 invariant holds of the full fold over the sorted
prefix-closed pre-data list. -/
theorem s3inv_result (L : List PreData) (hLne : L ≠ [])
    (hsorted : List.Pairwise (fun a b : PreData => lexLe a.key b.key = true) L)
    (hclosed : ∀ pd ∈ L, ∀ j, 1 ≤ j → j ≤ pd.key.length →
      ∃ pd2 ∈ L, pd2.key = pd.key.take j)
    (hne : ∀ pd ∈ L, pd.key ≠ []) :
    S3Inv L (L.foldl step3 initStep3) := by
  rcases s3inv_fold L hsorted hclosed hne L [] initStep3 rfl (Or.inl ⟨rfl, rfl⟩)
    with ⟨h1, _⟩ | h2
  · exact absurd (by simpa using h1) hLne
  · simpa using h2

/-- Closed form of step 4's child-block starts: block `j` begins after the
single-letter area and all blocks reserved before it. -/
def cpOf (datas : List BuildData) (nS j : Nat) : Nat :=
  nS + 1 + ((List.range j).map fun q => (datas.getD q defaultBuildData).numChildren).sum

/-- Number of parentless datas before index `j`. -/
def rankNone (datas : List BuildData) (j : Nat) : Nat :=
  (List.range j).countP fun q => decide ((datas.getD q defaultBuildData).parent = none)

/-- Number of children of `p` before index `j`. -/
def rankChild (datas : List BuildData) (p j : Nat) : Nat :=
  (List.range j).countP fun q => decide ((datas.getD q defaultBuildData).parent = some p)

theorem cpOf_succ (datas : List BuildData) (nS j : Nat) :
    cpOf datas nS (j + 1) = cpOf datas nS j +
      (datas.getD j defaultBuildData).numChildren := by
  unfold cpOf
  rw [List.range_succ, List.map_append, List.sum_append]
  simp [Nat.add_assoc]

theorem rankNone_succ (datas : List BuildData) (j : Nat) :
    rankNone datas (j + 1) = rankNone datas j +
      (if (datas.getD j defaultBuildData).parent = none then 1 else 0) := by
  unfold rankNone
  rw [List.range_succ, List.countP_append, List.countP_singleton]
  by_cases h : (datas.getD j defaultBuildData).parent = none <;> simp [h]

theorem rankChild_succ (datas : List BuildData) (p j : Nat) :
    rankChild datas p (j + 1) = rankChild datas p j +
      (if (datas.getD j defaultBuildData).parent = some p then 1 else 0) := by
  unfold rankChild
  rw [List.range_succ, List.countP_append, List.countP_singleton]
  by_cases h : (datas.getD j defaultBuildData).parent = some p <;> simp [h]

theorem getD_set_self {α : Type} (l : List α) (i : Nat) (a d : α) (h : i < l.length) :
    (l.set i a).getD i d = a := by
  rw [List.getD_eq_getElem _ _ (by simpa using h)]
  simp [List.getElem_set]

theorem getD_set_ne {α : Type} (l : List α) (i j : Nat) (a d : α) (h : i ≠ j) :
    (l.set i a).getD j d = l.getD j d := by
  simp [List.getD, List.getElem?_set_ne h]

theorem getD_replicate0 (n j : Nat) : (List.replicate n (0 : Nat)).getD j 0 = 0 := by
  rcases Nat.lt_or_ge j n with h | h
  · rw [List.getD_eq_getElem _ _ (by simpa using h)]
    simp
  · rw [List.getD_eq_default _ _ (by simpa using h)]

theorem step4_parent_eq (datas : List BuildData) (st : Step4State) (i p : Nat)
    (hd : (datas.getD i defaultBuildData).parent = some p) :
    step4 datas st i =
      { heapPos := st.heapPos.set i (st.nextChildPos.getD p 0),
        childrenPos := st.childrenPos.set i st.nextFree,
        nextChildPos :=
          (st.nextChildPos.set p (st.nextChildPos.getD p 0 + 1)).set i st.nextFree,
        nextFree := st.nextFree + (datas.getD i defaultBuildData).numChildren,
        nextOne := st.nextOne } := by
  simp only [step4, hd]

theorem step4_root_eq (datas : List BuildData) (st : Step4State) (i : Nat)
    (hd : (datas.getD i defaultBuildData).parent = none) :
    step4 datas st i =
      { heapPos := st.heapPos.set i st.nextOne,
        childrenPos := st.childrenPos.set i st.nextFree,
        nextChildPos := st.nextChildPos.set i st.nextFree,
        nextFree := st.nextFree + (datas.getD i defaultBuildData).numChildren,
        nextOne := st.nextOne + 1 } := by
  simp only [step4, hd]

/-- The step-4 fold invariant after assigning positions to the datas before
index `i`. -/
structure S4Inv (datas : List BuildData) (nS i : Nat) (st : Step4State) : Prop where
  hlen1 : st.heapPos.length = datas.length
  hlen2 : st.childrenPos.length = datas.length
  hlen3 : st.nextChildPos.length = datas.length
  hfree : st.nextFree = cpOf datas nS i
  hone : st.nextOne = 1 + rankNone datas i
  hcp : ∀ j, j < i → st.childrenPos.getD j 0 = cpOf datas nS j
  hhpn : ∀ j, j < i → (datas.getD j defaultBuildData).parent = none →
    st.heapPos.getD j 0 = 1 + rankNone datas j
  hhps : ∀ j p, j < i → (datas.getD j defaultBuildData).parent = some p →
    st.heapPos.getD j 0 = cpOf datas nS p + rankChild datas p j
  hncp : ∀ j, j < datas.length →
    st.nextChildPos.getD j 0 =
      if j < i then cpOf datas nS j + rankChild datas j i else 0

theorem s4inv_init (datas : List BuildData) (nS : Nat) :
    S4Inv datas nS 0 (initStep4 datas.length nS) := by
  refine ⟨?_, ?_, ?_, ?_, ?_, ?_, ?_, ?_, ?_⟩
  · simp [initStep4]
  · simp [initStep4]
  · simp [initStep4]
  · simp [initStep4, cpOf]
  · simp [initStep4, rankNone]
  · intro j hj
    omega
  · intro j hj
    omega
  · intro j p hj
    omega
  · intro j hj
    show (List.replicate datas.length 0).getD j 0 = _
    rw [getD_replicate0, if_neg (by omega)]

theorem s4inv_step (datas : List BuildData) (nS i : Nat)
    (hpar : ∀ q p, (datas.getD q defaultBuildData).parent = some p → p < q)
    (hi : i < datas.length)
    (st : Step4State) (hinv : S4Inv datas nS i st) :
    S4Inv datas nS (i + 1) (step4 datas st i) := by
  have hrcii : rankChild datas i i = 0 := by
    unfold rankChild
    rw [List.countP_eq_zero]
    intro q hq
    simp only [List.mem_range] at hq
    simp only [decide_eq_true_eq]
    intro he
    have := hpar q i he
    omega
  cases hd : (datas.getD i defaultBuildData).parent with
  | none =>
    have hstep := step4_root_eq datas st i hd
    have hrc : ∀ j, rankChild datas j (i + 1) = rankChild datas j i := by
      intro j
      rw [rankChild_succ, hd]
      simp
    refine ⟨?_, ?_, ?_, ?_, ?_, ?_, ?_, ?_, ?_⟩
    · rw [hstep]
      dsimp only
      rw [List.length_set]
      exact hinv.hlen1
    · rw [hstep]
      dsimp only
      rw [List.length_set]
      exact hinv.hlen2
    · rw [hstep]
      dsimp only
      rw [List.length_set]
      exact hinv.hlen3
    · rw [hstep]
      show st.nextFree + _ = _
      rw [hinv.hfree, cpOf_succ]
    · rw [hstep]
      show st.nextOne + 1 = _
      rw [hinv.hone, rankNone_succ, hd, if_pos rfl]
      omega
    · intro j hj
      rw [hstep]
      show (st.childrenPos.set i st.nextFree).getD j 0 = _
      by_cases hji : j = i
      · subst hji
        rw [getD_set_self _ _ _ _ (by rw [hinv.hlen2]; exact hi), hinv.hfree]
      · rw [getD_set_ne _ _ _ _ _ fun e => hji e.symm]
        exact hinv.hcp j (by omega)
    · intro j hj hdj
      rw [hstep]
      show (st.heapPos.set i st.nextOne).getD j 0 = _
      by_cases hji : j = i
      · subst hji
        rw [getD_set_self _ _ _ _ (by rw [hinv.hlen1]; exact hi), hinv.hone]
      · rw [getD_set_ne _ _ _ _ _ fun e => hji e.symm]
        exact hinv.hhpn j (by omega) hdj
    · intro j p hj hdj
      rw [hstep]
      show (st.heapPos.set i st.nextOne).getD j 0 = _
      by_cases hji : j = i
      · subst hji
        rw [hd] at hdj
        cases hdj
      · rw [getD_set_ne _ _ _ _ _ fun e => hji e.symm]
        exact hinv.hhps j p (by omega) hdj
    · intro j hj
      rw [hstep]
      show (st.nextChildPos.set i st.nextFree).getD j 0 = _
      by_cases hji : j = i
      · subst hji
        rw [getD_set_self _ _ _ _ (by rw [hinv.hlen3]; exact hi), hinv.hfree,
            if_pos (by omega), hrc, hrcii]
        omega
      · rw [getD_set_ne _ _ _ _ _ fun e => hji e.symm, hinv.hncp j hj]
        by_cases hlt : j < i
        · rw [if_pos hlt, if_pos (by omega), hrc]
        · rw [if_neg hlt, if_neg (by omega)]
  | some p =>
    have hstep := step4_parent_eq datas st i p hd
    have hpi : p < i := hpar i p hd
    have hrc_other : ∀ j, j ≠ p → rankChild datas j (i + 1) = rankChild datas j i := by
      intro j hj
      rw [rankChild_succ, hd, if_neg, Nat.add_zero]
      intro he
      exact hj (Option.some.inj he).symm
    have hrc_p : rankChild datas p (i + 1) = rankChild datas p i + 1 := by
      rw [rankChild_succ, hd, if_pos rfl]
    have hncp_p : st.nextChildPos.getD p 0 = cpOf datas nS p + rankChild datas p i := by
      rw [hinv.hncp p (by omega), if_pos hpi]
    refine ⟨?_, ?_, ?_, ?_, ?_, ?_, ?_, ?_, ?_⟩
    · rw [hstep]
      dsimp only
      rw [List.length_set]
      exact hinv.hlen1
    · rw [hstep]
      dsimp only
      rw [List.length_set]
      exact hinv.hlen2
    · rw [hstep]
      dsimp only
      rw [List.length_set, List.length_set]
      exact hinv.hlen3
    · rw [hstep]
      show st.nextFree + _ = _
      rw [hinv.hfree, cpOf_succ]
    · rw [hstep]
      show st.nextOne = _
      rw [hinv.hone, rankNone_succ, hd]
      simp
    · intro j hj
      rw [hstep]
      show (st.childrenPos.set i st.nextFree).getD j 0 = _
      by_cases hji : j = i
      · subst hji
        rw [getD_set_self _ _ _ _ (by rw [hinv.hlen2]; exact hi), hinv.hfree]
      · rw [getD_set_ne _ _ _ _ _ fun e => hji e.symm]
        exact hinv.hcp j (by omega)
    · intro j hj hdj
      rw [hstep]
      show (st.heapPos.set i (st.nextChildPos.getD p 0)).getD j 0 = _
      by_cases hji : j = i
      · subst hji
        rw [hd] at hdj
        cases hdj
      · rw [getD_set_ne _ _ _ _ _ fun e => hji e.symm]
        exact hinv.hhpn j (by omega) hdj
    · intro j p2 hj hdj
      rw [hstep]
      show (st.heapPos.set i (st.nextChildPos.getD p 0)).getD j 0 = _
      by_cases hji : j = i
      · subst hji
        rw [hd] at hdj
        rcases Option.some.inj hdj with rfl
        rw [getD_set_self _ _ _ _ (by rw [hinv.hlen1]; exact hi), hncp_p]
      · rw [getD_set_ne _ _ _ _ _ fun e => hji e.symm]
        exact hinv.hhps j p2 (by omega) hdj
    · intro j hj
      rw [hstep]
      show ((st.nextChildPos.set p (st.nextChildPos.getD p 0 + 1)).set i
          st.nextFree).getD j 0 = _
      by_cases hji : j = i
      · subst hji
        rw [getD_set_self _ _ _ _
              (by rw [List.length_set, hinv.hlen3]; exact hi),
            hinv.hfree, if_pos (by omega), hrc_other _ (by omega), hrcii]
        omega
      · rw [getD_set_ne _ _ _ _ _ fun e => hji e.symm]
        by_cases hjp : j = p
        · subst hjp
          rw [getD_set_self _ _ _ _ (by rw [hinv.hlen3]; omega), hncp_p,
              if_pos (by omega), hrc_p]
          omega
        · rw [getD_set_ne _ _ _ _ _ fun e => hjp e.symm, hinv.hncp j hj]
          by_cases hlt : j < i
          · rw [if_pos hlt, if_pos (by omega), hrc_other j hjp]
          · rw [if_neg hlt, if_neg (by omega)]

theorem s4inv_fold (datas : List BuildData) (nS : Nat)
    (hpar : ∀ q p, (datas.getD q defaultBuildData).parent = some p → p < q) :
    ∀ i, i ≤ datas.length →
      S4Inv datas nS i
        ((List.range i).foldl (step4 datas) (initStep4 datas.length nS)) := by
  intro i
  induction i with
  | zero =>
    intro _
    exact s4inv_init datas nS
  | succ i ih =>
    intro h
    rw [List.range_succ, List.foldl_append]
    simp only [List.foldl_cons, List.foldl_nil]
    exact s4inv_step datas nS i hpar (by omega) _ (ih (by omega))

theorem rankNone_mono (datas : List BuildData) (j : Nat) : ∀ t, j ≤ t →
    rankNone datas j ≤ rankNone datas t := by
  intro t
  induction t with
  | zero =>
    intro h
    have hj : j = 0 := by omega
    subst hj
    exact le_refl _
  | succ t ih =>
    intro h
    rcases Nat.lt_or_ge j (t + 1) with h2 | h2
    · have h3 := ih (by omega)
      rw [rankNone_succ]
      split_ifs <;> omega
    · have hj : j = t + 1 := by omega
      subst hj
      exact le_refl _

theorem rankChild_mono (datas : List BuildData) (p j : Nat) : ∀ t, j ≤ t →
    rankChild datas p j ≤ rankChild datas p t := by
  intro t
  induction t with
  | zero =>
    intro h
    have hj : j = 0 := by omega
    subst hj
    exact le_refl _
  | succ t ih =>
    intro h
    rcases Nat.lt_or_ge j (t + 1) with h2 | h2
    · have h3 := ih (by omega)
      rw [rankChild_succ]
      split_ifs <;> omega
    · have hj : j = t + 1 := by omega
      subst hj
      exact le_refl _

theorem cpOf_mono (datas : List BuildData) (nS j : Nat) : ∀ t, j ≤ t →
    cpOf datas nS j ≤ cpOf datas nS t := by
  intro t
  induction t with
  | zero =>
    intro h
    have hj : j = 0 := by omega
    subst hj
    exact le_refl _
  | succ t ih =>
    intro h
    rcases Nat.lt_or_ge j (t + 1) with h2 | h2
    · have h3 := ih (by omega)
      rw [cpOf_succ]
      omega
    · have hj : j = t + 1 := by omega
      subst hj
      exact le_refl _

theorem sum_ite_range (p0 : Nat) : ∀ m, p0 < m →
    ((List.range m).map fun i => if p0 = i then 1 else 0).sum = 1 := by
  intro m
  induction m with
  | zero => omega
  | succ m ih =>
    intro h
    rw [List.range_succ, List.map_append, List.sum_append]
    by_cases hp : p0 = m
    · have hz : ((List.range m).map fun i => if p0 = i then 1 else 0).sum = 0 := by
        apply List.sum_eq_zero
        intro x hx
        rcases List.mem_map.mp hx with ⟨i, hi, rfl⟩
        rw [List.mem_range] at hi
        rw [if_neg (by omega)]
      rw [hz]
      simp [hp]
    · rw [ih (by omega)]
      simp [hp]

theorem sum_count_some (f : Nat → Option Nat) (m : Nat) :
    ∀ (l : List Nat), (∀ q ∈ l, ∀ p, f q = some p → p < m) →
    ((List.range m).map fun p => l.countP fun q => decide (f q = some p)).sum
      = l.countP fun q => decide (f q ≠ none) := by
  intro l
  induction l with
  | nil =>
    intro _
    rw [List.countP_nil]
    apply List.sum_eq_zero
    intro x hx
    rcases List.mem_map.mp hx with ⟨i, _, rfl⟩
    rfl
  | cons q t ih =>
    intro hf
    have h1 : ((List.range m).map fun p =>
        (q :: t).countP fun q2 => decide (f q2 = some p)) =
        (List.range m).map fun p =>
          (t.countP fun q2 => decide (f q2 = some p)) +
            (if f q = some p then 1 else 0) := by
      apply List.map_congr_left
      intro p _
      rw [List.countP_cons]
      congr 1
      by_cases h : f q = some p <;> simp [h]
    rw [h1, List.sum_map_add, ih fun q2 hq2 => hf q2 (List.mem_cons_of_mem _ hq2),
        List.countP_cons]
    congr 1
    cases hfq : f q with
    | none =>
      have hz : ((List.range m).map fun p =>
          if (none : Option Nat) = some p then 1 else 0).sum = 0 := by
        apply List.sum_eq_zero
        intro x hx
        rcases List.mem_map.mp hx with ⟨i, _, rfl⟩
        rw [if_neg (by intro h; cases h)]
      rw [hz]
      simp
    | some p0 =>
      have hp0 : p0 < m := hf q (List.mem_cons_self _ _) p0 hfq
      have he : ((List.range m).map fun p =>
          if some p0 = some p then 1 else 0) =
          (List.range m).map fun p => if p0 = p then 1 else 0 := by
        apply List.map_congr_left
        intro p _
        by_cases h : p0 = p
        · rw [if_pos h, if_pos (by rw [h])]
        · rw [if_neg h, if_neg (by intro e; exact h (Option.some.inj e))]
      rw [he, sum_ite_range p0 m hp0]
      simp

theorem countP_not_eq {α : Type} (p : α → Bool) : ∀ l : List α,
    l.countP p + l.countP (fun a => ! p a) = l.length := by
  intro l
  induction l with
  | nil => rfl
  | cons a t ih =>
    rw [List.countP_cons, List.countP_cons]
    cases h : p a <;> simp [h] <;> omega

/-- With child counts matching the parent pointers, the child blocks exactly
fill the positions after the single-letter area: `cpOf m = m + 1`. -/
theorem cpOf_top (datas : List BuildData) (nS : Nat)
    (hpar : ∀ q p, (datas.getD q defaultBuildData).parent = some p → p < q)
    (hcnt : ∀ p, p < datas.length →
      (datas.getD p defaultBuildData).numChildren = rankChild datas p datas.length)
    (hnS : nS = rankNone datas datas.length) :
    cpOf datas nS datas.length = datas.length + 1 := by
  unfold cpOf
  have h1 : ((List.range datas.length).map fun q =>
      (datas.getD q defaultBuildData).numChildren).sum =
      ((List.range datas.length).map fun p =>
        rankChild datas p datas.length).sum := by
    congr 1
    apply List.map_congr_left
    intro q hq
    rw [List.mem_range] at hq
    exact hcnt q hq
  have h2 := sum_count_some (fun q => (datas.getD q defaultBuildData).parent)
    datas.length (List.range datas.length) (by
      intro q hq p hp
      rw [List.mem_range] at hq
      have := hpar q p hp
      omega)
  have h3 : ((List.range datas.length).countP fun q =>
        decide ((datas.getD q defaultBuildData).parent ≠ none)) +
      rankNone datas datas.length = datas.length := by
    have h4 := countP_not_eq (fun q =>
      decide ((datas.getD q defaultBuildData).parent ≠ none)) (List.range datas.length)
    rw [List.length_range] at h4
    have h6 : rankNone datas datas.length = (List.range datas.length).countP
        fun a => ! decide ((datas.getD a defaultBuildData).parent ≠ none) := by
      unfold rankNone
      apply List.countP_congr
      intro q _
      cases hp : (datas.getD q defaultBuildData).parent <;> simp [hp]
    omega
  rw [h1]
  simp only [] at h2
  unfold rankChild
  rw [h2]
  omega

/-- Bounds on the final heap positions: parentless datas land in
`[1, nS]`, children in their parent's block `[cpOf p, cpOf (p+1))`, and all
positions are in `[1, m]`. -/
theorem hp_bounds (datas : List BuildData) (nS : Nat) (s4f : Step4State)
    (hinv : S4Inv datas nS datas.length s4f)
    (hpar : ∀ q p, (datas.getD q defaultBuildData).parent = some p → p < q)
    (hcnt : ∀ p, p < datas.length →
      (datas.getD p defaultBuildData).numChildren = rankChild datas p datas.length)
    (hnS : nS = rankNone datas datas.length) :
    ∀ j, j < datas.length → 1 ≤ s4f.heapPos.getD j 0 ∧
      s4f.heapPos.getD j 0 ≤ datas.length ∧
      ((datas.getD j defaultBuildData).parent = none →
        s4f.heapPos.getD j 0 ≤ nS) ∧
      (∀ p, (datas.getD j defaultBuildData).parent = some p →
        cpOf datas nS p ≤ s4f.heapPos.getD j 0 ∧
          s4f.heapPos.getD j 0 < cpOf datas nS (p + 1)) := by
  intro j hj
  have htop := cpOf_top datas nS hpar hcnt hnS
  have hnSm : nS ≤ datas.length := by
    rw [hnS]
    unfold rankNone
    calc (List.range datas.length).countP _ ≤ (List.range datas.length).length :=
          List.countP_le_length _
      _ = datas.length := List.length_range _
  cases hd : (datas.getD j defaultBuildData).parent with
  | none =>
    have hhp := hinv.hhpn j hj hd
    have h1 : rankNone datas (j + 1) = rankNone datas j + 1 := by
      rw [rankNone_succ, hd, if_pos rfl]
    have h2 := rankNone_mono datas (j + 1) datas.length (by omega)
    refine ⟨by omega, by omega, fun _ => by omega, ?_⟩
    intro p hp
    cases hp
  | some p =>
    have hhp := hinv.hhps j p hj hd
    have hpj : p < j := hpar j p hd
    have h1 : rankChild datas p (j + 1) = rankChild datas p j + 1 := by
      rw [rankChild_succ, hd, if_pos rfl]
    have h2 := rankChild_mono datas p (j + 1) datas.length (by omega)
    have h3 : rankChild datas p datas.length =
        (datas.getD p defaultBuildData).numChildren := (hcnt p (by omega)).symm
    have h4 : cpOf datas nS (p + 1) =
        cpOf datas nS p + (datas.getD p defaultBuildData).numChildren :=
      cpOf_succ datas nS p
    have h5 := cpOf_mono datas nS (p + 1) datas.length (by omega)
    have h6 : nS + 1 ≤ cpOf datas nS p := by
      unfold cpOf
      omega
    refine ⟨by omega, by omega, ?_, ?_⟩
    · intro he
      cases he
    · intro p2 hp2
      rcases Option.some.inj hp2 with rfl
      omega

/-- The final heap positions are injective. -/
theorem hp_inj (datas : List BuildData) (nS : Nat) (s4f : Step4State)
    (hinv : S4Inv datas nS datas.length s4f)
    (hpar : ∀ q p, (datas.getD q defaultBuildData).parent = some p → p < q)
    (hcnt : ∀ p, p < datas.length →
      (datas.getD p defaultBuildData).numChildren = rankChild datas p datas.length)
    (hnS : nS = rankNone datas datas.length) :
    ∀ j1 j2, j1 < datas.length → j2 < datas.length →
      s4f.heapPos.getD j1 0 = s4f.heapPos.getD j2 0 → j1 = j2 := by
  have key : ∀ j1 j2, j1 < j2 → j2 < datas.length →
      s4f.heapPos.getD j1 0 ≠ s4f.heapPos.getD j2 0 := by
    intro j1 j2 hlt hj2
    have hj1 : j1 < datas.length := by omega
    have hb1 := hp_bounds datas nS s4f hinv hpar hcnt hnS j1 hj1
    have hb2 := hp_bounds datas nS s4f hinv hpar hcnt hnS j2 hj2
    have h6 : ∀ p, nS + 1 ≤ cpOf datas nS p := by
      intro p
      unfold cpOf
      omega
    cases hd1 : (datas.getD j1 defaultBuildData).parent with
    | none =>
      have hhp1 := hinv.hhpn j1 hj1 hd1
      cases hd2 : (datas.getD j2 defaultBuildData).parent with
      | none =>
        have hhp2 := hinv.hhpn j2 hj2 hd2
        have ha : rankNone datas (j1 + 1) = rankNone datas j1 + 1 := by
          rw [rankNone_succ, hd1, if_pos rfl]
        have hb := rankNone_mono datas (j1 + 1) j2 (by omega)
        omega
      | some p2 =>
        have hc1 := hb1.2.2.1 hd1
        have hc2 := (hb2.2.2.2 p2 hd2).1
        have := h6 p2
        omega
    | some p1 =>
      cases hd2 : (datas.getD j2 defaultBuildData).parent with
      | none =>
        have hc1 := (hb1.2.2.2 p1 hd1).1
        have hc2 := hb2.2.2.1 hd2
        have := h6 p1
        omega
      | some p2 =>
        have hhp1 := hinv.hhps j1 p1 hj1 hd1
        have hhp2 := hinv.hhps j2 p2 hj2 hd2
        rcases Nat.lt_trichotomy p1 p2 with hp | hp | hp
        · have hc1 := (hb1.2.2.2 p1 hd1).2
          have hc2 := (hb2.2.2.2 p2 hd2).1
          have := cpOf_mono datas nS (p1 + 1) p2 (by omega)
          omega
        · subst hp
          have ha : rankChild datas p1 (j1 + 1) = rankChild datas p1 j1 + 1 := by
            rw [rankChild_succ, hd1, if_pos rfl]
          have hb := rankChild_mono datas p1 (j1 + 1) j2 (by omega)
          omega
        · have hc1 := (hb1.2.2.2 p1 hd1).1
          have hc2 := (hb2.2.2.2 p2 hd2).2
          have := cpOf_mono datas nS (p2 + 1) p1 (by omega)
          omega
  intro j1 j2 hj1 hj2 he
  rcases Nat.lt_trichotomy j1 j2 with h | h | h
  · exact absurd he (key j1 j2 h hj2)
  · exact h
  · exact absurd he.symm (key j2 j1 h hj1)

/-- A strictly increasing list of `n` naturals inside `[a, a + n)` is
exactly `range' a n`. -/
theorem sorted_nodup_eq_range : ∀ (l : List Nat) (a : Nat),
    List.Pairwise (· < ·) l → (∀ x ∈ l, a ≤ x ∧ x < a + l.length) →
    l = List.range' a l.length := by
  intro l
  induction l with
  | nil => intro a _ _; rfl
  | cons x xs ih =>
    intro a hpw hb
    have hxb := hb x (List.mem_cons_self _ _)
    have hxs : xs = List.range' (x + 1) xs.length := by
      apply ih
      · exact hpw.of_cons
      · intro y hy
        have h1 := List.rel_of_pairwise_cons hpw hy
        have h2 := hb y (List.mem_cons_of_mem _ hy)
        simp only [List.length_cons] at h2
        constructor
        · omega
        · omega
    have hxa : x = a := by
      cases hlen : xs.length with
      | zero =>
        simp only [List.length_cons, hlen] at hxb
        omega
      | succ n =>
        have hmem : x + (n + 1) ∈ xs := by
          rw [hxs, hlen]
          rw [List.mem_range']
          exact ⟨n, by omega, by omega⟩
        have h2 := hb _ (List.mem_cons_of_mem _ hmem)
        simp only [List.length_cons, hlen] at h2
        omega
    subst hxa
    simp only [List.length_cons]
    rw [List.range'_succ]
    rw [← hxs]

def triplesOf (datas : List BuildData) (s4 : Step4State) :
    List (Nat × BuildData × Nat) :=
  (List.range datas.length).map fun i =>
    (s4.heapPos.getD i 0, datas.getD i defaultBuildData, s4.childrenPos.getD i 0)

def sortedTriples (datas : List BuildData) (s4 : Step4State) :
    List (Nat × BuildData × Nat) :=
  (triplesOf datas s4).insertionSort fun a b => a.1 ≤ b.1

theorem buildNodes_eq (datas : List BuildData) (s4 : Step4State) (nS : Nat) :
    buildNodes datas s4 nS =
      { letter := Char.ofNat 0, numChildren := nS, posChildren := 1,
        payloadStart := 0, payloadEnd := 0 } ::
      (sortedTriples datas s4).map fun t =>
        { letter := t.2.1.letter, numChildren := t.2.1.numChildren,
          posChildren := t.2.2, payloadStart := t.2.1.payloadStart,
          payloadEnd := t.2.1.payloadEnd } := rfl

theorem sortedTriples_perm (datas : List BuildData) (s4 : Step4State) :
    List.Perm (sortedTriples datas s4) (triplesOf datas s4) :=
  List.perm_insertionSort _ _

theorem sortedTriples_sorted (datas : List BuildData) (s4 : Step4State) :
    List.Pairwise (fun a b : Nat × BuildData × Nat => a.1 ≤ b.1)
      (sortedTriples datas s4) := by
  haveI h1 : IsTotal (Nat × BuildData × Nat) (fun a b => a.1 ≤ b.1) :=
    ⟨fun a b => Nat.le_total a.1 b.1⟩
  haveI h2 : IsTrans (Nat × BuildData × Nat) (fun a b => a.1 ≤ b.1) :=
    ⟨fun a b c => Nat.le_trans⟩
  exact List.sorted_insertionSort _ _

/-- The heap positions of the sorted triples read `1, 2, …, m` in order. -/
theorem sortedTriples_fst (datas : List BuildData) (nS : Nat) (s4f : Step4State)
    (hinv : S4Inv datas nS datas.length s4f)
    (hpar : ∀ q p, (datas.getD q defaultBuildData).parent = some p → p < q)
    (hcnt : ∀ p, p < datas.length →
      (datas.getD p defaultBuildData).numChildren = rankChild datas p datas.length)
    (hnS : nS = rankNone datas datas.length) :
    (sortedTriples datas s4f).map (fun t => t.1) =
      List.range' 1 datas.length := by
  have hlen : ((sortedTriples datas s4f).map fun t => t.1).length =
      datas.length := by
    rw [List.length_map, (sortedTriples_perm datas s4f).length_eq]
    unfold triplesOf
    rw [List.length_map, List.length_range]
  have hperm : List.Perm ((sortedTriples datas s4f).map fun t => t.1)
      ((triplesOf datas s4f).map fun t => t.1) :=
    (sortedTriples_perm _ _).map _
  have hTfst : ((triplesOf datas s4f).map fun t => t.1) =
      (List.range datas.length).map fun i => s4f.heapPos.getD i 0 := by
    unfold triplesOf
    rw [List.map_map]
    rfl
  have hnodupT : ((triplesOf datas s4f).map fun t => t.1).Nodup := by
    rw [hTfst]
    apply List.Nodup.map_on
    · intro x hx y hy he
      rw [List.mem_range] at hx hy
      exact hp_inj datas nS s4f hinv hpar hcnt hnS x y hx hy he
    · exact List.nodup_range _
  have hnodup : ((sortedTriples datas s4f).map fun t => t.1).Nodup :=
    hperm.nodup_iff.mpr hnodupT
  have hsorted : List.Pairwise (· ≤ ·)
      ((sortedTriples datas s4f).map fun t => t.1) := by
    rw [List.pairwise_map]
    exact sortedTriples_sorted datas s4f
  have hpw : List.Pairwise (· < ·)
      ((sortedTriples datas s4f).map fun t => t.1) :=
    (hsorted.and hnodup).imp fun h => lt_of_le_of_ne h.1 h.2
  have hb : ∀ x ∈ (sortedTriples datas s4f).map fun t => t.1,
      1 ≤ x ∧ x < 1 + ((sortedTriples datas s4f).map fun t => t.1).length := by
    intro x hx
    have hx2 := hperm.mem_iff.mp hx
    rw [hTfst] at hx2
    rcases List.mem_map.mp hx2 with ⟨i, hi, rfl⟩
    rw [List.mem_range] at hi
    have hbd := hp_bounds datas nS s4f hinv hpar hcnt hnS i hi
    rw [hlen]
    omega
  have hres := sorted_nodup_eq_range _ 1 hpw hb
  rw [hlen] at hres
  exact hres

/-- Step 5 places the node built from `datas[j]` at node index
`heapPos[j]`. -/
theorem buildNodes_lookup (datas : List BuildData) (nS : Nat) (s4f : Step4State)
    (hinv : S4Inv datas nS datas.length s4f)
    (hpar : ∀ q p, (datas.getD q defaultBuildData).parent = some p → p < q)
    (hcnt : ∀ p, p < datas.length →
      (datas.getD p defaultBuildData).numChildren = rankChild datas p datas.length)
    (hnS : nS = rankNone datas datas.length) :
    ∀ j, j < datas.length →
      (buildNodes datas s4f nS).getD (s4f.heapPos.getD j 0) defaultNode =
        { letter := (datas.getD j defaultBuildData).letter,
          numChildren := (datas.getD j defaultBuildData).numChildren,
          posChildren := s4f.childrenPos.getD j 0,
          payloadStart := (datas.getD j defaultBuildData).payloadStart,
          payloadEnd := (datas.getD j defaultBuildData).payloadEnd } := by
  intro j hj
  have htrip : (s4f.heapPos.getD j 0, datas.getD j defaultBuildData,
      s4f.childrenPos.getD j 0) ∈ triplesOf datas s4f := by
    unfold triplesOf
    exact List.mem_map.mpr ⟨j, List.mem_range.mpr hj, rfl⟩
  have hmem := (sortedTriples_perm datas s4f).mem_iff.mpr htrip
  rcases List.getElem_of_mem hmem with ⟨n, hn, he⟩
  have hn2 : n < ((sortedTriples datas s4f).map fun t => t.1).length := by
    rw [List.length_map]
    exact hn
  have hfst : ((sortedTriples datas s4f).map fun t => t.1)[n] =
      s4f.heapPos.getD j 0 := by
    rw [List.getElem_map, he]
  have hfst2 : ((sortedTriples datas s4f).map fun t => t.1)[n] = 1 + n := by
    have hr := sortedTriples_fst datas nS s4f hinv hpar hcnt hnS
    have hnm : n < datas.length := by
      have := hn
      rw [(sortedTriples_perm datas s4f).length_eq] at this
      unfold triplesOf at this
      rw [List.length_map, List.length_range] at this
      exact this
    rw [List.getElem_of_eq hr, List.getElem_range']
    omega
  have hn_eq : s4f.heapPos.getD j 0 = n + 1 := by
    rw [← hfst, hfst2]
    omega
  rw [buildNodes_eq, hn_eq, List.getD_cons_succ,
      List.getD_eq_getElem _ _ (by rw [List.length_map]; exact hn),
      List.getElem_map, he]

/-- The sorted pre-data list of `AsciiHeap::new` (steps 1-2). -/
def sortedPds (items : List (List Char × Nat)) : List PreData :=
  (preDatas items).insertionSort fun a b => lexLe a.key b.key = true

def st3Of (items : List (List Char × Nat)) : Step3State :=
  (sortedPds items).foldl step3 initStep3

def s4Of (items : List (List Char × Nat)) : Step4State :=
  (List.range (st3Of items).datas.length).foldl (step4 (st3Of items).datas)
    (initStep4 (st3Of items).datas.length (st3Of items).numSingleLetter)

def heapOf (items : List (List Char × Nat)) : AsciiHeap :=
  { payloads := (st3Of items).payloads,
    nodes := buildNodes (st3Of items).datas (s4Of items)
      (st3Of items).numSingleLetter }

theorem new_eq_heapOf (items : List (List Char × Nat))
    (hle : (preDatas items).length ≤ u32Max) :
    AsciiHeap.new items = some (heapOf items) := by
  unfold AsciiHeap.new heapOf st3Of s4Of sortedPds
  rw [if_pos hle]
  rfl

theorem sortedPds_perm (items : List (List Char × Nat)) :
    List.Perm (sortedPds items) (preDatas items) :=
  List.perm_insertionSort _ _

theorem sortedPds_sorted (items : List (List Char × Nat)) :
    List.Pairwise (fun a b : PreData => lexLe a.key b.key = true)
      (sortedPds items) := by
  haveI h1 : IsTotal PreData (fun a b : PreData => lexLe a.key b.key = true) :=
    ⟨fun a b => lexLe_total a.key b.key⟩
  haveI h2 : IsTrans PreData (fun a b : PreData => lexLe a.key b.key = true) :=
    ⟨fun a b c => lexLe_trans a.key b.key c.key⟩
  exact List.sorted_insertionSort _ _

theorem preDatas_key_ne (items : List (List Char × Nat)) :
    ∀ pd ∈ preDatas items, pd.key ≠ [] := by
  intro pd hpd
  rcases List.mem_flatMap.mp hpd with ⟨it, hit, hpdof⟩
  unfold preDatasOf at hpdof
  rcases List.mem_map.mp hpdof with ⟨i, hi, heq⟩
  rw [List.mem_range] at hi
  rcases heq with rfl
  intro he
  have := congrArg List.length he
  rw [List.length_take] at this
  simp only [List.length_nil] at this
  omega

theorem preDatas_closed (items : List (List Char × Nat)) :
    ∀ pd ∈ preDatas items, ∀ j, 1 ≤ j → j ≤ pd.key.length →
      ∃ pd2 ∈ preDatas items, pd2.key = pd.key.take j := by
  intro pd hpd j hj1 hj2
  rcases List.mem_flatMap.mp hpd with ⟨it, hit, hpdof⟩
  unfold preDatasOf at hpdof
  rcases List.mem_map.mp hpdof with ⟨i, hi, heq⟩
  rw [List.mem_range] at hi
  rcases heq with rfl
  simp only [List.length_take] at hj2
  have hjr : j ≤ (asciiReduce it.1).length := by omega
  have hji : j ≤ i + 1 := by omega
  refine ⟨{ key := (asciiReduce it.1).take (j - 1 + 1),
            payload := if j - 1 + 1 = (asciiReduce it.1).length then some it.2
              else none },
          List.mem_flatMap.mpr ⟨it, hit, ?_⟩, ?_⟩
  · unfold preDatasOf
    exact List.mem_map.mpr ⟨j - 1, List.mem_range.mpr (by omega), rfl⟩
  · show (asciiReduce it.1).take (j - 1 + 1) = ((asciiReduce it.1).take (i + 1)).take j
    rw [List.take_take]
    congr 1
    omega

theorem sortedPds_key_ne (items : List (List Char × Nat)) :
    ∀ pd ∈ sortedPds items, pd.key ≠ [] := fun pd hpd =>
  preDatas_key_ne items pd ((sortedPds_perm items).mem_iff.mp hpd)

theorem sortedPds_closed (items : List (List Char × Nat)) :
    ∀ pd ∈ sortedPds items, ∀ j, 1 ≤ j → j ≤ pd.key.length →
      ∃ pd2 ∈ sortedPds items, pd2.key = pd.key.take j := by
  intro pd hpd j hj1 hj2
  rcases preDatas_closed items pd ((sortedPds_perm items).mem_iff.mp hpd) j hj1 hj2
    with ⟨pd2, hpd2, hkey⟩
  exact ⟨pd2, (sortedPds_perm items).mem_iff.mpr hpd2, hkey⟩

/-- The step-3 invariant, instantiated at the full sorted pre-data list. -/
theorem s3Of_inv (items : List (List Char × Nat))
    (hne : sortedPds items ≠ []) : S3Inv (sortedPds items) (st3Of items) :=
  s3inv_result (sortedPds items) hne (sortedPds_sorted items)
    (sortedPds_closed items) (sortedPds_key_ne items)

theorem map_getD_range {α : Type} : ∀ (l : List α) (d : α),
    (List.range l.length).map (fun i => l.getD i d) = l := by
  intro l
  induction l with
  | nil => intro d; rfl
  | cons x xs ih =>
    intro d
    rw [List.length_cons, List.range_succ_eq_map, List.map_cons, List.map_map]
    congr 1
    rw [show ((fun i => (x :: xs).getD i d) ∘ Nat.succ) = fun i => xs.getD i d
        from rfl]
    exact ih d

theorem countP_getD_range {α : Type} (l : List α) (d : α) (p : α → Bool) :
    l.countP p = (List.range l.length).countP fun i => p (l.getD i d) := by
  conv_lhs => rw [← map_getD_range l d]
  rw [List.countP_map]
  rfl

/-- Parent pointers of the built datas point strictly backwards. -/
theorem datasOf_parent_lt (items : List (List Char × Nat))
    (hne : sortedPds items ≠ []) :
    ∀ q p, ((st3Of items).datas.getD q defaultBuildData).parent = some p →
      p < q := by
  intro q p hq
  have hinv := s3Of_inv items hne
  rcases Nat.lt_or_ge q (dkOf (sortedPds items)).length with hlt | hge
  · have hkne : (dkOf (sortedPds items)).getD q [] ≠ [] := by
      apply hinv.hkeysne
      rw [List.getD_eq_getElem _ _ hlt]
      exact List.getElem_mem _
    have hlen1 : 1 ≤ ((dkOf (sortedPds items)).getD q []).length := by
      cases hk : (dkOf (sortedPds items)).getD q [] with
      | nil => exact absurd hk hkne
      | cons c cs => simp
    rcases Nat.lt_or_ge ((dkOf (sortedPds items)).getD q []).length 2 with h2 | h2
    · have hnone := hinv.hpar1 q hlt (by omega)
      rw [hnone] at hq
      cases hq
    · rcases hinv.hpar2 q hlt h2 with ⟨j, hj1, hj2, hj3⟩
      rw [hj3] at hq
      rcases Option.some.inj hq with rfl
      exact hj1
  · rw [List.getD_eq_default _ _ (by rw [hinv.hdlen]; omega)] at hq
    simp [defaultBuildData] at hq

/-- Below `m`, the parent pointer encodes exactly the dropLast relation on
distinct keys. -/
theorem datasOf_parent_iff (items : List (List Char × Nat))
    (hne : sortedPds items ≠ []) :
    ∀ q p, q < (dkOf (sortedPds items)).length →
      p < (dkOf (sortedPds items)).length →
      (((st3Of items).datas.getD q defaultBuildData).parent = some p ↔
        ((dkOf (sortedPds items)).getD q []).dropLast =
          (dkOf (sortedPds items)).getD p []) := by
  intro q p hq hp
  have hinv := s3Of_inv items hne
  have hnodup : (dkOf (sortedPds items)).Nodup :=
    List.Pairwise.imp (fun h => h.2) hinv.hsorted
  have hkneq : (dkOf (sortedPds items)).getD q [] ≠ [] := by
    apply hinv.hkeysne
    rw [List.getD_eq_getElem _ _ hq]
    exact List.getElem_mem _
  have hknep : (dkOf (sortedPds items)).getD p [] ≠ [] := by
    apply hinv.hkeysne
    rw [List.getD_eq_getElem _ _ hp]
    exact List.getElem_mem _
  have hlen1 : 1 ≤ ((dkOf (sortedPds items)).getD q []).length := by
    cases hk : (dkOf (sortedPds items)).getD q [] with
    | nil => exact absurd hk hkneq
    | cons c cs => simp
  constructor
  · intro h
    rcases Nat.lt_or_ge ((dkOf (sortedPds items)).getD q []).length 2 with h2 | h2
    · have hnone := hinv.hpar1 q hq (by omega)
      rw [hnone] at h
      cases h
    · rcases hinv.hpar2 q hq h2 with ⟨j, hj1, hj2, hj3⟩
      rw [hj3] at h
      rcases Option.some.inj h with rfl
      exact hj2.symm
  · intro h
    have hlenp : 1 ≤ ((dkOf (sortedPds items)).getD p []).length := by
      cases hk : (dkOf (sortedPds items)).getD p [] with
      | nil => exact absurd hk hknep
      | cons c cs => simp
    have h2 : 2 ≤ ((dkOf (sortedPds items)).getD q []).length := by
      have := congrArg List.length h
      rw [List.length_dropLast] at this
      omega
    rcases hinv.hpar2 q hq h2 with ⟨j, hj1, hj2, hj3⟩
    have hjp : j = p := by
      apply nodup_getD_inj hnodup (by omega) hp
      rw [hj2, h]
    rw [hj3, hjp]

theorem datasOf_cnt (items : List (List Char × Nat))
    (hne : sortedPds items ≠ []) :
    ∀ p, p < (st3Of items).datas.length →
      ((st3Of items).datas.getD p defaultBuildData).numChildren =
        rankChild (st3Of items).datas p (st3Of items).datas.length := by
  intro p hp
  have hinv := s3Of_inv items hne
  have hm := hinv.hdlen
  rw [hm] at hp
  rw [hinv.hchild p hp]
  unfold rankChild
  rw [hm, countP_getD_range (dkOf (sortedPds items)) []]
  apply List.countP_congr
  intro q hq
  rw [List.mem_range] at hq
  simp only [decide_eq_true_eq]
  constructor
  · intro h
    exact (datasOf_parent_iff items hne q p hq hp).mpr h
  · intro h
    exact (datasOf_parent_iff items hne q p hq hp).mp h

theorem datasOf_nS (items : List (List Char × Nat))
    (hne : sortedPds items ≠ []) :
    (st3Of items).numSingleLetter =
      rankNone (st3Of items).datas (st3Of items).datas.length := by
  have hinv := s3Of_inv items hne
  rw [hinv.hsingle]
  unfold rankNone
  rw [hinv.hdlen, countP_getD_range (dkOf (sortedPds items)) []]
  apply List.countP_congr
  intro q hq
  rw [List.mem_range] at hq
  simp only [decide_eq_true_eq]
  constructor
  · intro h
    exact hinv.hpar1 q hq h
  · intro h
    by_contra hlen
    have hkne : (dkOf (sortedPds items)).getD q [] ≠ [] := by
      apply hinv.hkeysne
      rw [List.getD_eq_getElem _ _ hq]
      exact List.getElem_mem _
    have hlen1 : 1 ≤ ((dkOf (sortedPds items)).getD q []).length := by
      cases hk : (dkOf (sortedPds items)).getD q [] with
      | nil => exact absurd hk hkne
      | cons c cs => simp
    rcases hinv.hpar2 q hq (by omega) with ⟨j, _, _, hj3⟩
    rw [hj3] at h
    cases h

theorem s4Of_inv (items : List (List Char × Nat))
    (hne : sortedPds items ≠ []) :
    S4Inv (st3Of items).datas (st3Of items).numSingleLetter
      (st3Of items).datas.length (s4Of items) := by
  unfold s4Of
  exact s4inv_fold _ _ (datasOf_parent_lt items hne) _ (le_refl _)

theorem find_eq_some_of_unique {α : Type} (p : α → Bool) :
    ∀ (l : List α) (x : α), x ∈ l → p x = true →
      (∀ y ∈ l, p y = true → y = x) → l.find? p = some x := by
  intro l
  induction l with
  | nil => intro x hx; cases hx
  | cons a t ih =>
    intro x hx hpx huniq
    by_cases hpa : p a = true
    · rw [List.find?_cons_of_pos _ hpa, huniq a (List.mem_cons_self _ _) hpa]
    · rw [List.find?_cons_of_neg _ hpa]
      have hxt : x ∈ t := by
        rcases List.mem_cons.mp hx with rfl | h
        · exact absurd hpx hpa
        · exact h
      exact ih x hxt hpx fun y hy => huniq y (List.mem_cons_of_mem _ hy)

/-- Pigeonhole: `n` distinct naturals inside an interval of size `n` cover
it. -/
theorem mem_of_nodup_bounds (l : List Nat) (a : Nat) (hnd : l.Nodup)
    (hb : ∀ x ∈ l, a ≤ x ∧ x < a + l.length) :
    ∀ t, a ≤ t → t < a + l.length → t ∈ l := by
  intro t ht1 ht2
  have hperm := List.perm_insertionSort (· ≤ ·) l
  have hsorted : List.Pairwise (· ≤ ·) (l.insertionSort (· ≤ ·)) :=
    List.sorted_insertionSort _ _
  have hnd2 : (l.insertionSort (· ≤ ·)).Nodup := hperm.nodup_iff.mpr hnd
  have hpw : List.Pairwise (· < ·) (l.insertionSort (· ≤ ·)) :=
    (hsorted.and hnd2).imp fun h => lt_of_le_of_ne h.1 h.2
  have hlen := hperm.length_eq
  have hb2 : ∀ x ∈ l.insertionSort (· ≤ ·),
      a ≤ x ∧ x < a + (l.insertionSort (· ≤ ·)).length := by
    intro x hx
    rw [hlen]
    exact hb x (hperm.mem_iff.mp hx)
  have hres := sorted_nodup_eq_range _ a hpw hb2
  apply hperm.mem_iff.mp
  rw [hres, List.mem_range']
  refine ⟨t - a, by omega, by omega⟩

/-- Every position of a parent's child block is the heap position of one of
its children. -/
theorem block_coverage (items : List (List Char × Nat))
    (hne : sortedPds items ≠ []) :
    ∀ j t, j < (st3Of items).datas.length →
      cpOf (st3Of items).datas (st3Of items).numSingleLetter j ≤ t →
      t < cpOf (st3Of items).datas (st3Of items).numSingleLetter j +
        ((st3Of items).datas.getD j defaultBuildData).numChildren →
      ∃ q, q < (st3Of items).datas.length ∧
        ((st3Of items).datas.getD q defaultBuildData).parent = some j ∧
        (s4Of items).heapPos.getD q 0 = t := by
  intro j t hj hta htb
  have hinv4 := s4Of_inv items hne
  have hpar := datasOf_parent_lt items hne
  have hcnt := datasOf_cnt items hne
  have hnS := datasOf_nS items hne
  have hlc : (((List.range (st3Of items).datas.length).filter fun q =>
      decide (((st3Of items).datas.getD q defaultBuildData).parent = some j)).map
      fun q => (s4Of items).heapPos.getD q 0).length =
      ((st3Of items).datas.getD j defaultBuildData).numChildren := by
    rw [List.length_map, ← List.countP_eq_length_filter, hcnt j hj]
    rfl
  have hnodup : (((List.range (st3Of items).datas.length).filter fun q =>
      decide (((st3Of items).datas.getD q defaultBuildData).parent = some j)).map
      fun q => (s4Of items).heapPos.getD q 0).Nodup := by
    apply List.Nodup.map_on
    · intro x hx y hy he
      have hx2 : x < (st3Of items).datas.length := by
        have := (List.mem_filter.mp hx).1
        rwa [List.mem_range] at this
      have hy2 : y < (st3Of items).datas.length := by
        have := (List.mem_filter.mp hy).1
        rwa [List.mem_range] at this
      exact hp_inj _ _ _ hinv4 hpar hcnt hnS x y hx2 hy2 he
    · exact List.Nodup.filter _ (List.nodup_range _)
  have hbound : ∀ x ∈ ((List.range (st3Of items).datas.length).filter fun q =>
      decide (((st3Of items).datas.getD q defaultBuildData).parent = some j)).map
      fun q => (s4Of items).heapPos.getD q 0,
      cpOf (st3Of items).datas (st3Of items).numSingleLetter j ≤ x ∧
        x < cpOf (st3Of items).datas (st3Of items).numSingleLetter j +
          (((List.range (st3Of items).datas.length).filter fun q =>
            decide (((st3Of items).datas.getD q defaultBuildData).parent = some j)).map
            fun q => (s4Of items).heapPos.getD q 0).length := by
    intro x hx
    rcases List.mem_map.mp hx with ⟨q, hq, rfl⟩
    have hq1 : q < (st3Of items).datas.length := by
      have := (List.mem_filter.mp hq).1
      rwa [List.mem_range] at this
    have hq2 : ((st3Of items).datas.getD q defaultBuildData).parent = some j := by
      have := (List.mem_filter.mp hq).2
      simpa using this
    have hbd := (hp_bounds _ _ _ hinv4 hpar hcnt hnS q hq1).2.2.2 j hq2
    rw [hlc]
    have hsucc := cpOf_succ (st3Of items).datas (st3Of items).numSingleLetter j
    omega
  have hmem := mem_of_nodup_bounds _ _ hnodup hbound t hta (by rw [hlc]; exact htb)
  rcases List.mem_map.mp hmem with ⟨q, hq, he⟩
  have hq1 : q < (st3Of items).datas.length := by
    have := (List.mem_filter.mp hq).1
    rwa [List.mem_range] at this
  have hq2 : ((st3Of items).datas.getD q defaultBuildData).parent = some j := by
    have := (List.mem_filter.mp hq).2
    simpa using this
  exact ⟨q, hq1, hq2, he⟩

/-- Every position of the root's single-letter block is the heap position
of a parentless data. -/
theorem root_coverage (items : List (List Char × Nat))
    (hne : sortedPds items ≠ []) :
    ∀ t, 1 ≤ t → t < 1 + (st3Of items).numSingleLetter →
      ∃ q, q < (st3Of items).datas.length ∧
        ((st3Of items).datas.getD q defaultBuildData).parent = none ∧
        (s4Of items).heapPos.getD q 0 = t := by
  intro t hta htb
  have hinv4 := s4Of_inv items hne
  have hpar := datasOf_parent_lt items hne
  have hcnt := datasOf_cnt items hne
  have hnS := datasOf_nS items hne
  have hlc : (((List.range (st3Of items).datas.length).filter fun q =>
      decide (((st3Of items).datas.getD q defaultBuildData).parent = none)).map
      fun q => (s4Of items).heapPos.getD q 0).length =
      (st3Of items).numSingleLetter := by
    rw [List.length_map, ← List.countP_eq_length_filter, hnS]
    rfl
  have hnodup : (((List.range (st3Of items).datas.length).filter fun q =>
      decide (((st3Of items).datas.getD q defaultBuildData).parent = none)).map
      fun q => (s4Of items).heapPos.getD q 0).Nodup := by
    apply List.Nodup.map_on
    · intro x hx y hy he
      have hx2 : x < (st3Of items).datas.length := by
        have := (List.mem_filter.mp hx).1
        rwa [List.mem_range] at this
      have hy2 : y < (st3Of items).datas.length := by
        have := (List.mem_filter.mp hy).1
        rwa [List.mem_range] at this
      exact hp_inj _ _ _ hinv4 hpar hcnt hnS x y hx2 hy2 he
    · exact List.Nodup.filter _ (List.nodup_range _)
  have hbound : ∀ x ∈ ((List.range (st3Of items).datas.length).filter fun q =>
      decide (((st3Of items).datas.getD q defaultBuildData).parent = none)).map
      fun q => (s4Of items).heapPos.getD q 0,
      1 ≤ x ∧ x < 1 + (((List.range (st3Of items).datas.length).filter fun q =>
        decide (((st3Of items).datas.getD q defaultBuildData).parent = none)).map
        fun q => (s4Of items).heapPos.getD q 0).length := by
    intro x hx
    rcases List.mem_map.mp hx with ⟨q, hq, rfl⟩
    have hq1 : q < (st3Of items).datas.length := by
      have := (List.mem_filter.mp hq).1
      rwa [List.mem_range] at this
    have hq2 : ((st3Of items).datas.getD q defaultBuildData).parent = none := by
      have := (List.mem_filter.mp hq).2
      simpa using this
    have hbd := hp_bounds _ _ _ hinv4 hpar hcnt hnS q hq1
    have hbd2 := hbd.2.2.1 hq2
    rw [hlc]
    omega
  have hmem := mem_of_nodup_bounds _ _ hnodup hbound t hta (by rw [hlc]; exact htb)
  rcases List.mem_map.mp hmem with ⟨q, hq, he⟩
  have hq1 : q < (st3Of items).datas.length := by
    have := (List.mem_filter.mp hq).1
    rwa [List.mem_range] at this
  have hq2 : ((st3Of items).datas.getD q defaultBuildData).parent = none := by
    have := (List.mem_filter.mp hq).2
    simpa using this
  exact ⟨q, hq1, hq2, he⟩

theorem node_at_hp (items : List (List Char × Nat)) (hne : sortedPds items ≠ []) :
    ∀ j, j < (st3Of items).datas.length →
      (heapOf items).nodes.getD ((s4Of items).heapPos.getD j 0) defaultNode =
        { letter := ((st3Of items).datas.getD j defaultBuildData).letter,
          numChildren := ((st3Of items).datas.getD j defaultBuildData).numChildren,
          posChildren := (s4Of items).childrenPos.getD j 0,
          payloadStart := ((st3Of items).datas.getD j defaultBuildData).payloadStart,
          payloadEnd := ((st3Of items).datas.getD j defaultBuildData).payloadEnd } :=
  fun j hj =>
    buildNodes_lookup (st3Of items).datas (st3Of items).numSingleLetter
      (s4Of items) (s4Of_inv items hne) (datasOf_parent_lt items hne)
      (datasOf_cnt items hne) (datasOf_nS items hne) j hj

theorem parent_none_iff (items : List (List Char × Nat))
    (hne : sortedPds items ≠ []) :
    ∀ q, q < (dkOf (sortedPds items)).length →
      (((st3Of items).datas.getD q defaultBuildData).parent = none ↔
        ((dkOf (sortedPds items)).getD q []).length = 1) := by
  intro q hq
  have hinv := s3Of_inv items hne
  have hkne : (dkOf (sortedPds items)).getD q [] ≠ [] := by
    apply hinv.hkeysne
    rw [List.getD_eq_getElem _ _ hq]
    exact List.getElem_mem _
  have hlen1 : 1 ≤ ((dkOf (sortedPds items)).getD q []).length := by
    cases hk : (dkOf (sortedPds items)).getD q [] with
    | nil => exact absurd hk hkne
    | cons c cs => simp
  constructor
  · intro h
    by_contra hlen
    rcases hinv.hpar2 q hq (by omega) with ⟨j, _, _, hj3⟩
    rw [hj3] at h
    cases h
  · intro h
    exact hinv.hpar1 q hq h

/-- Descending from the node of key `K` by the letter `c` finds the node of
key `K ++ [c]`. -/
theorem child_find (items : List (List Char × Nat)) (hne : sortedPds items ≠ [])
    (j j2 : Nat) (c : Char)
    (hj : j < (st3Of items).datas.length) (hj2 : j2 < (st3Of items).datas.length)
    (hkey2 : (dkOf (sortedPds items)).getD j2 [] =
      (dkOf (sortedPds items)).getD j [] ++ [c]) :
    (((heapOf items).nodes.getD ((s4Of items).heapPos.getD j 0)
        defaultNode).childIdxs).find?
      (fun t => ((heapOf items).nodes.getD t defaultNode).letter == c)
      = some ((s4Of items).heapPos.getD j2 0) := by
  have hinv := s3Of_inv items hne
  have hinv4 := s4Of_inv items hne
  have hpar := datasOf_parent_lt items hne
  have hcnt := datasOf_cnt items hne
  have hnS := datasOf_nS items hne
  have hdlen := hinv.hdlen
  have hnodup : (dkOf (sortedPds items)).Nodup :=
    List.Pairwise.imp (fun h => h.2) hinv.hsorted
  have hjm : j < (dkOf (sortedPds items)).length := by rw [← hdlen]; exact hj
  have hj2m : j2 < (dkOf (sortedPds items)).length := by rw [← hdlen]; exact hj2
  have hpj2 : ((st3Of items).datas.getD j2 defaultBuildData).parent = some j := by
    apply (datasOf_parent_iff items hne j2 j hj2m hjm).mpr
    rw [hkey2, List.dropLast_concat]
  have hbd := (hp_bounds _ _ _ hinv4 hpar hcnt hnS j2 hj2).2.2.2 j hpj2
  have hsucc := cpOf_succ (st3Of items).datas (st3Of items).numSingleLetter j
  have hnodej := node_at_hp items hne j hj
  have hcpj : (s4Of items).childrenPos.getD j 0 =
      cpOf (st3Of items).datas (st3Of items).numSingleLetter j :=
    hinv4.hcp j hj
  have hchild : ((heapOf items).nodes.getD ((s4Of items).heapPos.getD j 0)
      defaultNode).childIdxs =
      (List.range ((st3Of items).datas.getD j defaultBuildData).numChildren).map
        fun k2 => cpOf (st3Of items).datas (st3Of items).numSingleLetter j + k2 := by
    rw [hnodej]
    unfold HeapNode.childIdxs
    dsimp only
    rw [hcpj]
  apply find_eq_some_of_unique
  · rw [hchild]
    refine List.mem_map.mpr ⟨(s4Of items).heapPos.getD j2 0 -
      cpOf (st3Of items).datas (st3Of items).numSingleLetter j,
      List.mem_range.mpr (by omega), by omega⟩
  · have hl2 : ((heapOf items).nodes.getD ((s4Of items).heapPos.getD j2 0)
        defaultNode).letter = c := by
      rw [node_at_hp items hne j2 hj2]
      show ((st3Of items).datas.getD j2 defaultBuildData).letter = c
      rw [hinv.hletter j2 hj2m, hkey2, List.getLastD_eq_getLast?,
          List.getLast?_concat]
      rfl
    rw [hl2]
    exact beq_self_eq_true c
  · intro y hy hpy
    rw [hchild] at hy
    rcases List.mem_map.mp hy with ⟨k2, hk2, rfl⟩
    rw [List.mem_range] at hk2
    rcases block_coverage items hne j
        (cpOf (st3Of items).datas (st3Of items).numSingleLetter j + k2) hj
        (by omega) (by omega)
      with ⟨q, hq1, hq2, hq3⟩
    rw [← hq3] at hpy ⊢
    have hqm : q < (dkOf (sortedPds items)).length := by rw [← hdlen]; exact hq1
    have hlq : ((st3Of items).datas.getD q defaultBuildData).letter = c := by
      have hpy2 := hpy
      rw [node_at_hp items hne q hq1] at hpy2
      exact beq_iff_eq.mp hpy2
    have hdrop : ((dkOf (sortedPds items)).getD q []).dropLast =
        (dkOf (sortedPds items)).getD j [] :=
      (datasOf_parent_iff items hne q j hqm hjm).mp hq2
    have hqne : (dkOf (sortedPds items)).getD q [] ≠ [] := by
      apply hinv.hkeysne
      rw [List.getD_eq_getElem _ _ hqm]
      exact List.getElem_mem _
    have hlast : ((dkOf (sortedPds items)).getD q []).getLastD (Char.ofNat 0) = c := by
      rw [← hinv.hletter q hqm]
      exact hlq
    have hkeyq : (dkOf (sortedPds items)).getD q [] =
        (dkOf (sortedPds items)).getD j [] ++ [c] := by
      conv_lhs => rw [← List.dropLast_append_getLast hqne]
      rw [hdrop]
      have hgl : ((dkOf (sortedPds items)).getD q []).getLast hqne = c := by
        rw [← hlast, List.getLastD_eq_getLast?, List.getLast?_eq_getLast _ hqne]
        rfl
      rw [hgl]
    have hq2eq : q = j2 := nodup_getD_inj hnodup hqm hj2m (by rw [hkeyq, hkey2])
    rw [hq2eq]

/-- Descending from the synthetic root by the letter `c` finds the node of
the single-letter key `[c]`. -/
theorem root_find (items : List (List Char × Nat)) (hne : sortedPds items ≠ [])
    (j2 : Nat) (c : Char)
    (hj2 : j2 < (st3Of items).datas.length)
    (hkey2 : (dkOf (sortedPds items)).getD j2 [] = [c]) :
    (((heapOf items).nodes.getD 0 defaultNode).childIdxs).find?
      (fun t => ((heapOf items).nodes.getD t defaultNode).letter == c)
      = some ((s4Of items).heapPos.getD j2 0) := by
  have hinv := s3Of_inv items hne
  have hinv4 := s4Of_inv items hne
  have hpar := datasOf_parent_lt items hne
  have hcnt := datasOf_cnt items hne
  have hnS := datasOf_nS items hne
  have hdlen := hinv.hdlen
  have hnodup : (dkOf (sortedPds items)).Nodup :=
    List.Pairwise.imp (fun h => h.2) hinv.hsorted
  have hj2m : j2 < (dkOf (sortedPds items)).length := by rw [← hdlen]; exact hj2
  have hpj2 : ((st3Of items).datas.getD j2 defaultBuildData).parent = none := by
    apply (parent_none_iff items hne j2 hj2m).mpr
    rw [hkey2]
    rfl
  have hbd := (hp_bounds _ _ _ hinv4 hpar hcnt hnS j2 hj2).2.2.1 hpj2
  have hbd1 := (hp_bounds _ _ _ hinv4 hpar hcnt hnS j2 hj2).1
  have hroot : (heapOf items).nodes.getD 0 defaultNode =
      { letter := Char.ofNat 0, numChildren := (st3Of items).numSingleLetter,
        posChildren := 1, payloadStart := 0, payloadEnd := 0 } := by
    show (buildNodes (st3Of items).datas (s4Of items)
      (st3Of items).numSingleLetter).getD 0 defaultNode = _
    rw [buildNodes_eq]
    rfl
  have hchild : ((heapOf items).nodes.getD 0 defaultNode).childIdxs =
      (List.range (st3Of items).numSingleLetter).map fun k2 => 1 + k2 := by
    rw [hroot]
    unfold HeapNode.childIdxs
    dsimp only
  apply find_eq_some_of_unique
  · rw [hchild]
    refine List.mem_map.mpr ⟨(s4Of items).heapPos.getD j2 0 - 1,
      List.mem_range.mpr (by omega), by omega⟩
  · have hl2 : ((heapOf items).nodes.getD ((s4Of items).heapPos.getD j2 0)
        defaultNode).letter = c := by
      rw [node_at_hp items hne j2 hj2]
      show ((st3Of items).datas.getD j2 defaultBuildData).letter = c
      rw [hinv.hletter j2 hj2m, hkey2]
      rfl
    rw [hl2]
    exact beq_self_eq_true c
  · intro y hy hpy
    rw [hchild] at hy
    rcases List.mem_map.mp hy with ⟨k2, hk2, rfl⟩
    rw [List.mem_range] at hk2
    rcases root_coverage items hne (1 + k2) (by omega) (by omega)
      with ⟨q, hq1, hq2, hq3⟩
    rw [← hq3] at hpy ⊢
    have hqm : q < (dkOf (sortedPds items)).length := by rw [← hdlen]; exact hq1
    have hlq : ((st3Of items).datas.getD q defaultBuildData).letter = c := by
      have hpy2 := hpy
      rw [node_at_hp items hne q hq1] at hpy2
      exact beq_iff_eq.mp hpy2
    have hlen1 : ((dkOf (sortedPds items)).getD q []).length = 1 :=
      (parent_none_iff items hne q hqm).mp hq2
    rcases List.length_eq_one.mp hlen1 with ⟨d, hd⟩
    have hdc : d = c := by
      have := hinv.hletter q hqm
      rw [hd] at this
      rw [hlq] at this
      exact this.symm
    have hkeyq : (dkOf (sortedPds items)).getD q [] = [c] := by
      rw [hd, hdc]
    have hq2eq : q = j2 := nodup_getD_inj hnodup hqm hj2m (by rw [hkeyq, hkey2])
    rw [hq2eq]

/-- The `find` byte loop walks the trie: starting at the node of key `K`,
consuming the remaining reduced characters `R` ends at the node of key
`K ++ R`, provided all intermediate prefixes are present. -/
theorem findGo_walk (items : List (List Char × Nat)) (hne : sortedPds items ≠ []) :
    ∀ (R K : List Char) (j jR : Nat),
      j < (st3Of items).datas.length → jR < (st3Of items).datas.length →
      (dkOf (sortedPds items)).getD j [] = K →
      (dkOf (sortedPds items)).getD jR [] = K ++ R →
      (∀ s, 1 ≤ s → s ≤ K.length + R.length →
        ∃ jj, jj < (st3Of items).datas.length ∧
          (dkOf (sortedPds items)).getD jj [] = (K ++ R).take s) →
      (∀ c ∈ R, isAlnumLower c = true) →
      (heapOf items).findGo R ((s4Of items).heapPos.getD j 0)
        (((heapOf items).nodes.getD ((s4Of items).heapPos.getD j 0)
          defaultNode).childIdxs) = (s4Of items).heapPos.getD jR 0 := by
  intro R
  induction R with
  | nil =>
    intro K j jR hj hjR hkj hkjR _ _
    have hinv := s3Of_inv items hne
    have hnodup : (dkOf (sortedPds items)).Nodup :=
      List.Pairwise.imp (fun h => h.2) hinv.hsorted
    have hdlen := hinv.hdlen
    have hjeq : j = jR := by
      apply nodup_getD_inj hnodup (by rw [← hdlen]; exact hj)
        (by rw [← hdlen]; exact hjR)
      rw [hkj, hkjR, List.append_nil]
    rw [hjeq]
    rfl
  | cons c R2 ih =>
    intro K j jR hj hjR hkj hkjR hclosed hchars
    rcases hclosed (K.length + 1) (by omega)
      (by simp only [List.length_cons]; omega) with ⟨j2, hj2, hkey2⟩
    have htake : (K ++ c :: R2).take (K.length + 1) = K ++ [c] := by
      rw [List.take_append]
      rfl
    rw [htake] at hkey2
    have hfind := child_find items hne j j2 c hj hj2 (by rw [hkey2, hkj])
    have hkjR2 : (dkOf (sortedPds items)).getD jR [] = (K ++ [c]) ++ R2 := by
      rw [hkjR]
      simp
    have hclo2 : ∀ s, 1 ≤ s → s ≤ (K ++ [c]).length + R2.length →
        ∃ jj, jj < (st3Of items).datas.length ∧
          (dkOf (sortedPds items)).getD jj [] = ((K ++ [c]) ++ R2).take s := by
      intro s hs1 hs2
      rcases hclosed s hs1 (by
        simp only [List.length_append, List.length_singleton,
          List.length_cons, List.length_nil] at hs2 ⊢
        omega) with ⟨jj, h1, h2⟩
      refine ⟨jj, h1, ?_⟩
      rw [h2]
      congr 1
      simp
    have hch2 : ∀ c2 ∈ R2, isAlnumLower c2 = true :=
      fun c2 hc2 => hchars c2 (List.mem_cons_of_mem _ hc2)
    have hih := ih (K ++ [c]) j2 jR hj2 hjR hkey2 hkjR2 hclo2 hch2
    show (heapOf items).findGo (c :: R2) _ _ = _
    simp only [AsciiHeap.findGo]
    rw [if_pos (hchars c (List.mem_cons_self _ _)), hfind]
    exact hih

/-- `find` on a query whose filter agrees with its reduction reaches the
trie node of the reduced key. -/
theorem find_reaches (items : List (List Char × Nat)) (hne : sortedPds items ≠ [])
    (k : List Char) (jK : Nat)
    (hfilter : k.filter isAlnumLower = asciiReduce k)
    (hclosed : ∀ s, 1 ≤ s → s ≤ (asciiReduce k).length →
      ∃ jj, jj < (st3Of items).datas.length ∧
        (dkOf (sortedPds items)).getD jj [] = (asciiReduce k).take s)
    (hjK : jK < (st3Of items).datas.length)
    (hkey : (dkOf (sortedPds items)).getD jK [] = asciiReduce k) :
    (heapOf items).find k = (s4Of items).heapPos.getD jK 0 := by
  unfold AsciiHeap.find
  rw [findGo_filter, hfilter]
  have hchars : ∀ c ∈ asciiReduce k, isAlnumLower c = true := by
    intro c hc
    unfold asciiReduce at hc
    exact List.of_mem_filter hc
  cases hK : asciiReduce k with
  | nil =>
    exfalso
    have hinv := s3Of_inv items hne
    apply hinv.hkeysne ((dkOf (sortedPds items)).getD jK [])
    · rw [List.getD_eq_getElem _ _ (by rw [← hinv.hdlen]; exact hjK)]
      exact List.getElem_mem _
    · rw [hkey, hK]
  | cons c1 R =>
    rcases hclosed 1 (by omega) (by rw [hK]; simp) with ⟨j1, hj1, hkey1⟩
    rw [hK] at hkey1
    have hkey1b : (dkOf (sortedPds items)).getD j1 [] = [c1] := by
      rw [hkey1]
      rfl
    have hfind := root_find items hne j1 c1 hj1 hkey1b
    rw [hK] at hchars
    have hkjR : (dkOf (sortedPds items)).getD jK [] = [c1] ++ R := by
      rw [hkey, hK]
      rfl
    have hclo2 : ∀ s, 1 ≤ s → s ≤ ([c1] : List Char).length + R.length →
        ∃ jj, jj < (st3Of items).datas.length ∧
          (dkOf (sortedPds items)).getD jj [] = (([c1] : List Char) ++ R).take s := by
      intro s hs1 hs2
      rcases hclosed s hs1 (by
        rw [hK]
        simp only [List.length_singleton, List.length_cons,
          List.length_nil] at hs2 ⊢
        omega) with ⟨jj, h1, h2⟩
      refine ⟨jj, h1, ?_⟩
      rw [h2, hK]
      rfl
    have hch2 : ∀ c2 ∈ R, isAlnumLower c2 = true :=
      fun c2 hc2 => hchars c2 (List.mem_cons_of_mem _ hc2)
    have hwalk := findGo_walk items hne R [c1] j1 jK hj1 hjK hkey1b hkjR
      hclo2 hch2
    simp only [AsciiHeap.findGo]
    rw [if_pos (hchars c1 (List.mem_cons_self _ _)), hfind]
    exact hwalk

/-- Slicing the flattened run lists at the cumulative boundaries recovers a
single run. -/
theorem flatMap_slice {β : Type} :
    ∀ (X : List (List Char)) (f : List Char → List β) (i : Nat), i < X.length →
      ((X.flatMap f).drop (((X.take i).map fun K => (f K).length).sum)).take
        (f (X.getD i [])).length = f (X.getD i []) := by
  intro X
  induction X with
  | nil =>
    intro f i hi
    cases hi
  | cons x xs ih =>
    intro f i hi
    cases i with
    | zero =>
      show ((f x ++ xs.flatMap f).drop 0).take (f x).length = f x
      rw [List.drop_zero, List.take_left]
    | succ i =>
      have hi2 : i < xs.length := by simpa using hi
      show ((f x ++ xs.flatMap f).drop
        (((x :: xs.take i).map fun K => (f K).length).sum)).take _ = _
      rw [List.map_cons, List.sum_cons, ← List.drop_drop, List.drop_left]
      exact ih f i hi2

theorem runSum_succ (l : List PreData) (DK : List (List Char)) (i : Nat)
    (hi : i < DK.length) :
    runSum l DK (i + 1) = runSum l DK i +
      (runPayloads l (DK.getD i [])).length := by
  unfold runSum
  rw [List.take_succ, List.getElem?_eq_getElem hi, List.map_append,
      List.sum_append, List.getD_eq_getElem _ _ hi]
  rfl

theorem mem_runPayloads (l : List PreData) (K : List Char) (pd : PreData)
    (hmem : pd ∈ l) (hkey : pd.key = K) (p : Nat) (hp : pd.payload = some p) :
    p ∈ runPayloads l K := by
  unfold runPayloads
  apply List.mem_flatMap.mpr
  refine ⟨pd, List.mem_filter.mpr ⟨hmem, by simp [hkey]⟩, ?_⟩
  rw [hp]
  exact List.mem_singleton.mpr rfl

/-- A payload in the payload slice of node `idx` is yielded by
`iter(idx)` (it is in fact yielded first). -/
theorem mem_iter_of_slice (h : AsciiHeap) (idx p : Nat)
    (hp : p ∈ (h.payloads.drop (h.nodes.getD idx defaultNode).payloadStart).take
      ((h.nodes.getD idx defaultNode).payloadEnd -
        (h.nodes.getD idx defaultNode).payloadStart)) :
    p ∈ h.iter idx := by
  unfold AsciiHeap.iter
  rw [show 2 * h.nodes.length + 2 = (2 * h.nodes.length + 1) + 1 from rfl]
  simp only [AsciiHeap.iterGo]
  rw [if_pos (by omega : (idx, idx + 1).1 < (idx, idx + 1).2)]
  exact List.mem_append_left _ hp

/-- Without uppercase ASCII letters, `find`'s filter and the build
reduction agree. -/
theorem filter_eq_reduce (k : List Char)
    (hup : ∀ c ∈ k, ¬(65 ≤ c.toNat ∧ c.toNat ≤ 90)) :
    k.filter isAlnumLower = asciiReduce k := by
  unfold asciiReduce
  have hmap : k.map toAsciiLower = k := by
    have h1 : k.map toAsciiLower = k.map id := by
      apply List.map_congr_left
      intro c hc
      have hb : ¬((decide (65 ≤ c.toNat) && decide (c.toNat ≤ 90)) = true) := by
        simp only [Bool.and_eq_true, decide_eq_true_eq]
        exact hup c hc
      unfold toAsciiLower
      rw [if_neg hb]
      rfl
    rw [h1, List.map_id]
  rw [hmap]

/-- The pre-data of the full reduced key of an item, with its payload. -/
theorem preDatas_full_key (items : List (List Char × Nat)) (k : List Char)
    (p : Nat) (hmem : (k, p) ∈ items) (hkne : asciiReduce k ≠ []) :
    ∃ pd ∈ preDatas items, pd.key = asciiReduce k ∧ pd.payload = some p := by
  have hlen : 1 ≤ (asciiReduce k).length := by
    cases hk : asciiReduce k with
    | nil => exact absurd hk hkne
    | cons c cs => simp
  refine ⟨{ key := (asciiReduce k).take ((asciiReduce k).length - 1 + 1),
            payload := if (asciiReduce k).length - 1 + 1 = (asciiReduce k).length
              then some p else none },
          List.mem_flatMap.mpr ⟨(k, p), hmem, ?_⟩, ?_, ?_⟩
  · unfold preDatasOf
    exact List.mem_map.mpr ⟨(asciiReduce k).length - 1,
      List.mem_range.mpr
        (by show (asciiReduce k).length - 1 < (asciiReduce k).length; omega),
      rfl⟩
  · show (asciiReduce k).take ((asciiReduce k).length - 1 + 1) = asciiReduce k
    rw [show (asciiReduce k).length - 1 + 1 = (asciiReduce k).length by omega,
        List.take_length]
  · show (if (asciiReduce k).length - 1 + 1 = (asciiReduce k).length
      then some p else none) = some p
    rw [if_pos (by omega)]

/-- Every non-empty initial segment of an item's reduced key has a node
index in the distinct-key list. -/
theorem dk_closure (items : List (List Char × Nat)) (hne : sortedPds items ≠ [])
    (k : List Char) (p : Nat) (hmem : (k, p) ∈ items) :
    ∀ s, 1 ≤ s → s ≤ (asciiReduce k).length →
      ∃ jj, jj < (st3Of items).datas.length ∧
        (dkOf (sortedPds items)).getD jj [] = (asciiReduce k).take s := by
  intro s hs1 hs2
  have hinv := s3Of_inv items hne
  have hpdmem : ∃ pd ∈ preDatas items, pd.key = (asciiReduce k).take s := by
    refine ⟨{ key := (asciiReduce k).take (s - 1 + 1),
              payload := if s - 1 + 1 = (asciiReduce k).length then some p
                else none },
            List.mem_flatMap.mpr ⟨(k, p), hmem, ?_⟩, ?_⟩
    · unfold preDatasOf
      exact List.mem_map.mpr ⟨s - 1,
        List.mem_range.mpr (by show s - 1 < (asciiReduce k).length; omega), rfl⟩
    · show (asciiReduce k).take (s - 1 + 1) = (asciiReduce k).take s
      rw [show s - 1 + 1 = s by omega]
  rcases hpdmem with ⟨pd, hpd, hkey⟩
  have hpdL : pd ∈ sortedPds items := (sortedPds_perm items).mem_iff.mpr hpd
  have hkeys : (asciiReduce k).take s ∈ keysOf (sortedPds items) := by
    rw [← hkey]
    exact List.mem_map.mpr ⟨pd, hpdL, rfl⟩
  have hdk : (asciiReduce k).take s ∈ dkOf (sortedPds items) :=
    mem_cdedup.mpr hkeys
  rcases List.getElem_of_mem hdk with ⟨jj, hjj, he⟩
  refine ⟨jj, by rw [hinv.hdlen]; exact hjj, ?_⟩
  rw [List.getD_eq_getElem _ _ hjj, he]

/-- C2 (amended): for every item sequence accepted by `AsciiHeap::new` and
every inserted pair `(key, payload)` whose key is non-empty after
ASCII-lowercasing and filtering to `[a-z0-9]`, provided the key contains no
uppercase ASCII letter (so that `find`, which filters but does not
lowercase, processes it exactly as build did), `iter(find(key))` contains
`payload`. -/
theorem c2_heap_round_trip (items : List (List Char × Nat)) (h : AsciiHeap)
    (hnew : AsciiHeap.new items = some h)
    (k : List Char) (p : Nat) (hmem : (k, p) ∈ items)
    (hkne : asciiReduce k ≠ [])
    (hup : ∀ c ∈ k, ¬(65 ≤ c.toNat ∧ c.toNat ≤ 90)) :
    p ∈ h.iter (h.find k) := by
  have hle : (preDatas items).length ≤ u32Max := by
    by_contra hle
    unfold AsciiHeap.new at hnew
    rw [if_neg hle] at hnew
    cases hnew
  have heq : h = heapOf items := by
    rw [new_eq_heapOf items hle] at hnew
    exact (Option.some.inj hnew).symm
  subst heq
  rcases preDatas_full_key items k p hmem hkne with ⟨pd, hpd, hpdkey, hpdpay⟩
  have hpdL : pd ∈ sortedPds items := (sortedPds_perm items).mem_iff.mpr hpd
  have hne : sortedPds items ≠ [] := List.ne_nil_of_mem hpdL
  have hinv := s3Of_inv items hne
  have hclosed := dk_closure items hne k p hmem
  have hlen1 : 1 ≤ (asciiReduce k).length := by
    cases hk : asciiReduce k with
    | nil => exact absurd hk hkne
    | cons c cs => simp
  rcases hclosed (asciiReduce k).length hlen1 (le_refl _) with ⟨jK, hjK, hkeyK⟩
  rw [List.take_length] at hkeyK
  have hfind := find_reaches items hne k jK (filter_eq_reduce k hup) hclosed
    hjK hkeyK
  have hjK2 : jK < (dkOf (sortedPds items)).length := by
    rw [← hinv.hdlen]
    exact hjK
  rw [hfind]
  apply mem_iter_of_slice
  rw [node_at_hp items hne jK hjK]
  show p ∈ (((heapOf items).payloads.drop
      (((st3Of items).datas.getD jK defaultBuildData).payloadStart)).take
      (((st3Of items).datas.getD jK defaultBuildData).payloadEnd -
        ((st3Of items).datas.getD jK defaultBuildData).payloadStart))
  rw [hinv.hstart jK hjK2, hinv.hpend jK hjK2, runSum_succ _ _ jK hjK2,
      Nat.add_sub_cancel_left,
      show (heapOf items).payloads = (st3Of items).payloads from rfl,
      hinv.hpayloads,
      show runSum (sortedPds items) (dkOf (sortedPds items)) jK =
        (((dkOf (sortedPds items)).take jK).map fun K =>
          (runPayloads (sortedPds items) K).length).sum from rfl,
      flatMap_slice _ _ jK hjK2]
  exact mem_runPayloads _ _ pd hpdL (by rw [hpdkey, hkeyK]) p hpdpay

/-- Witness for `c2_heap_round_trip` at the concrete input
`items = [("ab", 7)]`, `key = "ab"`. -/
theorem c2_heap_round_trip_witness :
    AsciiHeap.new [(['a', 'b'], 7)] = some (heapOf [(['a', 'b'], 7)]) ∧
      (['a', 'b'], 7) ∈ [(['a', 'b'], 7)] ∧
      asciiReduce ['a', 'b'] ≠ [] ∧
      (∀ c ∈ ['a', 'b'], ¬(65 ≤ c.toNat ∧ c.toNat ≤ 90)) ∧
      7 ∈ (heapOf [(['a', 'b'], 7)]).iter
        ((heapOf [(['a', 'b'], 7)]).find ['a', 'b']) :=
  ⟨by decide, List.mem_singleton.mpr rfl, by decide, by decide,
    c2_heap_round_trip [(['a', 'b'], 7)] (heapOf [(['a', 'b'], 7)]) (by decide)
      ['a', 'b'] 7 (List.mem_singleton.mpr rfl) (by decide) (by decide)⟩

/-! ## `show_db.rs`: `search_name` and `build_db`

`build_db` receives the shows loaded by `load_shows` (initial `years` has at
most one element, from the airing season; `formats` has exactly one, from
the stored format code) and the per-show name lists loaded by `load_names`.
The embedding takes the shows as a list indexed by show index and the name
lists as `(show_index, names)` groups, the `shows_map[&show_id]` lookup
already performed.  The `HashMap` exact map is modelled as an association
list in key-first-appearance order (per-key payload order is the push
order, as in the source); the source's `names_map.iter()` order feeding the
heap is unspecified (`HashMap` iteration), and the embedding fixes it to
that same first-appearance order. -/

/-- `search_name` (show_db.rs:241): keep only `[a-z0-9]` bytes (no
lowercasing — callers pass already lowercased text). -/
def searchName (s : List Char) : List Char :=
  s.filter isAlnumLower

/-- `String::drain(range)` on a byte range. -/
def drainRange (l : List Char) (r : Nat × Nat) : List Char :=
  l.take r.1 ++ l.drop r.2

/-- `Show` (show_db.rs:20) without the arena handle `names` (the handle
only addresses display names and never feeds the matching logic). -/
structure ShowData where
  showId : Int
  seasons : List Nat
  years : List Nat
  formats : List Format
  deriving DecidableEq, Repr

def defaultShow : ShowData :=
  { showId := 0, seasons := [], years := [], formats := [] }

/-- The year extraction of the `build_db` name loop (show_db.rs:126-131):
drain the first `(\d{4})` span, pushing the year only when new. -/
def extractYearStep (sh : ShowData) (name : List Char) : ShowData × List Char :=
  match findYear name with
  | some (r, y) =>
    (if sh.years.all (fun q => q ≠ y) then { sh with years := sh.years ++ [y] } else sh,
     drainRange name r)
  | none => (sh, name)

/-- The format extraction of the `build_db` name loop (show_db.rs:132-137). -/
def extractFormatStep (sh : ShowData) (name : List Char) : ShowData × List Char :=
  match findFormat name with
  | some (r, f) =>
    (if sh.formats.all (fun q => q ≠ f) then { sh with formats := sh.formats ++ [f] } else sh,
     drainRange name r)
  | none => (sh, name)

/-- The season extraction of the `build_db` name loop (show_db.rs:138-141):
seasons are pushed unconditionally.  `Except.error` models the
`find_season` parse panic. -/
def extractSeasonStep (sh : ShowData) (name : List Char) :
    Except Unit (ShowData × List Char) :=
  match findSeason name with
  | Except.error _ => Except.error ()
  | Except.ok none => Except.ok (sh, name)
  | Except.ok (some (r, sn)) =>
    Except.ok ({ sh with seasons := sh.seasons ++ [sn] }, drainRange name r)

/-- Year extraction then format extraction, on the lowercased name
(show_db.rs:125-137). -/
def extractYF (sh : ShowData) (name : List Char) : ShowData × List Char :=
  let st1 := extractYearStep sh (name.map toAsciiLower)
  extractFormatStep st1.1 st1.2

/-- The per-name body of the `build_db` loop (show_db.rs:124-148):
lowercase, extract year then format then season, and derive the search key
from the residue. -/
def processName (sh : ShowData) (name : List Char) :
    Except Unit (ShowData × List Char) :=
  match extractSeasonStep (extractYF sh name).1 (extractYF sh name).2 with
  | Except.error e => Except.error e
  | Except.ok st3 => Except.ok (st3.1, searchName st3.2)

/-- All names of one show, in order; returns the mutated show and the
derived search keys. -/
def processNames : ShowData → List (List Char) → Except Unit (ShowData × List (List Char))
  | sh, [] => Except.ok (sh, [])
  | sh, n :: rest =>
    match processName sh n with
    | Except.error e => Except.error e
    | Except.ok st =>
      match processNames st.1 rest with
      | Except.error e => Except.error e
      | Except.ok st2 => Except.ok (st2.1, st.2 :: st2.2)

/-- `names_map.entry(key).or_insert(smallvec![]).push(show_idx)` on the
association-list model. -/
def mapInsert (m : List (List Char × List Nat)) (k : List Char) (v : Nat) :
    List (List Char × List Nat) :=
  match m with
  | [] => [(k, [v])]
  | (k2, vs) :: rest =>
    if k2 = k then (k2, vs ++ [v]) :: rest else (k2, vs) :: mapInsert rest k v

/-- `map.get(key)` on the association-list model. -/
def mapFind (m : List (List Char × List Nat)) (k : List Char) : Option (List Nat) :=
  match m with
  | [] => none
  | (k2, vs) :: rest => if k2 = k then some vs else mapFind rest k

/-- `ShowDb` (show_db.rs:43) without the name arena. -/
structure ShowDb where
  shows : List ShowData
  map : List (List Char × List Nat)
  heap : AsciiHeap
  deriving DecidableEq, Repr

/-- The outer loop of `build_db` (show_db.rs:120-149): process each
`(show_index, names)` group, mutating the show and collecting
`(search key, show_index)` pairs in order. -/
def buildDbGo : List ShowData → List (Nat × List (List Char)) → List (List Char × Nat) →
    Except Unit (List ShowData × List (List Char × Nat))
  | shows, [], acc => Except.ok (shows, acc)
  | shows, g :: rest, acc =>
    match processNames (shows.getD g.1 defaultShow) g.2 with
    | Except.error e => Except.error e
    | Except.ok st =>
      buildDbGo (shows.set g.1 st.1) rest (acc ++ st.2.map fun k => (k, g.1))

/-- `build_db` (show_db.rs:111): collect search keys, build the exact map,
and build the heap from the map's `(key, show_index)` entries.
`Except.error` models a panic during season extraction or heap overflow. -/
def buildDb (shows : List ShowData) (nameGroups : List (Nat × List (List Char))) :
    Except Unit ShowDb :=
  match buildDbGo shows nameGroups [] with
  | Except.error e => Except.error e
  | Except.ok pr =>
    let map := pr.2.foldl (fun m kv => mapInsert m kv.1 kv.2) []
    match AsciiHeap.new (map.flatMap fun e => e.2.map fun i => (e.1, i)) with
    | some heap => Except.ok { shows := pr.1, map := map, heap := heap }
    | none => Except.error ()

/-- A `ShowDb` from a build result, with an empty fallback, for concrete
evaluations. -/
def dbOr (e : Except Unit ShowDb) : ShowDb :=
  match e with
  | Except.ok db => db
  | Except.error _ => { shows := [], map := [], heap := { payloads := [], nodes := [] } }

/-! ### Association-list map facts -/

theorem mem_keys_mapInsert {m : List (List Char × List Nat)} {k : List Char} {v : Nat}
    {x : List Char} (hx : x ∈ (mapInsert m k v).map Prod.fst) :
    x ∈ m.map Prod.fst ∨ x = k := by
  induction m with
  | nil =>
    simp only [mapInsert, List.map_cons, List.map_nil, List.mem_singleton] at hx
    exact Or.inr hx
  | cons e rest ih =>
    rw [mapInsert] at hx
    split_ifs at hx with he
    · simp only [List.map_cons, List.mem_cons] at hx ⊢
      tauto
    · simp only [List.map_cons, List.mem_cons] at hx ⊢
      rcases hx with hx | hx
      · exact Or.inl (Or.inl hx)
      · rcases ih hx with h | h
        · exact Or.inl (Or.inr h)
        · exact Or.inr h

theorem nodup_keys_mapInsert {m : List (List Char × List Nat)} {k : List Char} {v : Nat}
    (h : (m.map Prod.fst).Nodup) : ((mapInsert m k v).map Prod.fst).Nodup := by
  induction m with
  | nil =>
    simp [mapInsert]
  | cons e rest ih =>
    rw [mapInsert]
    simp only [List.map_cons, List.nodup_cons] at h
    split_ifs with he
    · simp only [List.map_cons, List.nodup_cons]
      exact h
    · simp only [List.map_cons, List.nodup_cons]
      refine ⟨fun hmem => ?_, ih h.2⟩
      rcases mem_keys_mapInsert hmem with hm | hm
      · exact h.1 hm
      · exact he hm

theorem nodup_keys_foldl_mapInsert (l : List (List Char × Nat)) :
    ∀ (m : List (List Char × List Nat)), (m.map Prod.fst).Nodup →
      (((l.foldl (fun m kv => mapInsert m kv.1 kv.2) m)).map Prod.fst).Nodup := by
  induction l with
  | nil =>
    intro m h
    exact h
  | cons kv rest ih =>
    intro m h
    exact ih _ (nodup_keys_mapInsert h)

theorem mapFind_of_mem {m : List (List Char × List Nat)}
    (hnd : (m.map Prod.fst).Nodup) {e : List Char × List Nat} (he : e ∈ m) :
    mapFind m e.1 = some e.2 := by
  induction m with
  | nil => cases he
  | cons e2 rest ih =>
    simp only [List.map_cons, List.nodup_cons] at hnd
    rcases List.mem_cons.mp he with rfl | hmem
    · simp [mapFind]
    · rw [mapFind]
      split_ifs with heq
      · exfalso
        apply hnd.1
        rw [heq]
        exact List.mem_map.mpr ⟨e, hmem, rfl⟩
      · exact ih hnd.2 hmem

/-! ### Claim C6: empty search keys -/

unseal findSeason findYear findFormat seasonCaptures in
/-- C6 (counterexample): for the show/name pair with name `"!!!"` the
derived search key is empty, yet the built `ShowDb`'s exact map does have a
binding under the empty-string key: `build_db` pushes every
`(search key, show index)` range unconditionally (show_db.rs:142-156), so
`names_map` receives the empty key.  Only the heap drops the pair. -/
theorem c6_counterexample :
    (processName defaultShow "!!!".data).map (fun r => r.2) = Except.ok [] ∧
      mapFind (dbOr (buildDb [defaultShow] [(0, ["!!!".data])])).map [] = some [0] ∧
      (dbOr (buildDb [defaultShow] [(0, ["!!!".data])])).heap.payloads = [] := by
  decide

/-- C6 (amended): in a built `ShowDb` the prefix heap contains no payload
originating from a pair with an empty search key — every payload in the
heap's payload array belongs to a non-empty key of the exact map.  (The
exact-map half of the original claim is false: the map does bind the
empty-string key, see the counterexample.) -/
theorem c6_heap_empty_keys_dropped (shows : List ShowData)
    (groups : List (Nat × List (List Char))) (db : ShowDb)
    (hdb : buildDb shows groups = Except.ok db) (i : Nat)
    (hp : i ∈ db.heap.payloads) :
    ∃ k vs, k ≠ [] ∧ mapFind db.map k = some vs ∧ i ∈ vs := by
  unfold buildDb at hdb
  cases hgo : buildDbGo shows groups [] with
  | error e =>
    rw [hgo] at hdb
    cases hdb
  | ok pr =>
    rw [hgo] at hdb
    simp only at hdb
    cases hnew : AsciiHeap.new
        ((pr.2.foldl (fun m kv => mapInsert m kv.1 kv.2) []).flatMap
          fun e => e.2.map fun j => (e.1, j)) with
    | none =>
      rw [hnew] at hdb
      cases hdb
    | some heap =>
      rw [hnew] at hdb
      rcases Except.ok.inj hdb with rfl
      rcases heap_payloads_sourced _ _ hnew i hp with ⟨k, hk, hred⟩
      rcases List.mem_flatMap.mp hk with ⟨e, he, hmem⟩
      rcases List.mem_map.mp hmem with ⟨j, hj, heq⟩
      have hk1 : e.1 = k := congrArg Prod.fst heq
      have hk2 : j = i := congrArg Prod.snd heq
      refine ⟨e.1, e.2, ?_, ?_, ?_⟩
      · intro hnil
        apply hred
        rw [← hk1, hnil]
        rfl
      · exact mapFind_of_mem (nodup_keys_foldl_mapInsert _ _ (by simp)) he
      · rw [← hk2]
        exact hj

unseal findSeason findYear findFormat seasonCaptures in
/-- Witness for `c6_heap_empty_keys_dropped`: the database built from one
show with the single name `"abc"` has payload 0 in its heap, under the
non-empty key `"abc"`. -/
theorem c6_heap_empty_keys_dropped_witness :
    buildDb [defaultShow] [(0, ["abc".data])] =
        Except.ok (dbOr (buildDb [defaultShow] [(0, ["abc".data])])) ∧
      0 ∈ (dbOr (buildDb [defaultShow] [(0, ["abc".data])])).heap.payloads ∧
      ∃ k vs, k ≠ [] ∧
        mapFind (dbOr (buildDb [defaultShow] [(0, ["abc".data])])).map k = some vs ∧
        0 ∈ vs :=
  ⟨by decide, by decide,
    c6_heap_empty_keys_dropped [defaultShow] [(0, ["abc".data])] _ (by decide) 0 (by decide)⟩

/-! ### Claim C7: deduplication of `seasons` / `years` / `formats` -/

unseal findSeason findYear findFormat seasonCaptures in
/-- C7 (counterexample): two names of the same show both declaring season 2
leave `seasons = [2, 2]`: the season branch of the `build_db` name loop
pushes unconditionally (show_db.rs:138-141), unlike the year and format
branches. -/
theorem c7_counterexample :
    (dbOr (buildDb [defaultShow]
        [(0, ["x 2nd season".data, "y 2nd season".data])])).shows =
      [{ showId := 0, seasons := [2, 2], years := [], formats := [] }] ∧
      ¬ ([2, 2] : List Nat).Nodup := by
  decide

theorem nodup_append_new {α : Type} [DecidableEq α] {l : List α} {y : α}
    (h : l.Nodup) (hy : l.all (fun q => q ≠ y) = true) : (l ++ [y]).Nodup := by
  rw [List.nodup_append]
  refine ⟨h, List.nodup_singleton y, ?_⟩
  intro x hx hx2
  rcases List.mem_singleton.mp hx2 with rfl
  have := List.all_eq_true.mp hy x hx
  simp only [decide_eq_true_eq] at this
  exact this rfl

theorem extractYearStep_nodup {sh : ShowData} {name : List Char}
    (h : sh.years.Nodup) : (extractYearStep sh name).1.years.Nodup ∧
      (extractYearStep sh name).1.formats = sh.formats := by
  unfold extractYearStep
  split
  · split_ifs with hc
    · exact ⟨nodup_append_new h hc, rfl⟩
    · exact ⟨h, rfl⟩
  · exact ⟨h, rfl⟩

theorem extractFormatStep_nodup {sh : ShowData} {name : List Char}
    (h : sh.formats.Nodup) : (extractFormatStep sh name).1.formats.Nodup ∧
      (extractFormatStep sh name).1.years = sh.years := by
  unfold extractFormatStep
  split
  · split_ifs with hc
    · exact ⟨nodup_append_new h hc, rfl⟩
    · exact ⟨h, rfl⟩
  · exact ⟨h, rfl⟩

theorem extractSeasonStep_fields {sh : ShowData} {name : List Char}
    {r : ShowData × List Char} (h : extractSeasonStep sh name = Except.ok r) :
    r.1.years = sh.years ∧ r.1.formats = sh.formats := by
  unfold extractSeasonStep at h
  split at h
  · cases h
  · rcases Except.ok.inj h with rfl
    exact ⟨rfl, rfl⟩
  · rcases Except.ok.inj h with rfl
    exact ⟨rfl, rfl⟩

theorem extractYF_nodup {sh : ShowData} {name : List Char}
    (hy : sh.years.Nodup) (hf : sh.formats.Nodup) :
    (extractYF sh name).1.years.Nodup ∧ (extractYF sh name).1.formats.Nodup := by
  simp only [extractYF]
  have hy1 := @extractYearStep_nodup sh (name.map toAsciiLower) hy
  have hf1 := @extractFormatStep_nodup
    (extractYearStep sh (name.map toAsciiLower)).1
    (extractYearStep sh (name.map toAsciiLower)).2
    (by rw [hy1.2]; exact hf)
  exact ⟨by rw [hf1.2]; exact hy1.1, hf1.1⟩

theorem processName_nodup {sh : ShowData} {name : List Char} {sh2 : ShowData}
    {key : List Char} (hp : processName sh name = Except.ok (sh2, key))
    (hy : sh.years.Nodup) (hf : sh.formats.Nodup) :
    sh2.years.Nodup ∧ sh2.formats.Nodup := by
  unfold processName at hp
  cases hs : extractSeasonStep (extractYF sh name).1 (extractYF sh name).2 with
  | error e =>
    rw [hs] at hp
    cases hp
  | ok st3 =>
    rw [hs] at hp
    rcases Except.ok.inj hp with h2
    have hss := extractSeasonStep_fields hs
    have hyf := @extractYF_nodup sh name hy hf
    have hsh2 : sh2 = st3.1 := congrArg Prod.fst h2.symm
    rw [hsh2]
    exact ⟨by rw [hss.1]; exact hyf.1, by rw [hss.2]; exact hyf.2⟩

set_option maxHeartbeats 1000000 in
theorem processNames_nodup : ∀ {names : List (List Char)} {sh : ShowData}
    {sh2 : ShowData} {keys : List (List Char)},
    processNames sh names = Except.ok (sh2, keys) →
    sh.years.Nodup → sh.formats.Nodup → sh2.years.Nodup ∧ sh2.formats.Nodup := by
  intro names
  induction names with
  | nil =>
    intro sh sh2 keys hp hy hf
    rcases Except.ok.inj hp with h
    cases h
    exact ⟨hy, hf⟩
  | cons n rest ih =>
    intro sh sh2 keys hp hy hf
    unfold processNames at hp
    cases h1 : processName sh n with
    | error e =>
      rw [h1] at hp
      cases hp
    | ok st =>
      rw [h1] at hp
      simp only at hp
      cases h2 : processNames st.1 rest with
      | error e =>
        rw [h2] at hp
        cases hp
      | ok st2 =>
        rw [h2] at hp
        rcases Except.ok.inj hp with h3
        have hnd := @processName_nodup sh n st.1 st.2 (by rw [h1]) hy hf
        have := @ih st.1 st2.1 st2.2 (by rw [h2]) hnd.1 hnd.2
        have hsh2 : sh2 = st2.1 := congrArg Prod.fst h3.symm
        rw [hsh2]
        exact this

theorem buildDbGo_nodup : ∀ (groups : List (Nat × List (List Char)))
    (shows : List ShowData) (acc : List (List Char × Nat))
    (res : List ShowData × List (List Char × Nat)),
    buildDbGo shows groups acc = Except.ok res →
    (∀ s ∈ shows, s.years.Nodup ∧ s.formats.Nodup) →
    ∀ s ∈ res.1, s.years.Nodup ∧ s.formats.Nodup := by
  intro groups
  induction groups with
  | nil =>
    intro shows acc res hgo hinit
    rcases Except.ok.inj hgo with rfl
    exact hinit
  | cons g rest ih =>
    intro shows acc res hgo hinit
    unfold buildDbGo at hgo
    cases h1 : processNames (shows.getD g.1 defaultShow) g.2 with
    | error e =>
      rw [h1] at hgo
      cases hgo
    | ok st =>
      rw [h1] at hgo
      refine ih _ _ _ hgo ?_
      intro s hs
      rcases List.mem_or_eq_of_mem_set hs with hmem | rfl
      · exact hinit s hmem
      · have hd : (shows.getD g.1 defaultShow).years.Nodup ∧
            (shows.getD g.1 defaultShow).formats.Nodup := by
          rcases Nat.lt_or_ge g.1 shows.length with hlt | hge
          · rw [List.getD_eq_getElem _ _ hlt]
            exact hinit _ (List.getElem_mem hlt)
          · rw [List.getD_eq_default _ _ hge]
            exact ⟨List.nodup_nil, List.nodup_nil⟩
        exact @processNames_nodup g.2 (shows.getD g.1 defaultShow) st.1 st.2
          (by rw [h1]) hd.1 hd.2

/-- C7 (amended): after `build_db`, `years` and `formats` of every show are
duplicate-free, provided they were on load (`load_shows` initializes them
with at most one element each); `seasons`, by contrast, may contain
duplicates — see the counterexample. -/
theorem c7_years_formats_nodup (shows : List ShowData)
    (groups : List (Nat × List (List Char))) (db : ShowDb)
    (hdb : buildDb shows groups = Except.ok db)
    (hinit : ∀ s ∈ shows, s.years.Nodup ∧ s.formats.Nodup) :
    ∀ s ∈ db.shows, s.years.Nodup ∧ s.formats.Nodup := by
  unfold buildDb at hdb
  cases hgo : buildDbGo shows groups [] with
  | error e =>
    rw [hgo] at hdb
    cases hdb
  | ok pr =>
    rw [hgo] at hdb
    simp only at hdb
    cases hnew : AsciiHeap.new
        ((pr.2.foldl (fun m kv => mapInsert m kv.1 kv.2) []).flatMap
          fun e => e.2.map fun j => (e.1, j)) with
    | none =>
      rw [hnew] at hdb
      cases hdb
    | some heap =>
      rw [hnew] at hdb
      rcases Except.ok.inj hdb with rfl
      exact buildDbGo_nodup groups shows [] pr hgo hinit

/-! ## `title_analyzer.rs`: block segmentation

Positions are character indices; all titles reaching the analyzer in the
claims are ASCII, where character and byte indices coincide. -/

/-- `Block` (title_analyzer.rs:327). -/
structure Block where
  pos : Nat
  delimiter : Option Char
  start : Nat
  val : List Char
  deriving DecidableEq, Repr

def defaultBlock : Block :=
  { pos := 0, delimiter := none, start := 0, val := [] }

/-- `is_relevant` (title_analyzer.rs:313): contains a `[a-z0-9]` byte. -/
def isRelevant (s : List Char) : Bool :=
  s.any isAlnumLower

/-- `is_not_relevant` (title_analyzer.rs:322). -/
def isNotRelevant (s : List Char) : Bool :=
  !isRelevant s

/-- `opening_pair` (title_analyzer.rs:345). -/
def openingPair (c : Char) : Char :=
  if c = ']' then '[' else '('

/-- The state of the `parse_blocks` loop: pushed blocks, the in-progress
block, the block counter (the outer `pos` variable captured by the
`push_block!` macro), and `paren_depth`. -/
structure BState where
  blocks : List Block
  cur : Block
  posCounter : Nat
  depth : Nat
  deriving Repr

/-- `push_block!(stop)` (title_analyzer.rs:264): emit the in-progress block
when non-empty and start a fresh one at `stop`. -/
def pushBlock (title : List Char) (st : BState) (stop : Nat) : BState :=
  if st.cur.start < stop then
    { blocks := st.blocks ++
        [{ st.cur with val := (title.drop st.cur.start).take (stop - st.cur.start) }],
      cur := { pos := st.posCounter + 1, delimiter := none, start := stop, val := [] },
      posCounter := st.posCounter + 1,
      depth := st.depth }
  else st

/-- One iteration of the `char_indices` loop of `parse_blocks`
(title_analyzer.rs:279-298). -/
def parseBlocksStep (title : List Char) (st : BState) (ic : Nat × Char) : BState :=
  if ic.2 = '[' || ic.2 = '(' then
    let st1 :=
      if st.cur.delimiter = none then
        let st2 := pushBlock title st ic.1
        { st2 with cur := { st2.cur with delimiter := some ic.2 } }
      else st
    if st1.cur.delimiter = some ic.2 then { st1 with depth := st1.depth + 1 } else st1
  else if (ic.2 = ']' || ic.2 = ')') && st.cur.delimiter = some (openingPair ic.2) then
    let st1 := { st with depth := st.depth - 1 }
    if st1.depth = 0 then pushBlock title st1 (ic.1 + 1) else st1
  else st

/-- `parse_blocks` (title_analyzer.rs:260): split on `[…]` and `(…)`
(nesting-aware for the same bracket kind), absorb a trailing undelimited
block, and drop irrelevant blocks when any exist. -/
def parseBlocks (title : List Char) : List Block :=
  let st0 : BState :=
    { blocks := [], cur := { pos := 0, delimiter := none, start := 0, val := [] },
      posCounter := 0, depth := 0 }
  let st := title.enum.foldl (parseBlocksStep title) st0
  let st2 :=
    match st.blocks.getLast? with
    | some last =>
      if last.delimiter = none then
        { st with blocks := st.blocks.dropLast, cur := last }
      else st
    | none => st
  let st3 := pushBlock title st2 title.length
  if st3.blocks.any (fun b => isNotRelevant b.val) then
    st3.blocks.filter fun b => isRelevant b.val
  else st3.blocks

/-- `blocks_to_string` (title_analyzer.rs:27): the slice of the normalized
title from the first block's start to the last block's end. -/
def blocksToString (s : List Char) (blocks : List Block) : List Char :=
  match blocks.getLast? with
  | some last =>
    (s.drop (blocks.headD defaultBlock).start).take
      (last.start + last.val.length - (blocks.headD defaultBlock).start)
  | none => []

/-! ### The `FILE_INFO` pattern (title_analyzer.rs:355): `\b(token)\b` over
the listed file-info tokens.  Only the start position of the leftmost match
is consumed by `find_name_range`, so the alternation is embedded as the
expanded token list (the `multi-?subs?` variants spelled out).  The source
pattern is compiled with the `(?x)` verbose flag, under which the unescaped
spaces inside `multiple subtitle` and `english dub` are ignored: the
compiled alternatives are `multiplesubtitle` and `englishdub`. -/

def fiTokens : List (List Char) :=
  [".mkv".data, "mkv".data, "720p".data, "360p".data, "1080p".data,
   "multiplesubtitle".data, "480p".data, "aac".data, "hevc".data,
   "englishdub".data, "multi-subs".data, "multi-sub".data, "multisubs".data,
   "multisub".data, "540p".data, "10bit".data, "10-bit".data, "x265".data,
   "av1".data, "60pfs".data, "dual-audio".data, "x264".data]

/-- Does some file-info token match at position `p` (with `\b` on both
sides)? -/
def fileInfoAt (s : List Char) (p : Nat) : Bool :=
  fiTokens.any fun t =>
    startsW (s.drop p) t && boundaryAt s p && boundaryAt s (p + t.length)

def fiSearchGo (s : List Char) : Nat → Nat → Option Nat
  | _, 0 => none
  | p, fuel + 1 => if fileInfoAt s p then some p else fiSearchGo s (p + 1) fuel

/-- `FILE_INFO.captures(s)`: start of the leftmost match. -/
def fileInfoFind (s : List Char) : Option Nat :=
  fiSearchGo s 0 (s.length + 1)

/-! ### `find_name_range` (title_analyzer.rs:353) -/

/-- The block loop of `find_name_range`: skip leading delimited blocks;
stop at the first block containing a file-info token, keeping its prefix
when the token starts at a positive offset of an undelimited block. -/
def findNameRangeLoop : List Block → List Block → Option Nat → List Block × Option Nat
  | [], matched, lastLen => (matched, lastLen)
  | b :: rest, matched, lastLen =>
    if matched.isEmpty && b.delimiter.isSome then
      findNameRangeLoop rest matched lastLen
    else
      match fileInfoFind b.val with
      | some fiStart =>
        let st :=
          if 0 < fiStart && b.delimiter = none then (matched ++ [b], some fiStart)
          else (matched, lastLen)
        if st.1.isEmpty then findNameRangeLoop rest st.1 st.2 else st
      | none => findNameRangeLoop rest (matched ++ [b]) lastLen

/-- The trailing `while let` of `find_name_range`: pop trailing `[…]`
blocks. -/
def stripTrailingSqRev : List Block → List Block
  | [] => []
  | b :: rest => if b.delimiter = some '[' then stripTrailingSqRev rest else b :: rest

def stripTrailingSq (bs : List Block) : List Block :=
  (stripTrailingSqRev bs.reverse).reverse

/-- `find_name_range` (title_analyzer.rs:353). -/
def findNameRange (blocks : List Block) : List Block :=
  let st := findNameRangeLoop blocks [] none
  let matched := stripTrailingSq st.1
  match matched.getLast? with
  | some last =>
    matched.dropLast ++ [{ last with val := last.val.take (st.2.getD last.val.length) }]
  | none => []

/-! ## `title_analyzer.rs`: episode detection (title_analyzer.rs:412)

The three patterns `R1`, `R2`, `R3` are embedded as backtracking matchers
with the `regex` crate's preference order.  Only the match start, the
`season` and `plain` captures are consumed by `find_episode`.  Greedy
repetitions whose continuation can never consume their characters
(`\d+` before a non-digit, `\s*` before a non-space) are deterministic and
embedded as maximal takes; genuinely optional pieces (`(\.\d)?`, `(v\d)?`,
the `ep` prefix) try the present form first and fall back. -/

def takeDigits (u : List Char) : List Char :=
  u.takeWhile isDigitCh

def dropSpaces (u : List Char) : List Char :=
  u.dropWhile isSpaceCh

def allNonAlnum (u : List Char) : Bool :=
  u.all fun c => !isAlnumLower c

/-- `\s*(end|final|oad)?[^a-z0-9]*$`, the common tail of `R1` and `R2`. -/
def r1Tail (u : List Char) : Bool :=
  let u1 := dropSpaces u
  allNonAlnum u1 ||
    (["end".data, "final".data, "oad".data].any fun kw =>
      startsW u1 kw && allNonAlnum (u1.drop kw.length))

/-- `\d+\s*~\s*\d+`, then the tail. -/
def r1B1 (u : List Char) : Bool :=
  let d1 := takeDigits u
  if d1.isEmpty then false
  else
    match dropSpaces (u.drop d1.length) with
    | '~' :: u2 =>
      let u3 := dropSpaces u2
      let d2 := takeDigits u3
      !d2.isEmpty && r1Tail (u3.drop d2.length)
    | _ => false

/-- `-\s*\d+\s*-\s*\d+`, then the tail. -/
def r1B2 (u : List Char) : Bool :=
  match u with
  | '-' :: u1 =>
    let u2 := dropSpaces u1
    let d1 := takeDigits u2
    if d1.isEmpty then false
    else
      match dropSpaces (u2.drop d1.length) with
      | '-' :: u3 =>
        let u4 := dropSpaces u3
        let d2 := takeDigits u4
        !d2.isEmpty && r1Tail (u4.drop d2.length)
      | _ => false
  | _ => false

/-- `\d+-\d+`, then the tail. -/
def r1B3 (u : List Char) : Bool :=
  let d1 := takeDigits u
  if d1.isEmpty then false
  else
    match u.drop d1.length with
    | '-' :: u2 =>
      let d2 := takeDigits u2
      !d2.isEmpty && r1Tail (u2.drop d2.length)
    | _ => false

/-- `0\d+\s*-\s*\d+`, then the tail. -/
def r1B4 (u : List Char) : Bool :=
  match u with
  | '0' :: u1 =>
    let d1 := takeDigits u1
    if d1.isEmpty then false
    else
      match dropSpaces (u1.drop d1.length) with
      | '-' :: u2 =>
        let u3 := dropSpaces u2
        let d2 := takeDigits u3
        !d2.isEmpty && r1Tail (u3.drop d2.length)
      | _ => false
  | _ => false

/-- `\s*(v\d)?`, then the tail (present preferred). -/
def b5After (u : List Char) : Bool :=
  let u1 := dropSpaces u
  match u1 with
  | 'v' :: d :: u2 => if isDigitCh d then r1Tail u2 || r1Tail u1 else r1Tail u1
  | _ => r1Tail u1

/-- `\d+(\.\d)?\s*(v\d)?`, then the tail: the common suffix of the
fifth alternative of `R1`. -/
def b5Suffix (u : List Char) : Bool :=
  let ds := takeDigits u
  if ds.isEmpty then false
  else
    let u1 := u.drop ds.length
    match u1 with
    | '.' :: d :: u2 => if isDigitCh d then b5After u2 || b5After u1 else b5After u1
    | _ => b5After u1

/-- `(s(?P<season>\d+)e|-\s*|(?P<plain>\d))\d+(\.\d)?\s*(v\d)?`, then
the tail.  Returns the `season` digit capture and the `plain` flag. -/
def r1B5 (u : List Char) : Option (Option (List Char) × Bool) :=
  (match u with
   | 's' :: u1 =>
     let ds := takeDigits u1
     if !ds.isEmpty then
       match u1.drop ds.length with
       | 'e' :: u2 => if b5Suffix u2 then some (some ds, false) else none
       | _ => none
     else none
   | _ => none).orElse fun _ =>
  (match u with
   | '-' :: u1 => if b5Suffix (dropSpaces u1) then some (none, false) else none
   | _ => none).orElse fun _ =>
  (match u with
   | d :: u1 => if isDigitCh d && b5Suffix u1 then some (none, true) else none
   | _ => none)

/-- The alternation of `R1`, in written order. -/
def r1Alt (u : List Char) : Option (Option (List Char) × Bool) :=
  if r1B1 u then some (none, false)
  else if r1B2 u then some (none, false)
  else if r1B3 u then some (none, false)
  else if r1B4 u then some (none, false)
  else r1B5 u

/-- `(ep(\.|isodes?)?\s*)?`: possible remainders after the optional
episode keyword, present forms first (`ep.`, `episodes`, `episode`, `ep`,
absent). -/
def epCandidates (u : List Char) : List (List Char) :=
  (if startsW u "ep.".data then [dropSpaces (u.drop 3)] else []) ++
    (if startsW u "episodes".data then [dropSpaces (u.drop 8)] else []) ++
    (if startsW u "episode".data then [dropSpaces (u.drop 7)] else []) ++
    (if startsW u "ep".data then [dropSpaces (u.drop 2)] else []) ++
    [u]

/-- The body of `R1` after the `(^|[^a-z0-9])` anchor. -/
def r1Body (u : List Char) : Option (Option (List Char) × Bool) :=
  (epCandidates u).findSome? r1Alt

/-- A match of `R1` starting at position `p` (the anchor character, when
consumed, is part of the match, so `get(0).start() = p`). -/
def r1MatchAt (s : List Char) (p : Nat) : Option (Option (List Char) × Bool) :=
  if p = 0 then
    match r1Body s with
    | some cap => some cap
    | none =>
      match s with
      | c :: rest => if !isAlnumLower c then r1Body rest else none
      | [] => none
  else
    match s.drop p with
    | c :: rest => if !isAlnumLower c then r1Body rest else none
    | [] => none

def r1SearchGo (s : List Char) : Nat → Nat → Option (Nat × Option (List Char) × Bool)
  | _, 0 => none
  | p, fuel + 1 =>
    match r1MatchAt s p with
    | some cap => some (p, cap)
    | none => r1SearchGo s (p + 1) fuel

/-- `R1.captures(s)`: leftmost match `(start, season digits, plain)`. -/
def r1Find (s : List Char) : Option (Nat × Option (List Char) × Bool) :=
  r1SearchGo s 0 (s.length + 1)

/-- `\d+(\s*(~|-)\s*\d+)?`, then the tail: the digits part of `R2`. -/
def r2Digits (u : List Char) : Bool :=
  let ds := takeDigits u
  if ds.isEmpty then false
  else
    let u1 := u.drop ds.length
    (match dropSpaces u1 with
     | c :: u2 =>
       if c = '~' || c = '-' then
         let u3 := dropSpaces u2
         let d2 := takeDigits u3
         !d2.isEmpty && r1Tail (u3.drop d2.length)
       else false
     | [] => false) ||
      r1Tail u1

/-- The body of `R2` after the anchor: `ep(\.|isodes?)?\s*` required. -/
def r2Body (u : List Char) : Bool :=
  ((if startsW u "ep.".data then [dropSpaces (u.drop 3)] else []) ++
      (if startsW u "episodes".data then [dropSpaces (u.drop 8)] else []) ++
      (if startsW u "episode".data then [dropSpaces (u.drop 7)] else []) ++
      (if startsW u "ep".data then [dropSpaces (u.drop 2)] else [])).any r2Digits

def r2MatchAt (s : List Char) (p : Nat) : Bool :=
  if p = 0 then
    r2Body s ||
      (match s with
       | c :: rest => !isAlnumLower c && r2Body rest
       | [] => false)
  else
    match s.drop p with
    | c :: rest => !isAlnumLower c && r2Body rest
    | [] => false

def r2SearchGo (s : List Char) : Nat → Nat → Option Nat
  | _, 0 => none
  | p, fuel + 1 => if r2MatchAt s p then some p else r2SearchGo s (p + 1) fuel

/-- `R2.captures(s)`: start of the leftmost match. -/
def r2Find (s : List Char) : Option Nat :=
  r2SearchGo s 0 (s.length + 1)

/-- `R3`: `^[^a-z0-9]*\d+(\s*-\s*\d+)?[^a-z0-9]*$` (anchored, so the
match start is 0). -/
def r3Match (u : List Char) : Bool :=
  let u1 := u.dropWhile fun c => !isAlnumLower c
  let ds := takeDigits u1
  if ds.isEmpty then false
  else
    let u2 := u1.drop ds.length
    (match dropSpaces u2 with
     | '-' :: u3 =>
       let u4 := dropSpaces u3
       let d2 := takeDigits u4
       !d2.isEmpty && allNonAlnum (u4.drop d2.length)
     | _ => false) ||
      allNonAlnum u2

/-- The per-block pattern cascade of `find_episode` (title_analyzer.rs:444):
`R1`, then `R2`, then `R3`; returns `(offset, season digits, plain)`. -/
def blockEpisode (b : Block) : Option (Nat × Option (List Char) × Bool) :=
  match r1Find b.val with
  | some (p, cap) => some (p, cap)
  | none =>
    match r2Find b.val with
    | some p => some (p, none, false)
    | none => if r3Match b.val then some (0, none, false) else none

def findEpisodeGo : List (Nat × Block) → Option (Nat × Nat × Option (List Char) × Bool)
  | [] => none
  | ib :: rest =>
    match blockEpisode ib.2 with
    | some r => some (ib.1, r)
    | none => findEpisodeGo rest

/-- `find_episode` (title_analyzer.rs:412): scan the blocks from right to
left; `Except.error ()` models the panic of the season capture's
`.parse::<u32>().unwrap()`. -/
def findEpisode (blocks : List Block) :
    Except Unit (Option (Nat × Nat) × Option Nat × Bool) :=
  match findEpisodeGo blocks.enum.reverse with
  | none => Except.ok (none, none, false)
  | some (i, off, ds, pl) =>
    match ds with
    | none => Except.ok (some (i, off), none, pl)
    | some digits =>
      match parseU32 digits with
      | some n => Except.ok (some (i, off), some n, pl)
      | none => Except.error ()

/-- `truncate_blocks` (title_analyzer.rs:188). -/
def truncateBlocks (blocks : List Block) (e : Option (Nat × Nat)) : List Block :=
  match e with
  | none => blocks
  | some ep =>
    let b := blocks.getD ep.1 defaultBlock
    if b.delimiter.isSome then blocks.take ep.1
    else
      let last := { b with val := b.val.take ep.2 }
      if isNotRelevant last.val then blocks.take ep.1
      else blocks.take ep.1 ++ [last]

/-! ## `title_analyzer.rs`: metadata extraction, `search` and `find_show` -/

/-- The `e!(find_season)` arm of `extract_title_metadata`
(title_analyzer.rs:174-185): drain the span when found in the pre-episode
title, otherwise consult the original normalized title without mutation.
Either call of `find_season` can panic. -/
def extractSeason (original pre : List Char) : Except Unit (Option Nat × List Char) :=
  match findSeason pre with
  | Except.error _ => Except.error ()
  | Except.ok (some rn) => Except.ok (some rn.2, drainRange pre rn.1)
  | Except.ok none =>
    match findSeason original with
    | Except.error _ => Except.error ()
    | Except.ok r => Except.ok (r.map (fun x => x.2), pre)

/-- The `e!(find_year)` arm (total: a 4-digit year always parses). -/
def extractYearM (original pre : List Char) : Option Nat × List Char :=
  match findYear pre with
  | some rn => (some rn.2, drainRange pre rn.1)
  | none => ((findYear original).map fun x => x.2, pre)

/-- The `e!(find_format)` arm. -/
def extractFormatM (original pre : List Char) : Option Format × List Char :=
  match findFormat pre with
  | some rf => (some rf.2, drainRange pre rf.1)
  | none => ((findFormat original).map fun x => x.2, pre)

/-- `extract_title_metadata` (title_analyzer.rs:170): season, then year,
then format, each draining the pre-episode title on a hit; returns the
metadata and the mutated title. -/
def extractTitleMetadata (original pre : List Char) :
    Except Unit ((Option Nat × Option Nat × Option Format) × List Char) :=
  match extractSeason original pre with
  | Except.error e => Except.error e
  | Except.ok (se, pre1) =>
    let yr := extractYearM original pre1
    let fo := extractFormatM original yr.2
    Except.ok ((se, yr.1, fo.1), fo.2)

/-- `itertools::unique`: first occurrences, order preserved. -/
def uniqueGo : List Nat → List Nat → List Nat
  | [], _ => []
  | x :: rest, seen =>
    if x ∈ seen then uniqueGo rest seen else x :: uniqueGo rest (x :: seen)

def uniqueList (l : List Nat) : List Nat :=
  uniqueGo l []

/-- The two error exits of `search` (title_analyzer.rs:91,147): the trie
fallback returning a number of results other than one, and multiple perfect
matches after tie-breaking. -/
inductive SearchErr where
  | noPerfect (n : Nat)
  | multiPerfect (n : Nat)
  deriving DecidableEq, Repr

/-- `season_matches` (title_analyzer.rs:112). -/
def seasonMatches (db : ShowDb) (i : Nat) (season : Option Nat) : Bool :=
  match season with
  | none => (db.shows.getD i defaultShow).seasons.isEmpty
  | some sn => (db.shows.getD i defaultShow).seasons.any fun q => q = sn

/-- `year_matches` (title_analyzer.rs:116). -/
def yearMatches (db : ShowDb) (i : Nat) (year : Option Nat) : Bool :=
  match year with
  | none => false
  | some y => (db.shows.getD i defaultShow).years.any fun q => q = y

/-- The partition loop of `search` (title_analyzer.rs:108-130): returns
`(total_shows, season_shows, year_shows)`. -/
def tieBreakPartition (db : ShowDb) (shows : List Nat) (season year : Option Nat) :
    List Nat × List Nat × List Nat :=
  shows.foldl
    (fun acc i =>
      let sm := seasonMatches db i season
      let ym := yearMatches db i year
      let acc1 :=
        if sm then
          if ym then (acc.1 ++ [i], acc.2.1, acc.2.2)
          else (acc.1, acc.2.1 ++ [i], acc.2.2)
        else acc
      if ym then (acc1.1, acc1.2.1, acc1.2.2 ++ [i]) else acc1)
    ([], [], [])

/-- The selection and exit of `search` after the partition
(title_analyzer.rs:131-151). -/
def tieBreak (db : ShowDb) (shows : List Nat) (season year : Option Nat) :
    Except SearchErr Nat :=
  let parts := tieBreakPartition db shows season year
  let chosen :=
    if parts.1.isEmpty then
      if parts.2.1.length = 1 then parts.2.1
      else if parts.2.2.length = 1 then parts.2.2
      else if parts.2.1.isEmpty then shows
      else parts.2.1
    else parts.1
  if chosen.length = 1 then Except.ok (chosen.getD 0 0)
  else Except.error (SearchErr.multiPerfect chosen.length)

/-- `search` (title_analyzer.rs:70): exact-map lookup with tie-breaking,
falling back to the longest-prefix trie walk capped at 10 deduplicated
results.  Returns the show index. -/
def searchShow (db : ShowDb) (pre : List Char)
    (md : Option Nat × Option Nat × Option Format) : Except SearchErr Nat :=
  let key := searchName pre
  match mapFind db.map key with
  | none =>
    let idx := db.heap.find key
    let r := (uniqueList (db.heap.iter idx)).take 10
    if r.length = 1 then Except.ok (r.getD 0 0)
    else Except.error (SearchErr.noPerfect r.length)
  | some idxs =>
    let shows := uniqueList idxs
    if shows.length = 1 then Except.ok (shows.getD 0 0)
    else tieBreak db shows md.1 md.2.1

/-- The error exits of `find_show` and `handle_pre_episode_range`. -/
inductive MatchErr where
  | emptyNameRange
  | emptyPreEpisodeRange
  | search (e : SearchErr)
  deriving DecidableEq, Repr

/-- `handle_pre_episode_range` (title_analyzer.rs:32): search with the
extracted metadata (the episode-detected season overriding), then the
pipe-prefix retry, then the drop-last-delimited-block retry. -/
def handlePre (db : ShowDb) (normalized : List Char) (range : List Block)
    (season : Option Nat) : Except Unit (Except MatchErr Nat) :=
  if range.isEmpty then Except.ok (Except.error MatchErr.emptyPreEpisodeRange)
  else
    match extractTitleMetadata normalized (blocksToString normalized range) with
    | Except.error e => Except.error e
    | Except.ok (md0, pre) =>
      let md := if season.isSome then (season, md0.2) else md0
      match searchShow db pre md with
      | Except.ok i => Except.ok (Except.ok i)
      | Except.error e1 =>
        let pipeHit : Option Nat :=
          match pre.findIdx? (fun c => c = '|') with
          | some pos =>
            match searchShow db (pre.take pos) md with
            | Except.ok i => some i
            | Except.error _ => none
          | none => none
        match pipeHit with
        | some i => Except.ok (Except.ok i)
        | none =>
          if 1 < range.length && (range.getLastD defaultBlock).delimiter.isSome then
            match extractTitleMetadata normalized
                (blocksToString normalized range.dropLast) with
            | Except.error e => Except.error e
            | Except.ok (_, pre2) =>
              match searchShow db pre2 md with
              | Except.ok i => Except.ok (Except.ok i)
              | Except.error e2 => Except.ok (Except.error (MatchErr.search e2))
          else Except.ok (Except.error (MatchErr.search e1))

/-- `find_show` (title_analyzer.rs:10): normalize, segment, locate the name
range, detect the episode, and resolve; on failure with the plain-digits
flag set, retry with the untruncated name range. -/
def findShow (db : ShowDb) (title : List Char) : Except Unit (Except MatchErr Nat) :=
  let normalized := norm title
  let blocks := parseBlocks normalized
  let nameRange := findNameRange blocks
  if nameRange.isEmpty then Except.ok (Except.error MatchErr.emptyNameRange)
  else
    match findEpisode nameRange with
    | Except.error e => Except.error e
    | Except.ok (ep, season, plainDigits) =>
      let preRange := truncateBlocks nameRange ep
      match handlePre db normalized preRange season with
      | Except.error e => Except.error e
      | Except.ok (Except.ok i) => Except.ok (Except.ok i)
      | Except.ok (Except.error e1) =>
        if plainDigits then handlePre db normalized nameRange season
        else Except.ok (Except.error e1)

/-! ## Claims C3, C10, C1 (counterexample) -/

/-- Modelled from the spec's tie-breaking order (section 4.E): partition
the multi-match set into `both`, `season_only`, `year_only` by filtering,
pick `both` if non-empty, else `season_only` if exactly one, else
`year_only` if exactly one, else `season_only` if non-empty, else all of
the set; succeed exactly when the chosen set has exactly one element. -/
def tieBreakSpec (db : ShowDb) (shows : List Nat) (season year : Option Nat) :
    Except SearchErr Nat :=
  let both := shows.filter fun i => seasonMatches db i season && yearMatches db i year
  let seasonOnly := shows.filter fun i => seasonMatches db i season && !yearMatches db i year
  let yearOnly := shows.filter fun i => yearMatches db i year && !seasonMatches db i season
  let chosen :=
    if !both.isEmpty then both
    else if seasonOnly.length = 1 then seasonOnly
    else if yearOnly.length = 1 then yearOnly
    else if !seasonOnly.isEmpty then seasonOnly
    else shows
  if chosen.length = 1 then Except.ok (chosen.getD 0 0)
  else Except.error (SearchErr.multiPerfect chosen.length)

theorem tieBreakPartition_foldl (db : ShowDb) (season year : Option Nat)
    (shows : List Nat) : ∀ (acc : List Nat × List Nat × List Nat),
    shows.foldl
      (fun acc i =>
        let sm := seasonMatches db i season
        let ym := yearMatches db i year
        let acc1 :=
          if sm then
            if ym then (acc.1 ++ [i], acc.2.1, acc.2.2)
            else (acc.1, acc.2.1 ++ [i], acc.2.2)
          else acc
        if ym then (acc1.1, acc1.2.1, acc1.2.2 ++ [i]) else acc1)
      acc =
    (acc.1 ++ shows.filter (fun i => seasonMatches db i season && yearMatches db i year),
     acc.2.1 ++ shows.filter (fun i => seasonMatches db i season && !yearMatches db i year),
     acc.2.2 ++ shows.filter (fun i => yearMatches db i year)) := by
  induction shows with
  | nil =>
    intro acc
    simp
  | cons i rest ih =>
    intro acc
    rw [List.foldl_cons]
    cases hsm : seasonMatches db i season <;> cases hym : yearMatches db i year <;>
      simp only [hsm, hym, List.filter_cons, Bool.and_self, Bool.and_true, Bool.and_false,
        Bool.not_true, Bool.not_false, Bool.true_and, Bool.false_and, if_true, if_false,
        Bool.false_eq_true, ih] <;>
      simp [List.append_assoc]

theorem tieBreakPartition_eq (db : ShowDb) (shows : List Nat) (season year : Option Nat) :
    tieBreakPartition db shows season year =
      (shows.filter (fun i => seasonMatches db i season && yearMatches db i year),
       shows.filter (fun i => seasonMatches db i season && !yearMatches db i year),
       shows.filter (fun i => yearMatches db i year)) := by
  unfold tieBreakPartition
  rw [tieBreakPartition_foldl]
  simp

/-- C3 (confirmed): on a multi-match set (two or more distinct shows for
the searched key), the tie-breaking step of `search` agrees with the spec's
selection order, including the success condition `|chosen| = 1`.  The only
textual difference — the code's third preference list is all year-matching
shows rather than the spec's year-only set — is immaterial: that list is
consulted only when `both` is empty, where the two coincide. -/
theorem c3_tie_break_spec (db : ShowDb) (shows : List Nat) (season year : Option Nat)
    (_hlen : 2 ≤ shows.length) (_hnd : shows.Nodup) :
    tieBreak db shows season year = tieBreakSpec db shows season year := by
  simp only [tieBreak, tieBreakSpec, tieBreakPartition_eq]
  by_cases hboth :
      (shows.filter fun i => seasonMatches db i season && yearMatches db i year) = []
  · have hyy : (shows.filter fun i => yearMatches db i year) =
        shows.filter fun i => yearMatches db i year && !seasonMatches db i season := by
      apply List.filter_congr
      intro i hi
      have hni := List.filter_eq_nil_iff.mp hboth i hi
      cases hym : yearMatches db i year
      · simp
      · cases hsm : seasonMatches db i season
        · simp
        · exfalso
          apply hni
          rw [hsm, hym]
          rfl
    rw [hboth, hyy]
    rcases Bool.eq_false_or_eq_true
        ((shows.filter fun i => seasonMatches db i season && !yearMatches db i year).isEmpty)
      with hso | hso <;> rw [hso] <;> rfl
  · have hne : (shows.filter fun i =>
        seasonMatches db i season && yearMatches db i year).isEmpty = false := by
      rw [List.isEmpty_eq_false_iff_exists_mem]
      rcases List.exists_mem_of_ne_nil _ hboth with ⟨x, hx⟩
      exact ⟨x, hx⟩
    rw [hne]
    rfl

/-- Witness for `c3_tie_break_spec` on a concrete two-show database. -/
theorem c3_tie_break_spec_witness :
    2 ≤ ([0, 1] : List Nat).length ∧ ([0, 1] : List Nat).Nodup ∧
      tieBreak (dbOr (buildDb [defaultShow, defaultShow]
          [(0, ["a (1995)".data]), (1, ["a (2021)".data])])) [0, 1] none (some 1995) =
        tieBreakSpec (dbOr (buildDb [defaultShow, defaultShow]
          [(0, ["a (1995)".data]), (1, ["a (2021)".data])])) [0, 1] none (some 1995) :=
  ⟨by decide, by decide,
    c3_tie_break_spec _ [0, 1] none (some 1995) (by decide) (by decide)⟩

unseal findSeason findYear findFormat seasonCaptures in
/-- C10 (code bug): `find_show` is not total — a title whose pre-episode
text contains an `s<digits>` run whose value exceeds `u32::MAX` drives
`find_season`'s `.parse::<u32>().unwrap()` into a panic (modelled as
`Except.error ()`), instead of returning a show or an error value. -/
theorem c10_find_show_panics :
    findShow (dbOr (buildDb [defaultShow] [(0, ["nichijou".data])]))
        "[a] x s99999999999 - 01 [720p].mkv".data = Except.error () ∧
      u32Max < digitsVal "99999999999".data := by
  decide

unseal findSeason findYear findFormat seasonCaptures in
/-- C1 (counterexample): two shows with the identical canonical romaji
`"abc"` both satisfy the claim's hypotheses — the search key `abc` is
non-empty, and it is not a *strict* prefix of the other show's key (the two
keys are equal) — yet `find_show` on `"[Group] abc - 01 [720p].mkv"`
returns an error (two perfect matches) rather than each show. -/
theorem c1_counterexample :
    findShow (dbOr (buildDb [defaultShow, defaultShow]
        [(0, ["abc".data]), (1, ["abc".data])]))
        "[Group] abc - 01 [720p].mkv".data =
      Except.ok (Except.error (MatchErr.search (SearchErr.multiPerfect 2))) ∧
      searchName ("abc".data.map toAsciiLower) ≠ [] ∧
      searchName ("abc".data.map toAsciiLower) = searchName ("abc".data.map toAsciiLower) := by
  decide

/-! ## Claim C1 (amended): the synthetic-title round trip

The romaji is modelled as a non-empty list of non-empty lowercase-letter
words, joined by single spaces: the claim's well-formedness conditions
(lowercase, no leading/trailing/double spaces) hold by construction. -/

/-- Words joined by single spaces. -/
def joinW : List (List Char) → List Char
  | [] => []
  | [w] => w
  | w :: ws => w ++ ' ' :: joinW ws

/-- A non-empty word of lowercase ASCII letters. -/
@[reducible]
def lowWord (w : List Char) : Prop :=
  w ≠ [] ∧ ∀ c ∈ w, 97 ≤ c.toNat ∧ c.toNat ≤ 122

/-- The claim's synthetic title around a romaji `R`. -/
def c1Title (R : List Char) : List Char :=
  "[Group] ".data ++ R ++ " - 01 [720p].mkv".data

/-- Its normalized form. -/
def c1Norm (R : List Char) : List Char :=
  "[group] ".data ++ R ++ " - 01 [720p].mkv".data

theorem getLastD_irrel {α : Type} (l : List α) (h : l ≠ []) (a b : α) :
    l.getLastD a = l.getLastD b := by
  rw [List.getLastD_eq_getLast?, List.getLastD_eq_getLast?,
    List.getLast?_eq_getLast l h]
  rfl

theorem joinW_cons (w : List Char) (ws : List (List Char)) (h : ws ≠ []) :
    joinW (w :: ws) = w ++ ' ' :: joinW ws := by
  cases ws with
  | nil => exact absurd rfl h
  | cons x xs => rfl

theorem joinW_ne_nil (ws : List (List Char)) (hne : ws ≠ [])
    (hw : ∀ w ∈ ws, lowWord w) : joinW ws ≠ [] := by
  cases ws with
  | nil => exact absurd rfl hne
  | cons w rest =>
    cases rest with
    | nil =>
      show w ≠ []
      exact (hw w (List.mem_cons_self _ _)).1
    | cons x xs =>
      show w ++ ' ' :: joinW (x :: xs) ≠ []
      intro he
      have := congrArg List.length he
      simp at this

theorem joinW_chars (ws : List (List Char)) (hw : ∀ w ∈ ws, lowWord w) :
    ∀ c ∈ joinW ws, c = ' ' ∨ (97 ≤ c.toNat ∧ c.toNat ≤ 122) := by
  induction ws with
  | nil =>
    intro c hc
    cases hc
  | cons w rest ih =>
    intro c hc
    cases rest with
    | nil =>
      exact Or.inr ((hw w (List.mem_cons_self _ _)).2 c hc)
    | cons x xs =>
      rw [joinW_cons w _ (by simp)] at hc
      rcases List.mem_append.mp hc with hc | hc
      · exact Or.inr ((hw w (List.mem_cons_self _ _)).2 c hc)
      · rcases List.mem_cons.mp hc with hc | hc
        · exact Or.inl hc
        · exact ih (fun v hv => hw v (List.mem_cons_of_mem _ hv)) c hc

theorem joinW_head (ws : List (List Char)) (hne : ws ≠ [])
    (hw : ∀ w ∈ ws, lowWord w) :
    ∃ c cs, joinW ws = c :: cs ∧ 97 ≤ c.toNat ∧ c.toNat ≤ 122 := by
  cases ws with
  | nil => exact absurd rfl hne
  | cons w rest =>
    have hwne : w ≠ [] := (hw w (List.mem_cons_self _ _)).1
    cases w with
    | nil => exact absurd rfl hwne
    | cons c cs =>
      have hc : 97 ≤ c.toNat ∧ c.toNat ≤ 122 :=
        (hw (c :: cs) (List.mem_cons_self _ _)).2 c (List.mem_cons_self _ _)
      cases rest with
      | nil => exact ⟨c, cs, rfl, hc.1, hc.2⟩
      | cons x xs =>
        refine ⟨c, cs ++ ' ' :: joinW (x :: xs), ?_, hc.1, hc.2⟩
        rw [joinW_cons (c :: cs) (x :: xs) (by simp)]
        rfl

/-- A space inside a word join marks a word boundary: dropping through it
leaves the join of a non-empty suffix of the word list. -/
theorem joinW_space_drop (ws : List (List Char)) (hw : ∀ w ∈ ws, lowWord w) :
    ∀ i, i < (joinW ws).length → (joinW ws).getD i 'x' = ' ' →
      ∃ ws2, ws2 ≠ [] ∧ (∀ w ∈ ws2, w ∈ ws) ∧
        ws2.getLastD [] = ws.getLastD [] ∧
        (joinW ws).drop (i + 1) = joinW ws2 := by
  induction ws with
  | nil =>
    intro i h
    cases h
  | cons w rest ih =>
    intro i h hsp
    cases rest with
    | nil =>
      exfalso
      have hmem : (' ' : Char) ∈ joinW [w] := by
        rw [← hsp, List.getD_eq_getElem _ _ h]
        exact List.getElem_mem _
      have := (hw w (List.mem_cons_self _ _)).2 ' ' hmem
      simp at this
    | cons x xs =>
      have hjw : joinW (w :: x :: xs) = (w ++ [' ']) ++ joinW (x :: xs) := by
        rw [joinW_cons w (x :: xs) (by simp), List.append_assoc]
        rfl
      rcases Nat.lt_or_ge i w.length with hlt | hge
      · exfalso
        rw [joinW_cons w (x :: xs) (by simp),
          List.getD_append _ _ _ _ hlt] at hsp
        have hmem : (' ' : Char) ∈ w := by
          rw [← hsp, List.getD_eq_getElem _ _ hlt]
          exact List.getElem_mem _
        have := (hw w (List.mem_cons_self _ _)).2 ' ' hmem
        simp at this
      · have hlast : (x :: xs).getLastD [] = (w :: x :: xs).getLastD [] :=
          calc (x :: xs).getLastD [] = (x :: xs).getLastD w :=
                getLastD_irrel _ (by simp) [] w
            _ = (w :: x :: xs).getLastD [] := (List.getLastD_cons _ _ _).symm
        rcases Nat.eq_or_lt_of_le hge with heq | hgt
        · refine ⟨x :: xs, by simp, fun v hv => List.mem_cons_of_mem _ hv,
            hlast, ?_⟩
          rw [hjw, ← heq,
            show w.length + 1 = (w ++ [' ']).length by simp,
            List.drop_left]
        · have hi2 : i - w.length - 1 < (joinW (x :: xs)).length := by
            have hlen := congrArg List.length hjw
            simp only [List.length_append, List.length_singleton] at hlen
            omega
          have hel : (joinW (x :: xs)).getD (i - w.length - 1) 'x' = ' ' := by
            rw [hjw] at hsp
            rw [← hsp, List.getD_append_right _ _ _ _
              (by simp only [List.length_append, List.length_singleton]; omega)]
            congr 1
            simp only [List.length_append, List.length_singleton]
            omega
          rcases ih (fun v hv => hw v (List.mem_cons_of_mem _ hv))
              (i - w.length - 1) hi2 hel with ⟨ws2, h1, h2, h3, h4⟩
          refine ⟨ws2, h1, fun v hv => List.mem_cons_of_mem _ (h2 v hv),
            by rw [h3, hlast], ?_⟩
          rw [hjw,
            show i + 1 = (w ++ [' ']).length + (i - w.length) by simp; omega,
            List.drop_append,
            show i - w.length = (i - w.length - 1) + 1 by omega,
            h4]

theorem letters_accepts (w : List Char)
    (hw : ∀ c ∈ w, 97 ≤ c.toNat ∧ c.toNat ≤ 122) :
    ∀ b, normAccepts b w = true ∧ endSpace b w = (b && w.isEmpty) := by
  induction w with
  | nil =>
    intro b
    exact ⟨rfl, by simp [endSpace]⟩
  | cons c cs ih =>
    intro b
    have hc := hw c (List.mem_cons_self _ _)
    have hcsp : c ≠ ' ' := by
      intro he
      rw [he] at hc
      exact absurd hc (by decide)
    have hlow : toAsciiLower c = c := by
      unfold toAsciiLower
      rw [if_neg]
      intro hb
      rw [Bool.and_eq_true, decide_eq_true_eq, decide_eq_true_eq] at hb
      omega
    have hflag : (c == ' ') = false := by
      rw [beq_eq_false_iff_ne]
      exact hcsp
    have ihf := ih (fun d hd => hw d (List.mem_cons_of_mem _ hd)) false
    constructor
    · show ((if c = ' ' then !b else toAsciiLower c == c) &&
        normAccepts (c == ' ') cs) = true
      rw [if_neg hcsp, hlow, beq_self_eq_true, Bool.true_and, hflag]
      exact ihf.1
    · show endSpace (c == ' ') cs = (b && (c :: cs).isEmpty)
      rw [hflag, ihf.2]
      simp

theorem joinW_accepts (ws : List (List Char)) (hne : ws ≠ [])
    (hw : ∀ w ∈ ws, lowWord w) :
    ∀ b, normAccepts b (joinW ws) = true ∧ endSpace b (joinW ws) = false := by
  induction ws with
  | nil => exact absurd rfl hne
  | cons w rest ih =>
    intro b
    have hwl := hw w (List.mem_cons_self _ _)
    have hlett := letters_accepts w hwl.2
    cases rest with
    | nil =>
      refine ⟨(hlett b).1, ?_⟩
      rw [show joinW [w] = w from rfl, (hlett b).2]
      cases hwc : w with
      | nil => exact absurd hwc hwl.1
      | cons c cs => simp
    | cons x xs =>
      have hwe : w.isEmpty = false := by
        cases hwc : w with
        | nil => exact absurd hwc hwl.1
        | cons c cs => rfl
      have ihx := ih (by simp) (fun v hv => hw v (List.mem_cons_of_mem _ hv)) true
      rw [joinW_cons w (x :: xs) (by simp)]
      constructor
      · rw [normAccepts_append, (hlett b).1, Bool.true_and, (hlett b).2, hwe,
          Bool.and_false]
        show ((if ' ' = ' ' then !false else toAsciiLower ' ' == ' ') &&
          normAccepts (' ' == ' ') (joinW (x :: xs))) = true
        rw [if_pos rfl]
        show (true && normAccepts true (joinW (x :: xs))) = true
        rw [Bool.true_and]
        exact ihx.1
      · rw [endSpace_append, (hlett b).2, hwe, Bool.and_false]
        show endSpace (' ' == ' ') (joinW (x :: xs)) = false
        show endSpace true (joinW (x :: xs)) = false
        exact ihx.2

/-- Normalizing the synthetic title lowercases the group tag and leaves
everything else unchanged. -/
theorem c1_norm_eq (ws : List (List Char)) (hne : ws ≠ [])
    (hw : ∀ w ∈ ws, lowWord w) :
    norm (c1Title (joinW ws)) = c1Norm (joinW ws) := by
  have hacc : normAccepts true (joinW ws ++ " - 01 [720p].mkv".data) = true := by
    rw [normAccepts_append, (joinW_accepts ws hne hw true).1, Bool.true_and,
      (joinW_accepts ws hne hw true).2]
    decide
  have hend : endSpace true (joinW ws ++ " - 01 [720p].mkv".data) = false := by
    rw [endSpace_append, (joinW_accepts ws hne hw true).2]
    decide
  have hsep : findSeparator (c1Title (joinW ws)) = ' ' := by
    apply findSeparator_of_mem_space
    show ' ' ∈ "[Group] ".data ++ joinW ws ++ " - 01 [720p].mkv".data
    exact List.mem_append_left _ (List.mem_append_left _ (by decide))
  unfold norm
  rw [hsep]
  unfold normalizeTitle c1Title
  rw [List.append_assoc, List.foldl_append,
    show ("[Group] ".data).foldl (normalizeStep ' ') ([], true) =
      ("[group] ".data, true) by decide,
    foldl_normalizeStep_eq (joinW ws ++ " - 01 [720p].mkv".data)
      "[group] ".data true hacc,
    hend]
  show "[group] ".data ++ (joinW ws ++ " - 01 [720p].mkv".data) =
    c1Norm (joinW ws)
  unfold c1Norm
  rw [List.append_assoc]

theorem pbs_other (title : List Char) (st : BState) (ic : Nat × Char)
    (h1 : ic.2 ≠ '[') (h2 : ic.2 ≠ '(') (h3 : ic.2 ≠ ']') (h4 : ic.2 ≠ ')') :
    parseBlocksStep title st ic = st := by
  have hb1 : (decide (ic.2 = '[') || decide (ic.2 = '(')) = false := by
    simp [h1, h2]
  have hb2 : ((decide (ic.2 = ']') || decide (ic.2 = ')')) &&
      decide (st.cur.delimiter = some (openingPair ic.2))) = false := by
    simp [h3, h4]
  unfold parseBlocksStep
  rw [hb1, hb2]
  rfl

theorem pbs_other2 (title : List Char) (st : BState) (n : Nat) (c : Char)
    (h1 : c ≠ '[') (h2 : c ≠ '(') (h3 : c ≠ ']') (h4 : c ≠ ')') :
    parseBlocksStep title st (n, c) = st :=
  pbs_other title st (n, c) h1 h2 h3 h4

theorem pbs_nobracket (title : List Char) :
    ∀ (l : List (Nat × Char)) (st : BState),
      (∀ ic ∈ l, ic.2 ≠ '[' ∧ ic.2 ≠ '(' ∧ ic.2 ≠ ']' ∧ ic.2 ≠ ')') →
      l.foldl (parseBlocksStep title) st = st := by
  intro l
  induction l with
  | nil =>
    intro st _
    rfl
  | cons ic rest ih =>
    intro st h
    have hic := h ic (List.mem_cons_self _ _)
    rw [List.foldl_cons, pbs_other title st ic hic.1 hic.2.1 hic.2.2.1 hic.2.2.2]
    exact ih st fun p hp => h p (List.mem_cons_of_mem _ hp)

theorem enumFrom_snd_mem : ∀ (l : List Char) (n : Nat) (p : Nat × Char),
    p ∈ l.enumFrom n → p.2 ∈ l := by
  intro l
  induction l with
  | nil =>
    intro n p hp
    cases hp
  | cons c cs ih =>
    intro n p hp
    rw [show List.enumFrom n (c :: cs) = (n, c) :: List.enumFrom (n + 1) cs
      from rfl] at hp
    rcases List.mem_cons.mp hp with h | h
    · rw [h]
      exact List.mem_cons_self _ _
    · exact List.mem_cons_of_mem _ (ih (n + 1) p h)

theorem pbs_open (title : List Char) (st : BState) (i : Nat)
    (hdel : st.cur.delimiter = none) (hlt : st.cur.start < i) :
    parseBlocksStep title st (i, '[') =
      { blocks := st.blocks ++
          [{ st.cur with
              val := (title.drop st.cur.start).take (i - st.cur.start) }],
        cur := { pos := st.posCounter + 1, delimiter := some '[',
                 start := i, val := [] },
        posCounter := st.posCounter + 1, depth := st.depth + 1 } := by
  unfold parseBlocksStep pushBlock
  dsimp only
  rw [if_pos (by decide : (decide (('[' : Char) = '[') ||
      decide (('[' : Char) = '(')) = true)]
  rw [if_pos hdel, if_pos hlt]
  dsimp only
  rw [if_pos rfl]

theorem pbs_close (title : List Char) (st : BState) (i : Nat)
    (hdel : st.cur.delimiter = some '[') (hdepth : st.depth = 1)
    (hlt : st.cur.start < i + 1) :
    parseBlocksStep title st (i, ']') =
      { blocks := st.blocks ++
          [{ st.cur with
              val := (title.drop st.cur.start).take (i + 1 - st.cur.start) }],
        cur := { pos := st.posCounter + 1, delimiter := none,
                 start := i + 1, val := [] },
        posCounter := st.posCounter + 1, depth := 0 } := by
  have hc : ((decide ((']' : Char) = ']') || decide ((']' : Char) = ')')) &&
      decide (st.cur.delimiter = some (openingPair ']'))) = true := by
    rw [show openingPair ']' = '[' from rfl, hdel]
    decide
  unfold parseBlocksStep pushBlock
  rw [if_neg (by decide : ¬ ((decide ((']' : Char) = '[') ||
      decide ((']' : Char) = '(')) = true))]
  rw [if_pos hc]
  dsimp only
  rw [hdepth]
  rw [if_pos (by decide : (1 : Nat) - 1 = 0), if_pos hlt]

theorem take_at {α : Type} (l₁ l₂ : List α) (n : Nat) (h : n = l₁.length) :
    (l₁ ++ l₂).take n = l₁ := by
  rw [h, List.take_left]

theorem drop_at {α : Type} (l₁ l₂ : List α) (n : Nat) (h : n = l₁.length) :
    (l₁ ++ l₂).drop n = l₂ := by
  rw [h, List.drop_left]

/-- The four blocks that `parse_blocks` yields on the normalized synthetic
title: group tag, name segment, quality tag, extension. -/
def c1B0 : Block :=
  { pos := 0, delimiter := some '[', start := 0, val := "[group]".data }

def c1B1 (R : List Char) : Block :=
  { pos := 1, delimiter := none, start := 7, val := ' ' :: (R ++ " - 01 ".data) }

def c1B2 (R : List Char) : Block :=
  { pos := 2, delimiter := some '[', start := 8 + R.length + 6,
    val := "[720p]".data }

def c1B3 (R : List Char) : Block :=
  { pos := 3, delimiter := none, start := 8 + R.length + 11 + 1,
    val := ".mkv".data }

def c1StA : BState :=
  { blocks := [c1B0],
    cur := { pos := 1, delimiter := none, start := 7, val := [] },
    posCounter := 1, depth := 0 }

def c1StF (R : List Char) : BState :=
  { blocks := [c1B0, c1B1 R, c1B2 R],
    cur := { pos := 3, delimiter := none, start := 8 + R.length + 11 + 1,
             val := [] },
    posCounter := 3, depth := 0 }

/-- Segmenting the normalized synthetic title. -/
theorem c1_parseBlocks (R : List Char)
    (hch : ∀ c ∈ R, c = ' ' ∨ (97 ≤ c.toNat ∧ c.toNat ≤ 122)) :
    parseBlocks (c1Norm R) = [c1B0, c1B1 R, c1B2 R, c1B3 R] := by
  have hsplit1 : c1Norm R = "[group] ".data ++ (R ++ " - 01 [720p].mkv".data) := by
    unfold c1Norm
    rw [List.append_assoc]
  have hsplit2 : c1Norm R =
      "[group]".data ++ ((' ' :: (R ++ " - 01 ".data)) ++ "[720p].mkv".data) := by
    unfold c1Norm
    rw [show " - 01 [720p].mkv".data = " - 01 ".data ++ "[720p].mkv".data
      from rfl,
      show "[group] ".data = "[group]".data ++ [' '] from rfl]
    simp [List.append_assoc]
  have hsplit3 : c1Norm R =
      ("[group] ".data ++ R ++ " - 01 ".data) ++
        ("[720p]".data ++ ".mkv".data) := by
    unfold c1Norm
    rw [show " - 01 [720p].mkv".data =
      " - 01 ".data ++ ("[720p]".data ++ ".mkv".data) from rfl]
    simp [List.append_assoc]
  have hsplit4 : c1Norm R =
      ("[group] ".data ++ R ++ " - 01 [720p]".data) ++ ".mkv".data := by
    unfold c1Norm
    rw [show " - 01 [720p].mkv".data = " - 01 [720p]".data ++ ".mkv".data
      from rfl]
    simp [List.append_assoc]
  have hNlen : (c1Norm R).length = 24 + R.length := by
    unfold c1Norm
    rw [List.length_append, List.length_append,
      show ("[group] ".data).length = 8 from rfl,
      show (" - 01 [720p].mkv".data).length = 16 from rfl]
    omega
  have hv1 : ((c1Norm R).drop 7).take (8 + R.length + 6 - 7) =
      ' ' :: (R ++ " - 01 ".data) := by
    rw [show 8 + R.length + 6 - 7 = R.length + 7 by omega, hsplit2,
      drop_at "[group]".data
        ((' ' :: (R ++ " - 01 ".data)) ++ "[720p].mkv".data) 7 (by rfl),
      take_at (' ' :: (R ++ " - 01 ".data)) "[720p].mkv".data (R.length + 7)
        (by
          rw [List.length_cons, List.length_append,
            show (" - 01 ".data).length = 6 from rfl])]
  have hv2 : ((c1Norm R).drop (8 + R.length + 6)).take
      (8 + R.length + 11 + 1 - (8 + R.length + 6)) = "[720p]".data := by
    rw [show 8 + R.length + 11 + 1 - (8 + R.length + 6) = 6 by omega, hsplit3,
      drop_at ("[group] ".data ++ R ++ " - 01 ".data)
        ("[720p]".data ++ ".mkv".data) (8 + R.length + 6)
        (by
          rw [List.length_append, List.length_append,
            show ("[group] ".data).length = 8 from rfl,
            show (" - 01 ".data).length = 6 from rfl])]
    decide
  have hv3 : ((c1Norm R).drop (8 + R.length + 11 + 1)).take
      ((c1Norm R).length - (8 + R.length + 11 + 1)) = ".mkv".data := by
    rw [hNlen, show 24 + R.length - (8 + R.length + 11 + 1) = 4 by omega,
      hsplit4,
      drop_at ("[group] ".data ++ R ++ " - 01 [720p]".data) ".mkv".data
        (8 + R.length + 11 + 1)
        (by
          rw [List.length_append, List.length_append,
            show ("[group] ".data).length = 8 from rfl,
            show (" - 01 [720p]".data).length = 12 from rfl])]
    decide
  have henum : (c1Norm R).enum = List.enumFrom 0 "[group] ".data ++
      (List.enumFrom 8 R ++
        List.enumFrom (8 + R.length) " - 01 [720p].mkv".data) := by
    rw [show (c1Norm R).enum = List.enumFrom 0 (c1Norm R) from rfl, hsplit1,
      List.enumFrom_append]
    congr 1
    rw [show (0 + ("[group] ".data).length) = 8 from rfl, List.enumFrom_append]
  have hRb : ∀ ic ∈ List.enumFrom 8 R,
      ic.2 ≠ '[' ∧ ic.2 ≠ '(' ∧ ic.2 ≠ ']' ∧ ic.2 ≠ ')' := by
    intro ic hic
    have hm := enumFrom_snd_mem R 8 ic hic
    rcases hch ic.2 hm with h | h
    · rw [h]
      exact ⟨by decide, by decide, by decide, by decide⟩
    · refine ⟨?_, ?_, ?_, ?_⟩ <;> intro he <;> rw [he] at h <;>
        exact absurd h (by decide)
  have hA : List.foldl (parseBlocksStep (c1Norm R))
      { blocks := [],
        cur := { pos := 0, delimiter := none, start := 0, val := [] },
        posCounter := 0, depth := 0 } (List.enumFrom 0 "[group] ".data) =
      c1StA := rfl
  have hC0 : List.enumFrom (8 + R.length) " - 01 [720p].mkv".data =
      [(8 + R.length, ' '), (8 + R.length + 1, '-'), (8 + R.length + 2, ' '),
       (8 + R.length + 3, '0'), (8 + R.length + 4, '1'), (8 + R.length + 5, ' '),
       (8 + R.length + 6, '['), (8 + R.length + 7, '7'), (8 + R.length + 8, '2'),
       (8 + R.length + 9, '0'), (8 + R.length + 10, 'p'), (8 + R.length + 11, ']'),
       (8 + R.length + 12, '.'), (8 + R.length + 13, 'm'), (8 + R.length + 14, 'k'),
       (8 + R.length + 15, 'v')] := rfl
  have hC : List.foldl (parseBlocksStep (c1Norm R)) c1StA
      (List.enumFrom (8 + R.length) " - 01 [720p].mkv".data) = c1StF R := by
    rw [hC0]
    rw [List.foldl_cons,
      pbs_other2 _ _ _ ' ' (by decide) (by decide) (by decide) (by decide)]
    rw [List.foldl_cons,
      pbs_other2 _ _ _ '-' (by decide) (by decide) (by decide) (by decide)]
    rw [List.foldl_cons,
      pbs_other2 _ _ _ ' ' (by decide) (by decide) (by decide) (by decide)]
    rw [List.foldl_cons,
      pbs_other2 _ _ _ '0' (by decide) (by decide) (by decide) (by decide)]
    rw [List.foldl_cons,
      pbs_other2 _ _ _ '1' (by decide) (by decide) (by decide) (by decide)]
    rw [List.foldl_cons,
      pbs_other2 _ _ _ ' ' (by decide) (by decide) (by decide) (by decide)]
    rw [List.foldl_cons,
      pbs_open (c1Norm R) c1StA (8 + R.length + 6) rfl
        (by show (7 : Nat) < 8 + R.length + 6; omega)]
    rw [List.foldl_cons,
      pbs_other2 _ _ _ '7' (by decide) (by decide) (by decide) (by decide)]
    rw [List.foldl_cons,
      pbs_other2 _ _ _ '2' (by decide) (by decide) (by decide) (by decide)]
    rw [List.foldl_cons,
      pbs_other2 _ _ _ '0' (by decide) (by decide) (by decide) (by decide)]
    rw [List.foldl_cons,
      pbs_other2 _ _ _ 'p' (by decide) (by decide) (by decide) (by decide)]
    rw [List.foldl_cons,
      pbs_close (c1Norm R) _ (8 + R.length + 11) rfl rfl
        (by show 8 + R.length + 6 < 8 + R.length + 11 + 1; omega)]
    rw [List.foldl_cons,
      pbs_other2 _ _ _ '.' (by decide) (by decide) (by decide) (by decide)]
    rw [List.foldl_cons,
      pbs_other2 _ _ _ 'm' (by decide) (by decide) (by decide) (by decide)]
    rw [List.foldl_cons,
      pbs_other2 _ _ _ 'k' (by decide) (by decide) (by decide) (by decide)]
    rw [List.foldl_cons,
      pbs_other2 _ _ _ 'v' (by decide) (by decide) (by decide) (by decide)]
    rw [List.foldl_nil]
    unfold c1StA
    dsimp only
    rw [hv1, hv2]
    rfl
  have hfold : List.foldl (parseBlocksStep (c1Norm R))
      { blocks := [],
        cur := { pos := 0, delimiter := none, start := 0, val := [] },
        posCounter := 0, depth := 0 } ((c1Norm R).enum) = c1StF R := by
    rw [henum, List.foldl_append, List.foldl_append, hA,
      pbs_nobracket (c1Norm R) (List.enumFrom 8 R) _ hRb, hC]
  unfold parseBlocks
  dsimp only
  rw [hfold]
  show (if (pushBlock (c1Norm R) (c1StF R)
        (c1Norm R).length).blocks.any (fun b => isNotRelevant b.val) = true then
      (pushBlock (c1Norm R) (c1StF R)
        (c1Norm R).length).blocks.filter (fun b => isRelevant b.val)
    else (pushBlock (c1Norm R) (c1StF R) (c1Norm R).length).blocks) = _
  have hpb : pushBlock (c1Norm R) (c1StF R) (c1Norm R).length =
      { blocks := [c1B0, c1B1 R, c1B2 R, c1B3 R],
        cur := { pos := 4, delimiter := none, start := (c1Norm R).length,
                 val := [] },
        posCounter := 4, depth := 0 } := by
    unfold pushBlock c1StF
    rw [if_pos (by
      show 8 + R.length + 11 + 1 < (c1Norm R).length
      rw [hNlen]
      omega)]
    dsimp only
    rw [hv3]
    rfl
  rw [hpb]
  have hrel : isNotRelevant (' ' :: (R ++ " - 01 ".data)) = false := by
    unfold isNotRelevant isRelevant
    rw [List.any_eq_true.mpr ⟨'0',
      List.mem_cons_of_mem _ (List.mem_append_right _ (by decide)),
      by decide⟩]
    rfl
  have hany : List.any [c1B0, c1B1 R, c1B2 R, c1B3 R]
      (fun b => isNotRelevant b.val) = false := by
    simp only [List.any_cons, List.any_nil, c1B0, c1B1, c1B2, c1B3, hrel]
    decide
  show (if List.any [c1B0, c1B1 R, c1B2 R, c1B3 R]
        (fun b => isNotRelevant b.val) = true then
      List.filter (fun b => isRelevant b.val) [c1B0, c1B1 R, c1B2 R, c1B3 R]
    else [c1B0, c1B1 R, c1B2 R, c1B3 R]) = [c1B0, c1B1 R, c1B2 R, c1B3 R]
  rw [hany, if_neg (by decide : ¬ (false = true))]

/-- The name-range of the segmented synthetic title is the single name
block, provided no file-info token occurs in it. -/
theorem c1_findNameRange (R : List Char)
    (hfi : fileInfoFind (' ' :: (R ++ " - 01 ".data)) = none) :
    findNameRange [c1B0, c1B1 R, c1B2 R, c1B3 R] = [c1B1 R] := by
  have hfi1 : fileInfoFind (c1B1 R).val = none := hfi
  have hfi2 : fileInfoFind (c1B2 R).val = some 1 :=
    (by decide : fileInfoFind "[720p]".data = some 1)
  have hloop : findNameRangeLoop [c1B0, c1B1 R, c1B2 R, c1B3 R] [] none =
      ([c1B1 R], none) := by
    show findNameRangeLoop [c1B1 R, c1B2 R, c1B3 R] [] none = ([c1B1 R], none)
    rw [findNameRangeLoop]
    rw [if_neg (fun h => nomatch h), hfi1]
    show findNameRangeLoop [c1B2 R, c1B3 R] [c1B1 R] none = ([c1B1 R], none)
    rw [findNameRangeLoop]
    rw [if_neg (fun h => nomatch h), hfi2]
    rfl
  unfold findNameRange
  dsimp only
  rw [hloop]
  show [{ c1B1 R with val := (c1B1 R).val.take ((c1B1 R).val.length) }] =
    [c1B1 R]
  rw [List.take_length]

theorem letter_ne (c d : Char) (h1 : 97 ≤ c.toNat) (h2 : c.toNat ≤ 122)
    (hd : d.toNat < 97 ∨ 122 < d.toNat) : c ≠ d := by
  intro he
  rw [he] at h1 h2
  omega

theorem letter_not_digit (c : Char) (h1 : 97 ≤ c.toNat) (h2 : c.toNat ≤ 122) :
    isDigitCh c = false := by
  unfold isDigitCh
  rw [decide_eq_false (by omega : ¬ (c.toNat ≤ 57)), Bool.and_false]

theorem letter_not_space (c : Char) (h1 : 97 ≤ c.toNat) (h2 : c.toNat ≤ 122) :
    isSpaceCh c = false := by
  unfold isSpaceCh
  rw [decide_eq_false (letter_ne c ' ' h1 h2 (Or.inl (by decide))),
    decide_eq_false (letter_ne c '\t' h1 h2 (Or.inl (by decide))),
    decide_eq_false (letter_ne c '\n' h1 h2 (Or.inl (by decide))),
    decide_eq_false (letter_ne c '\x0b' h1 h2 (Or.inl (by decide))),
    decide_eq_false (letter_ne c '\x0c' h1 h2 (Or.inl (by decide))),
    decide_eq_false (letter_ne c '\r' h1 h2 (Or.inl (by decide)))]
  rfl

theorem takeWhile_digit_nil (u : List Char)
    (h : ∀ d, u.head? = some d → isDigitCh d = false) :
    u.takeWhile isDigitCh = [] := by
  cases u with
  | nil => rfl
  | cons d ds =>
    rw [List.takeWhile_cons, h d rfl]
    rfl

theorem orElse_none_iff {α : Type} (a : Option α) (f : Unit → Option α) :
    (a.orElse f = none) ↔ (a = none ∧ f () = none) := by
  cases a with
  | none => simp [Option.orElse]
  | some x => simp [Option.orElse]

/-- The `R1` alternation never fires on a string whose first character is
neither a digit, `-` nor `0`, and whose second character is not a digit. -/
theorem r1Alt_none (c : Char) (u2 : List Char)
    (hc : isDigitCh c = false) (hdash : c ≠ '-')
    (hd2 : u2.takeWhile isDigitCh = []) :
    r1Alt (c :: u2) = none := by
  have hzero : c ≠ '0' := by
    intro he
    rw [he] at hc
    exact absurd hc (by decide)
  have htd : takeDigits (c :: u2) = [] := by
    unfold takeDigits
    rw [List.takeWhile_cons, hc]
    rfl
  have hd2' : takeDigits u2 = [] := hd2
  have hb1 : r1B1 (c :: u2) = false := by
    unfold r1B1
    dsimp only
    rw [htd]
    rfl
  have hb3 : r1B3 (c :: u2) = false := by
    unfold r1B3
    dsimp only
    rw [htd]
    rfl
  have hb2 : r1B2 (c :: u2) = false := by
    unfold r1B2
    split
    · next u1 heq => exact absurd (List.cons.inj heq).1 hdash
    · rfl
  have hb4 : r1B4 (c :: u2) = false := by
    unfold r1B4
    split
    · next u1 heq => exact absurd (List.cons.inj heq).1 hzero
    · rfl
  have hb5 : r1B5 (c :: u2) = none := by
    unfold r1B5
    rw [orElse_none_iff]
    constructor
    · split
      · next u1 heq =>
        obtain ⟨h1, h2⟩ := List.cons.inj heq
        dsimp only
        rw [← h2, hd2']
        rfl
      · rfl
    · dsimp only
      rw [orElse_none_iff]
      constructor
      · split
        · next u1 heq => exact absurd (List.cons.inj heq).1 hdash
        · rfl
      · dsimp only
        rw [hc, Bool.false_and]
        rfl
  unfold r1Alt
  rw [hb1, hb2, hb3, hb4]
  exact hb5

theorem startsW_take : ∀ (l p : List Char), startsW l p = true →
    l.take p.length = p := by
  intro l p
  induction p generalizing l with
  | nil =>
    intro _
    rfl
  | cons pc ps ih =>
    cases l with
    | nil =>
      intro h
      simp [startsW] at h
    | cons lc ls =>
      intro h
      have h2 : (decide (lc = pc) && startsW ls ps) = true := h
      rw [Bool.and_eq_true, decide_eq_true_eq] at h2
      rw [List.length_cons, List.take_succ_cons, h2.1, ih ls h2.2]

theorem drop_append_le {α : Type} (l₁ l₂ : List α) (k : Nat)
    (h : k ≤ l₁.length) :
    (l₁ ++ l₂).drop k = l₁.drop k ++ l₂ := by
  conv_lhs => rw [← List.take_append_drop k l₁]
  rw [List.append_assoc, drop_at _ _ k (by rw [List.length_take]; omega)]

theorem getLastD_mem {α : Type} (l : List α) (d : α) (h : l ≠ []) :
    l.getLastD d ∈ l := by
  rw [List.getLastD_eq_getLast?, List.getLast?_eq_getLast l h]
  exact List.getLast_mem h

/-- `R1`'s alternation fails on a word-start suffix of the romaji followed
by the episode tail. -/
theorem r1Alt_word (S : List Char)
    (hch : ∀ c ∈ S, c = ' ' ∨ (97 ≤ c.toNat ∧ c.toNat ≤ 122))
    (c : Char) (cs : List Char) (hS : S = c :: cs)
    (hc : 97 ≤ c.toNat ∧ c.toNat ≤ 122) :
    r1Alt (S ++ " - 01 ".data) = none := by
  subst hS
  rw [List.cons_append]
  refine r1Alt_none c (cs ++ " - 01 ".data) (letter_not_digit c hc.1 hc.2)
    (letter_ne c '-' hc.1 hc.2 (Or.inl (by decide))) ?_
  apply takeWhile_digit_nil
  intro d hd
  cases cs with
  | nil =>
    rw [List.nil_append,
      show ((" - 01 ".data).head? : Option Char) = some ' ' from rfl] at hd
    rw [show d = ' ' from (Option.some.inj hd).symm]
    decide
  | cons c2 cs2 =>
    rw [List.cons_append, List.head?_cons] at hd
    rw [show d = c2 from (Option.some.inj hd).symm]
    rcases hch c2 (List.mem_cons_of_mem _ (List.mem_cons_self _ _)) with h | h
    · rw [h]
      decide
    · exact letter_not_digit c2 h.1 h.2

/-- Dropping into the middle of a romaji word leaves a letter-headed
string on which `R1`'s alternation fails, without any spaces to skip. -/
theorem r1Alt_mid (w G : List Char) (k : Nat) (hk : k < w.length)
    (hwl : ∀ c ∈ w, 97 ≤ c.toNat ∧ c.toNat ≤ 122)
    (hGh : G.head? = some ' ') :
    dropSpaces ((w ++ G).drop k) = (w ++ G).drop k ∧
      r1Alt ((w ++ G).drop k) = none := by
  have hdrop : (w ++ G).drop k = w.drop k ++ G :=
    drop_append_le w G k (le_of_lt hk)
  have hwk := hwl (w[k]) (List.getElem_mem _)
  have hcons : w.drop k = w[k] :: w.drop (k + 1) :=
    List.drop_eq_getElem_cons hk
  have hsnd : (w.drop (k + 1) ++ G).takeWhile isDigitCh = [] := by
    apply takeWhile_digit_nil
    intro d hd
    rcases Nat.lt_or_ge (k + 1) w.length with hlt | hge
    · rw [List.drop_eq_getElem_cons hlt, List.cons_append,
        List.head?_cons] at hd
      have hw2 := hwl (w[k + 1]) (List.getElem_mem _)
      rw [show d = w[k + 1] from (Option.some.inj hd).symm]
      exact letter_not_digit _ hw2.1 hw2.2
    · rw [List.drop_eq_nil_of_le hge, List.nil_append, hGh] at hd
      rw [show d = ' ' from (Option.some.inj hd).symm]
      decide
  constructor
  · rw [hdrop, hcons, List.cons_append]
    unfold dropSpaces
    rw [List.dropWhile_cons_of_neg (by
      rw [letter_not_space _ hwk.1 hwk.2]
      exact Bool.false_ne_true)]
  · rw [hdrop, hcons, List.cons_append]
    exact r1Alt_none _ _ (letter_not_digit _ hwk.1 hwk.2)
      (letter_ne _ '-' hwk.1 hwk.2 (Or.inl (by decide))) hsnd

/-- A keyword with no spaces cannot start strictly past the first word of
the suffix. -/
theorem kw_not_longer (w G kw : List Char)
    (hwlt : w.length < kw.length) (hGh : G.head? = some ' ')
    (hkw_sp : ∀ c ∈ kw, c ≠ ' ')
    (htake : (w ++ G).take kw.length = kw) : False := by
  cases G with
  | nil => cases hGh
  | cons g gs =>
    have hg : g = ' ' := by
      rw [List.head?_cons] at hGh
      exact Option.some.inj hGh
    have hlen : w.length < (w ++ g :: gs).length := by
      rw [List.length_append, List.length_cons]
      omega
    have h1 : (w ++ g :: gs)[w.length] = ' ' := by
      rw [List.getElem_append_right (le_refl w.length)]
      simp only [Nat.sub_self]
      exact hg
    have hlt2 : w.length < (List.take kw.length (w ++ g :: gs)).length := by
      rw [htake]
      exact hwlt
    have h2 : (List.take kw.length (w ++ g :: gs))[w.length] = ' ' := by
      rw [List.getElem_take]
      exact h1
    have h3 : (' ' : Char) ∈ List.take kw.length (w ++ g :: gs) := by
      rw [← h2]
      exact List.getElem_mem _
    rw [htake] at h3
    exact hkw_sp ' ' h3 rfl

/-- One `ep`-keyword candidate of `R1` fails on a word-start suffix: the
keyword either runs past the first word (impossible: it has no space),
stops inside it (letter-headed continuation), or consumes it exactly
(handled by the caller). -/
theorem kw_candidate (w G kw : List Char)
    (hwl : ∀ c ∈ w, 97 ≤ c.toNat ∧ c.toNat ≤ 122)
    (hGh : G.head? = some ' ')
    (hksp : ∀ c ∈ kw, c ≠ ' ')
    (hexact : kw = w → r1Alt (dropSpaces ((w ++ G).drop w.length)) = none)
    (hg : startsW (w ++ G) kw = true) :
    r1Alt (dropSpaces ((w ++ G).drop kw.length)) = none := by
  have htake := startsW_take (w ++ G) kw hg
  rcases Nat.lt_or_ge w.length kw.length with hlt | hge
  · exact (kw_not_longer w G kw hlt hGh hksp htake).elim
  · rcases Nat.eq_or_lt_of_le hge with heq | hlt2
    · have hkww : kw = w := by
        rw [← htake, List.take_append_of_le_length (le_of_eq heq), heq,
          List.take_length]
      rw [show kw.length = w.length from heq]
      exact hexact hkww
    · rw [(r1Alt_mid w G kw.length hlt2 hwl hGh).1]
      exact (r1Alt_mid w G kw.length hlt2 hwl hGh).2

/-- `R1`'s body (optional episode keyword, then the alternation) never
fires on a word-start suffix of the romaji followed by the episode tail,
provided the last word is not an episode keyword. -/
theorem r1Body_word (ws2 : List (List Char)) (hne : ws2 ≠ [])
    (hw : ∀ w ∈ ws2, lowWord w)
    (hL1 : ws2.getLastD [] ≠ "ep".data)
    (hL2 : ws2.getLastD [] ≠ "episode".data)
    (hL3 : ws2.getLastD [] ≠ "episodes".data) :
    r1Body (joinW ws2 ++ " - 01 ".data) = none := by
  obtain ⟨w, rest, rfl⟩ : ∃ w rest, ws2 = w :: rest := by
    cases ws2 with
    | nil => exact absurd rfl hne
    | cons a b => exact ⟨a, b, rfl⟩
  have hwl : ∀ c ∈ w, 97 ≤ c.toNat ∧ c.toNat ≤ 122 :=
    (hw w (List.mem_cons_self _ _)).2
  have hstruct : ∃ G, joinW (w :: rest) ++ " - 01 ".data = w ++ G ∧
      G.head? = some ' ' ∧
      (∀ kw : List Char, kw = w → (w :: rest).getLastD [] ≠ kw →
        r1Alt (dropSpaces ((w ++ G).drop w.length)) = none) := by
    cases rest with
    | nil =>
      refine ⟨" - 01 ".data, rfl, rfl, ?_⟩
      intro kw hkww hlast
      exact (hlast (by rw [hkww]; rfl)).elim
    | cons x xs =>
      refine ⟨' ' :: (joinW (x :: xs) ++ " - 01 ".data), ?_, rfl, ?_⟩
      · rw [joinW_cons w (x :: xs) (by simp), List.append_assoc]
        rfl
      · intro kw _ _
        rw [drop_at w (' ' :: (joinW (x :: xs) ++ " - 01 ".data))
          w.length rfl]
        obtain ⟨c, cs, hJ, hc1, hc2⟩ := joinW_head (x :: xs) (by simp)
          (fun v hv => hw v (List.mem_cons_of_mem _ hv))
        unfold dropSpaces
        rw [List.dropWhile_cons_of_pos (by decide), hJ, List.cons_append,
          List.dropWhile_cons_of_neg (by
            rw [letter_not_space c hc1 hc2]
            exact Bool.false_ne_true)]
        exact r1Alt_word (c :: cs)
          (fun ch hch2 => joinW_chars (x :: xs)
            (fun v hv => hw v (List.mem_cons_of_mem _ hv)) ch (hJ ▸ hch2))
          c cs rfl ⟨hc1, hc2⟩
  obtain ⟨G, hu, hGh, hex⟩ := hstruct
  have hdot : (w :: rest).getLastD [] ≠ "ep.".data := by
    intro hwe
    have hmem := getLastD_mem (w :: rest) [] (by simp)
    have hlw := hw _ hmem
    rw [hwe] at hlw
    exact absurd (hlw.2 '.' (by decide)) (by decide)
  unfold r1Body
  rw [List.findSome?_eq_none_iff]
  intro x hx
  unfold epCandidates at hx
  rw [hu] at hx
  rcases List.mem_append.mp hx with hx4 | hxu
  · rcases List.mem_append.mp hx4 with hx3 | h
    · rcases List.mem_append.mp hx3 with hx2 | h
      · rcases List.mem_append.mp hx2 with h | h
        · by_cases hg : startsW (w ++ G) "ep.".data = true
          · rw [if_pos hg] at h
            rcases List.mem_singleton.mp h with rfl
            exact kw_candidate w G "ep.".data hwl hGh (by decide)
              (fun hkww => hex "ep.".data hkww hdot) hg
          · rw [if_neg hg] at h
            cases h
        · by_cases hg : startsW (w ++ G) "episodes".data = true
          · rw [if_pos hg] at h
            rcases List.mem_singleton.mp h with rfl
            exact kw_candidate w G "episodes".data hwl hGh (by decide)
              (fun hkww => hex "episodes".data hkww hL3) hg
          · rw [if_neg hg] at h
            cases h
      · by_cases hg : startsW (w ++ G) "episode".data = true
        · rw [if_pos hg] at h
          rcases List.mem_singleton.mp h with rfl
          exact kw_candidate w G "episode".data hwl hGh (by decide)
            (fun hkww => hex "episode".data hkww hL2) hg
        · rw [if_neg hg] at h
          cases h
    · by_cases hg : startsW (w ++ G) "ep".data = true
      · rw [if_pos hg] at h
        rcases List.mem_singleton.mp h with rfl
        exact kw_candidate w G "ep".data hwl hGh (by decide)
          (fun hkww => hex "ep".data hkww hL1) hg
      · rw [if_neg hg] at h
        cases h
  · rcases List.mem_singleton.mp hxu with rfl
    rw [← hu]
    obtain ⟨c, cs, hJ, hc1, hc2⟩ := joinW_head (w :: rest) (by simp) hw
    exact r1Alt_word (joinW (w :: rest))
      (joinW_chars (w :: rest) hw) c cs hJ ⟨hc1, hc2⟩

/-- No `R1` match starts inside the name part of the block value. -/
theorem c1_r1MatchAt_none (ws : List (List Char)) (hne : ws ≠ [])
    (hw : ∀ w ∈ ws, lowWord w)
    (hL1 : ws.getLastD [] ≠ "ep".data)
    (hL2 : ws.getLastD [] ≠ "episode".data)
    (hL3 : ws.getLastD [] ≠ "episodes".data) :
    ∀ p, p ≤ (joinW ws).length →
      r1MatchAt (' ' :: (joinW ws ++ " - 01 ".data)) p = none := by
  intro p hp
  cases p with
  | zero =>
    unfold r1MatchAt
    rw [if_pos rfl]
    have hB : r1Body (' ' :: (joinW ws ++ " - 01 ".data)) = none := by
      unfold r1Body
      rw [List.findSome?_eq_none_iff]
      intro x hx
      have hsw : ∀ kw : List Char, kw.headD ' ' ≠ ' ' →
          startsW (' ' :: (joinW ws ++ " - 01 ".data)) kw = true → False := by
        intro kw hkh hg
        cases kw with
        | nil => exact hkh rfl
        | cons k0 ks =>
          have h2 : (decide ((' ' : Char) = k0) &&
              startsW (joinW ws ++ " - 01 ".data) ks) = true := hg
          rw [Bool.and_eq_true, decide_eq_true_eq] at h2
          exact hkh (by rw [← h2.1]; rfl)
      unfold epCandidates at hx
      rcases List.mem_append.mp hx with hx4 | hxu
      · rcases List.mem_append.mp hx4 with hx3 | h
        · rcases List.mem_append.mp hx3 with hx2 | h
          · rcases List.mem_append.mp hx2 with h | h
            · by_cases hg : startsW (' ' :: (joinW ws ++ " - 01 ".data))
                  "ep.".data = true
              · exact (hsw "ep.".data (by decide) hg).elim
              · rw [if_neg hg] at h
                cases h
            · by_cases hg : startsW (' ' :: (joinW ws ++ " - 01 ".data))
                  "episodes".data = true
              · exact (hsw "episodes".data (by decide) hg).elim
              · rw [if_neg hg] at h
                cases h
          · by_cases hg : startsW (' ' :: (joinW ws ++ " - 01 ".data))
                "episode".data = true
            · exact (hsw "episode".data (by decide) hg).elim
            · rw [if_neg hg] at h
              cases h
        · by_cases hg : startsW (' ' :: (joinW ws ++ " - 01 ".data))
              "ep".data = true
          · exact (hsw "ep".data (by decide) hg).elim
          · rw [if_neg hg] at h
            cases h
      · rcases List.mem_singleton.mp hxu with rfl
        apply r1Alt_none ' ' _ (by decide) (by decide)
        apply takeWhile_digit_nil
        intro d hd
        obtain ⟨c, cs, hJ, hc1, hc2⟩ := joinW_head ws hne hw
        rw [hJ, List.cons_append, List.head?_cons] at hd
        rw [show d = c from (Option.some.inj hd).symm]
        exact letter_not_digit c hc1 hc2
    rw [hB]
    show (if !isAlnumLower ' ' then r1Body (joinW ws ++ " - 01 ".data)
      else none) = none
    rw [if_pos (by decide : ((!isAlnumLower ' ') = true))]
    exact r1Body_word ws hne hw hL1 hL2 hL3
  | succ q =>
    unfold r1MatchAt
    rw [if_neg (by omega : ¬ (q + 1 = 0))]
    have hq : q < (joinW ws).length := by omega
    have hdq : (joinW ws ++ " - 01 ".data).drop q =
        (joinW ws)[q] :: ((joinW ws).drop (q + 1) ++ " - 01 ".data) := by
      rw [drop_append_le _ _ q (le_of_lt hq), List.drop_eq_getElem_cons hq,
        List.cons_append]
    rw [show List.drop (q + 1) (' ' :: (joinW ws ++ " - 01 ".data)) =
      (joinW ws ++ " - 01 ".data).drop q from rfl, hdq]
    rcases joinW_chars ws hw ((joinW ws)[q]) (List.getElem_mem _) with
      hsp | hlet
    · have hspD : (joinW ws).getD q 'x' = ' ' := by
        rw [List.getD_eq_getElem _ _ hq, hsp]
      obtain ⟨ws2, hne2, hmem2, hlast2, hdrop2⟩ :=
        joinW_space_drop ws hw q hq hspD
      rw [hsp, hdrop2]
      show (if !isAlnumLower ' ' then r1Body (joinW ws2 ++ " - 01 ".data)
        else none) = none
      rw [if_pos (by decide : ((!isAlnumLower ' ') = true))]
      exact r1Body_word ws2 hne2 (fun v hv => hw v (hmem2 v hv))
        (by rw [hlast2]; exact hL1) (by rw [hlast2]; exact hL2)
        (by rw [hlast2]; exact hL3)
    · have hal : isAlnumLower ((joinW ws)[q]) = true := by
        unfold isAlnumLower
        rw [decide_eq_true hlet.1, decide_eq_true hlet.2]
        rfl
      show (if !isAlnumLower ((joinW ws)[q]) then
        r1Body ((joinW ws).drop (q + 1) ++ " - 01 ".data) else none) = none
      rw [hal]
      rfl

/-- `R1` matches at the space before the episode dash. -/
theorem c1_r1MatchAt_hit (ws : List (List Char)) :
    r1MatchAt (' ' :: (joinW ws ++ " - 01 ".data)) ((joinW ws).length + 1) =
      some (none, false) := by
  unfold r1MatchAt
  rw [if_neg (by omega : ¬ ((joinW ws).length + 1 = 0))]
  rw [show List.drop ((joinW ws).length + 1)
      (' ' :: (joinW ws ++ " - 01 ".data)) = " - 01 ".data from by
    show (joinW ws ++ " - 01 ".data).drop (joinW ws).length = " - 01 ".data
    exact List.drop_left _ _]
  decide

theorem r1SearchGo_skip (s : List Char) (m : Nat)
    (cap : Option (List Char) × Bool)
    (hm : r1MatchAt s m = some cap)
    (hnone : ∀ q, q < m → r1MatchAt s q = none) :
    ∀ fuel p, p ≤ m → m - p < fuel → r1SearchGo s p fuel = some (m, cap) := by
  intro fuel
  induction fuel with
  | zero =>
    intro p _ h
    omega
  | succ f ih =>
    intro p hpm hfuel
    unfold r1SearchGo
    rcases Nat.eq_or_lt_of_le hpm with heq | hlt
    · rw [heq, hm]
    · rw [hnone p hlt]
      exact ih (p + 1) hlt (by omega)

/-- The leftmost `R1` match of the name-block value starts right after the
romaji. -/
theorem c1_r1Find (ws : List (List Char)) (hne : ws ≠ [])
    (hw : ∀ w ∈ ws, lowWord w)
    (hL1 : ws.getLastD [] ≠ "ep".data)
    (hL2 : ws.getLastD [] ≠ "episode".data)
    (hL3 : ws.getLastD [] ≠ "episodes".data) :
    r1Find (' ' :: (joinW ws ++ " - 01 ".data)) =
      some ((joinW ws).length + 1, none, false) := by
  unfold r1Find
  apply r1SearchGo_skip _ _ _ (c1_r1MatchAt_hit ws)
    (fun q hq => c1_r1MatchAt_none ws hne hw hL1 hL2 hL3 q (by omega))
  · omega
  · rw [List.length_cons, List.length_append,
      show (" - 01 ".data).length = 6 from rfl]
    omega

/-- The episode detector on the name block: offset just past the romaji,
no season capture, no plain-digits flag. -/
theorem c1_findEpisode (ws : List (List Char)) (hne : ws ≠ [])
    (hw : ∀ w ∈ ws, lowWord w)
    (hL1 : ws.getLastD [] ≠ "ep".data)
    (hL2 : ws.getLastD [] ≠ "episode".data)
    (hL3 : ws.getLastD [] ≠ "episodes".data) :
    findEpisode [c1B1 (joinW ws)] =
      Except.ok (some (0, (joinW ws).length + 1), none, false) := by
  have hbe : blockEpisode (c1B1 (joinW ws)) =
      some ((joinW ws).length + 1, none, false) := by
    unfold blockEpisode
    rw [show (c1B1 (joinW ws)).val = ' ' :: (joinW ws ++ " - 01 ".data)
      from rfl, c1_r1Find ws hne hw hL1 hL2 hL3]
  unfold findEpisode
  rw [show ([c1B1 (joinW ws)] : List Block).enum.reverse =
    [(0, c1B1 (joinW ws))] from rfl]
  unfold findEpisodeGo
  dsimp only
  rw [hbe]

/-- Truncating the name block at the episode offset keeps exactly the
space-prefixed romaji. -/
theorem c1_truncate (ws : List (List Char)) (hne : ws ≠ [])
    (hw : ∀ w ∈ ws, lowWord w) :
    truncateBlocks [c1B1 (joinW ws)] (some (0, (joinW ws).length + 1)) =
      [{ c1B1 (joinW ws) with val := ' ' :: joinW ws }] := by
  have htk : (c1B1 (joinW ws)).val.take ((joinW ws).length + 1) =
      ' ' :: joinW ws := by
    show (' ' :: (joinW ws ++ " - 01 ".data)).take ((joinW ws).length + 1) =
      ' ' :: joinW ws
    rw [List.take_succ_cons, List.take_left]
  have hrel : isNotRelevant (' ' :: joinW ws) = false := by
    obtain ⟨c, cs, hJ, hc1, hc2⟩ := joinW_head ws hne hw
    unfold isNotRelevant isRelevant
    rw [List.any_eq_true.mpr ⟨c,
      by rw [hJ]; exact List.mem_cons_of_mem _ (List.mem_cons_self _ _),
      by
        unfold isAlnumLower
        rw [decide_eq_true hc1, decide_eq_true hc2]
        rfl⟩]
    rfl
  unfold truncateBlocks
  dsimp only
  show (if isNotRelevant ((c1B1 (joinW ws)).val.take
        ((joinW ws).length + 1)) = true
      then ([c1B1 (joinW ws)] : List Block).take 0
      else ([c1B1 (joinW ws)] : List Block).take 0 ++
        [{ c1B1 (joinW ws) with
            val := (c1B1 (joinW ws)).val.take ((joinW ws).length + 1) }]) =
    [{ c1B1 (joinW ws) with val := ' ' :: joinW ws }]
  rw [htk, hrel, if_neg (by decide : ¬ (false = true))]
  rfl

/-- The pre-episode string handed to metadata extraction. -/
theorem c1_blocksToString (ws : List (List Char)) :
    blocksToString (c1Norm (joinW ws))
      [{ c1B1 (joinW ws) with val := ' ' :: joinW ws }] = ' ' :: joinW ws := by
  have hd7 : (c1Norm (joinW ws)).drop 7 =
      ' ' :: (joinW ws ++ " - 01 [720p].mkv".data) := by
    rw [show c1Norm (joinW ws) = "[group]".data ++
        (' ' :: (joinW ws ++ " - 01 [720p].mkv".data)) from by
      unfold c1Norm
      rw [show "[group] ".data = "[group]".data ++ [' '] from rfl]
      simp [List.append_assoc]]
    exact drop_at _ _ 7 rfl
  unfold blocksToString
  show ((c1Norm (joinW ws)).drop 7).take
      (7 + (' ' :: joinW ws).length - 7) = ' ' :: joinW ws
  rw [show 7 + (' ' :: joinW ws).length - 7 = (joinW ws).length + 1 from by
    rw [List.length_cons]
    omega]
  rw [hd7, List.take_succ_cons, List.take_left]

theorem no_paren_findYear (s : List Char) (hnp : ('(' : Char) ∉ s) :
    findYear s = none := by
  have hm : ∀ p, yearMatchAt s p = none := by
    intro p
    unfold yearMatchAt
    split
    · next d1 d2 d3 d4 rest heq =>
      exfalso
      apply hnp
      apply List.mem_of_mem_drop (n := p)
      rw [heq]
      exact List.mem_cons_self _ _
    · rfl
  have hgo : ∀ fuel p, yearSearchGo s p fuel = none := by
    intro fuel
    induction fuel with
    | zero =>
      intro p
      rfl
    | succ f ih =>
      intro p
      unfold yearSearchGo
      rw [hm p]
      exact ih (p + 1)
  unfold findYear
  exact hgo _ 0

theorem no_paren_findFormat (s : List Char) (hnp : ('(' : Char) ∉ s) :
    findFormat s = none := by
  have hwv : ∀ (w : List Char) (f : Format) (p : Nat),
      formatWord (s.drop p) w f = none := by
    intro w f p
    unfold formatWord
    rw [if_neg]
    intro hg
    have htake := startsW_take _ _ hg
    apply hnp
    apply List.mem_of_mem_drop (n := p)
    apply List.mem_of_mem_take (n := ('(' :: w ++ [')']).length)
    rw [htake]
    exact List.mem_append_left _ (List.mem_cons_self _ _)
  have hmat : ∀ p, formatMatchAt s p = none := by
    intro p
    unfold formatMatchAt
    dsimp only
    rw [hwv "tv".data Format.tv p, hwv "movie".data Format.movie p,
      hwv "ova".data Format.ova p, hwv "ona".data Format.ona p,
      hwv "oad".data Format.ova p]
    rfl
  have hgo : ∀ fuel p, formatSearchGo s p fuel = none := by
    intro fuel
    induction fuel with
    | zero =>
      intro p
      rfl
    | succ f ih =>
      intro p
      unfold formatSearchGo
      rw [hmat p]
      exact ih (p + 1)
  unfold findFormat
  exact hgo _ 0

theorem c1_pre_no_paren (ws : List (List Char))
    (hw : ∀ w ∈ ws, lowWord w) : ('(' : Char) ∉ ' ' :: joinW ws := by
  intro hmem
  rcases List.mem_cons.mp hmem with h | h
  · cases h
  · rcases joinW_chars ws hw '(' h with h2 | h2
    · cases h2
    · exact absurd h2 (by decide)

/-- Metadata extraction fixes no season, drains nothing: the pre-episode
string comes back unchanged. -/
theorem c1_metadata (ws : List (List Char)) (hw : ∀ w ∈ ws, lowWord w)
    (hse1 : findSeason (' ' :: joinW ws) = Except.ok none)
    (hseN : findSeason (c1Norm (joinW ws)) = Except.ok none) :
    extractTitleMetadata (c1Norm (joinW ws)) (' ' :: joinW ws) =
      Except.ok ((none,
        (findYear (c1Norm (joinW ws))).map (fun x => x.2),
        (findFormat (c1Norm (joinW ws))).map (fun x => x.2)),
        ' ' :: joinW ws) := by
  have hnp := c1_pre_no_paren ws hw
  have hsea : extractSeason (c1Norm (joinW ws)) (' ' :: joinW ws) =
      Except.ok (none, ' ' :: joinW ws) := by
    unfold extractSeason
    rw [hse1, hseN]
    rfl
  have hyr : extractYearM (c1Norm (joinW ws)) (' ' :: joinW ws) =
      ((findYear (c1Norm (joinW ws))).map (fun x => x.2),
        ' ' :: joinW ws) := by
    unfold extractYearM
    rw [no_paren_findYear _ hnp]
  have hfo : extractFormatM (c1Norm (joinW ws)) (' ' :: joinW ws) =
      ((findFormat (c1Norm (joinW ws))).map (fun x => x.2),
        ' ' :: joinW ws) := by
    unfold extractFormatM
    rw [no_paren_findFormat _ hnp]
  unfold extractTitleMetadata
  rw [hsea]
  dsimp only
  rw [hyr]
  dsimp only
  rw [hfo]

/-- The exact-map search succeeds directly when the romaji's search key is
bound to exactly one show. -/
theorem c1_searchShow (db : ShowDb) (ws : List (List Char)) (l : List Nat)
    (i : Nat) (md : Option Nat × Option Nat × Option Format)
    (hmap : mapFind db.map (searchName (joinW ws)) = some l)
    (huniq : uniqueList l = [i]) :
    searchShow db (' ' :: joinW ws) md = Except.ok i := by
  have hkey : searchName (' ' :: joinW ws) = searchName (joinW ws) := by
    unfold searchName
    rw [List.filter_cons]
    rw [show (isAlnumLower ' ') = false from rfl]
    rfl
  unfold searchShow
  dsimp only
  rw [hkey, hmap]
  dsimp only
  rw [show uniqueList l = [i] from huniq]
  rfl

theorem c1_handlePre (db : ShowDb) (ws : List (List Char)) (l : List Nat)
    (i : Nat) (hw : ∀ w ∈ ws, lowWord w)
    (hse1 : findSeason (' ' :: joinW ws) = Except.ok none)
    (hseN : findSeason (c1Norm (joinW ws)) = Except.ok none)
    (hmap : mapFind db.map (searchName (joinW ws)) = some l)
    (huniq : uniqueList l = [i]) :
    handlePre db (c1Norm (joinW ws))
      [{ c1B1 (joinW ws) with val := ' ' :: joinW ws }] none =
      Except.ok (Except.ok i) := by
  unfold handlePre
  rw [if_neg (fun h => nomatch h)]
  rw [c1_blocksToString ws, c1_metadata ws hw hse1 hseN]
  dsimp only
  rw [c1_searchShow db ws l i _ hmap huniq]

/-- C1 (amended): take a romaji given as a non-empty list of non-empty
lowercase-letter words joined by single spaces, whose last word is not an
episode keyword (`ep`, `episode`, `episodes`), in which the `FILE_INFO`
pattern does not match, and on which (and on the full synthetic title) the
season pattern does not match.  If the exact map of the database binds the
romaji's search key to a list of show indices that deduplicates to exactly
the one show `i`, then `find_show` on `"[Group] {romaji} - 01 [720p].mkv"`
resolves to that show.  (The original claim's hypothesis — the key is not a
strict prefix of another show's key — neither rules out equal keys nor is
needed for the exact-map path; `c1_counterexample` refutes the original.) -/
theorem c1_find_show_round_trip (db : ShowDb) (ws : List (List Char))
    (l : List Nat) (i : Nat)
    (hne : ws ≠ [])
    (hw : ∀ w ∈ ws, lowWord w)
    (hL1 : ws.getLastD [] ≠ "ep".data)
    (hL2 : ws.getLastD [] ≠ "episode".data)
    (hL3 : ws.getLastD [] ≠ "episodes".data)
    (hfi : fileInfoFind (' ' :: (joinW ws ++ " - 01 ".data)) = none)
    (hse1 : findSeason (' ' :: joinW ws) = Except.ok none)
    (hseN : findSeason (c1Norm (joinW ws)) = Except.ok none)
    (hmap : mapFind db.map (searchName (joinW ws)) = some l)
    (huniq : uniqueList l = [i]) :
    findShow db (c1Title (joinW ws)) = Except.ok (Except.ok i) := by
  unfold findShow
  dsimp only
  rw [c1_norm_eq ws hne hw, c1_parseBlocks (joinW ws) (joinW_chars ws hw),
    c1_findNameRange (joinW ws) hfi]
  rw [if_neg (fun h => nomatch h)]
  rw [c1_findEpisode ws hne hw hL1 hL2 hL3]
  dsimp only
  rw [c1_truncate ws hne hw]
  rw [c1_handlePre db ws l i hw hse1 hseN hmap huniq]

unseal findSeason findYear findFormat seasonCaptures in
/-- Witness for `c1_find_show_round_trip`: database built from the single
show named `"nichijou"`, romaji `"nichijou"`. -/
theorem c1_find_show_round_trip_witness :
    (∀ w ∈ [['n', 'i', 'c', 'h', 'i', 'j', 'o', 'u']], lowWord w) ∧
      fileInfoFind (' ' :: (joinW [['n', 'i', 'c', 'h', 'i', 'j', 'o', 'u']] ++
        " - 01 ".data)) = none ∧
      findSeason (' ' :: joinW [['n', 'i', 'c', 'h', 'i', 'j', 'o', 'u']]) =
        Except.ok none ∧
      mapFind (dbOr (buildDb [defaultShow] [(0, ["nichijou".data])])).map
        (searchName (joinW [['n', 'i', 'c', 'h', 'i', 'j', 'o', 'u']])) =
        some [0] ∧
      findShow (dbOr (buildDb [defaultShow] [(0, ["nichijou".data])]))
        (c1Title (joinW [['n', 'i', 'c', 'h', 'i', 'j', 'o', 'u']])) =
        Except.ok (Except.ok 0) :=
  ⟨by decide, by decide, by decide, by decide,
    c1_find_show_round_trip (dbOr (buildDb [defaultShow]
        [(0, ["nichijou".data])]))
      [['n', 'i', 'c', 'h', 'i', 'j', 'o', 'u']] [0] 0
      (by decide) (by decide) (by decide) (by decide) (by decide)
      (by decide) (by decide) (by decide) (by decide) (by decide)⟩

/-! ## `nyaa.rs`: the torrent ingest loop (claim C9)

`load_torrents_` (nyaa.rs:55-108) is modelled on the page level: a scrape
run is a function from page number to the list of `nyaa_id`s scraped from
that page (the other record fields play no role in the loop's control
flow).  `nyaa_id` is an `i64`; ids parsed from the listing are
non-negative, but the model carries the full `i64` semantics of
`saturating_add`. -/

def i64Max : Int := 9223372036854775807

/-- `nyaa_id.saturating_add(74)` on `i64` (no underflow is possible when
adding a positive constant). -/
def satAdd74 (n : Int) : Int :=
  min (n + 74) i64Max

/-- The page loop of `load_torrents_` (nyaa.rs:60-74): fetch page `i`,
extend the collection, and stop once the page contains a record with
`nyaa_id.saturating_add(74) <= max_nyaa_id`.  Returns the collected ids in
fetch order and the number of pages fetched; the second argument counts
the remaining iterations of `1..=100`. -/
def loadTorrentsGo (pages : Nat → List Int) (maxId : Int) (i : Nat) :
    Nat → List Int × Nat
  | 0 => ([], 0)
  | rem + 1 =>
    let new := pages i
    let saw := new.any fun t => satAdd74 t ≤ maxId
    if saw then (new, 1)
    else
      let r := loadTorrentsGo pages maxId (i + 1) rem
      (new ++ r.1, 1 + r.2)

/-- The collection phase of `load_torrents_`: pages `1..=100`. -/
def loadTorrents (pages : Nat → List Int) (maxId : Int) : List Int × Nat :=
  loadTorrentsGo pages maxId 1 100

/-- The insertion order of `load_torrents_` (nyaa.rs:83-86):
`torrents.sort_by_key(|t| t.nyaa_id)` (a stable sort) before the insert
loop. -/
def insertOrder (pages : Nat → List Int) (maxId : Int) : List Int :=
  (loadTorrents pages maxId).1.insertionSort fun a b => a ≤ b

/-- Modelled from the spec's words for the comparison: the same loop with
the stop condition read as mathematical `nyaa_id + 74 <= max`, without
`i64` saturation. -/
def loadTorrentsClaimGo (pages : Nat → List Int) (maxId : Int) (i : Nat) :
    Nat → List Int × Nat
  | 0 => ([], 0)
  | rem + 1 =>
    let new := pages i
    let saw := new.any fun t => t + 74 ≤ maxId
    if saw then (new, 1)
    else
      let r := loadTorrentsClaimGo pages maxId (i + 1) rem
      (new ++ r.1, 1 + r.2)

def loadTorrentsClaim (pages : Nat → List Int) (maxId : Int) : List Int × Nat :=
  loadTorrentsClaimGo pages maxId 1 100

/-- C9 (counterexample): with `max_ingested_torrent_id = i64::MAX` and page
1 containing the single record `nyaa_id = i64::MAX`, the code stops after
page 1 — `saturating_add` caps `i64::MAX + 74` at `i64::MAX ≤ max` — while
the claim's condition `nyaa_id + 74 ≤ max` is false, so the claimed loop
would fetch all 100 pages. -/
theorem c9_counterexample :
    (loadTorrents (fun p => if p = 1 then [i64Max] else []) i64Max).2 = 1 ∧
      (loadTorrentsClaim (fun p => if p = 1 then [i64Max] else []) i64Max).2 = 100 := by
  decide

theorem loadTorrentsGo_spec (pages : Nat → List Int) (maxId : Int) :
    ∀ (rem i : Nat),
      (loadTorrentsGo pages maxId i rem).2 ≤ rem ∧
      (loadTorrentsGo pages maxId i rem).1 =
        ((List.range' i (loadTorrentsGo pages maxId i rem).2).map pages).flatten ∧
      (∀ k, k + 1 < (loadTorrentsGo pages maxId i rem).2 →
        ((pages (i + k)).any fun t => satAdd74 t ≤ maxId) = false) ∧
      ((loadTorrentsGo pages maxId i rem).2 = rem ∨
        (0 < (loadTorrentsGo pages maxId i rem).2 ∧
          ((pages (i + (loadTorrentsGo pages maxId i rem).2 - 1)).any
            fun t => satAdd74 t ≤ maxId) = true)) := by
  intro rem
  induction rem with
  | zero =>
    intro i
    simp only [loadTorrentsGo]
    exact ⟨Nat.le_refl 0, by simp, fun k hk => absurd hk (by omega), Or.inl trivial⟩
  | succ rem ih =>
    intro i
    by_cases hsaw : ((pages i).any fun t => satAdd74 t ≤ maxId) = true
    · have hgo : loadTorrentsGo pages maxId i (rem + 1) = (pages i, 1) := by
        conv_lhs => rw [loadTorrentsGo]
        rw [hsaw]
        simp
      rw [hgo]
      refine ⟨by omega, by simp [List.range'], fun k hk => absurd hk (by omega), Or.inr ?_⟩
      simpa using hsaw
    · have hsawf : ((pages i).any fun t => satAdd74 t ≤ maxId) = false := by
        revert hsaw
        cases (pages i).any fun t => satAdd74 t ≤ maxId <;> simp
      have hgo : loadTorrentsGo pages maxId i (rem + 1) =
          (pages i ++ (loadTorrentsGo pages maxId (i + 1) rem).1,
           1 + (loadTorrentsGo pages maxId (i + 1) rem).2) := by
        conv_lhs => rw [loadTorrentsGo]
        rw [hsawf]
        simp
      rw [hgo]
      obtain ⟨h1, h2, h3, h4⟩ := ih (i + 1)
      refine ⟨by omega, ?_, ?_, ?_⟩
      · have hr : List.range' i (1 + (loadTorrentsGo pages maxId (i + 1) rem).2) =
            i :: List.range' (i + 1) (loadTorrentsGo pages maxId (i + 1) rem).2 := by
          rw [Nat.add_comm]
          rfl
        rw [hr]
        simp only [List.map_cons, List.flatten_cons]
        rw [h2]
      · intro k hk
        cases k with
        | zero => simpa using hsawf
        | succ k2 =>
          have := h3 k2 (by omega)
          have harith : i + 1 + k2 = i + (k2 + 1) := by omega
          rw [harith] at this
          exact this
      · rcases h4 with h | ⟨hpos, h⟩
        · exact Or.inl (by omega)
        · refine Or.inr ⟨by omega, ?_⟩
          have harith : i + (1 + (loadTorrentsGo pages maxId (i + 1) rem).2) - 1 =
              i + 1 + (loadTorrentsGo pages maxId (i + 1) rem).2 - 1 := by omega
          rw [harith]
          exact h

/-- C9 (amended): the ingest loop fetches at most 100 pages, the fetched
pages are exactly `1 .. pagesFetched`, every fetched page but the last is
free of records with `saturating_add(nyaa_id, 74) ≤ max_ingested_torrent_id`
(the claim's `nyaa_id + 74 ≤ max`, except at the `i64` saturation boundary),
the run ends either at page 100 or at the first page containing such a
record, and the torrents collected up to that point are then inserted in
ascending (non-decreasing) `nyaa_id` order. -/
theorem c9_ingest_loop (pages : Nat → List Int) (maxId : Int) :
    (loadTorrents pages maxId).2 ≤ 100 ∧
      (loadTorrents pages maxId).1 =
        ((List.range' 1 (loadTorrents pages maxId).2).map pages).flatten ∧
      (∀ i, 1 ≤ i → i < (loadTorrents pages maxId).2 →
        ((pages i).any fun t => satAdd74 t ≤ maxId) = false) ∧
      ((loadTorrents pages maxId).2 = 100 ∨
        (0 < (loadTorrents pages maxId).2 ∧
          ((pages (loadTorrents pages maxId).2).any fun t => satAdd74 t ≤ maxId) = true)) ∧
      (insertOrder pages maxId).Sorted (· ≤ ·) ∧
      (insertOrder pages maxId).Perm (loadTorrents pages maxId).1 := by
  unfold insertOrder loadTorrents
  obtain ⟨h1, h2, h3, h4⟩ := loadTorrentsGo_spec pages maxId 100 1
  refine ⟨h1, h2, ?_, ?_, ?_, ?_⟩
  · intro i hi1 hi2
    have := h3 (i - 1) (by omega)
    have harith : 1 + (i - 1) = i := by omega
    rw [harith] at this
    exact this
  · rcases h4 with h | ⟨hpos, h⟩
    · exact Or.inl h
    · refine Or.inr ⟨hpos, ?_⟩
      have harith : 1 + (loadTorrentsGo pages maxId 1 100).2 - 1 =
          (loadTorrentsGo pages maxId 1 100).2 := by
        omega
      rw [harith] at h
      exact h
  · exact List.sorted_insertionSort _ _
  · exact List.perm_insertionSort _ _

unseal findSeason findYear findFormat seasonCaptures in
/-- Witness for `c7_years_formats_nodup` on a concrete database with two
names carrying the same year. -/
theorem c7_years_formats_nodup_witness :
    buildDb [defaultShow] [(0, ["a (2014)".data, "b (2014)".data])] =
        Except.ok (dbOr (buildDb [defaultShow] [(0, ["a (2014)".data, "b (2014)".data])])) ∧
      ∀ s ∈ (dbOr (buildDb [defaultShow] [(0, ["a (2014)".data, "b (2014)".data])])).shows,
        s.years.Nodup ∧ s.formats.Nodup :=
  ⟨by decide,
    c7_years_formats_nodup [defaultShow] [(0, ["a (2014)".data, "b (2014)".data])] _
      (by decide) (by decide)⟩

end Magnets
